import Mathlib

/-!
# Verification of the cbproto wire codec and plugin pipeline

Shallow embedding of the runtime binary wire codec implemented in
`src/cbproto/__init__.py` (varint encoding/decoding, zig-zag, field
framing, message serialization and deserialization) and of the plugin
driver (`cbiproto/plugin/parser.py`, `cbiproto/plugin/utils.py`).

Python integers are modelled as `Int`/`Nat`, byte strings as `List Nat`
(each entry a byte value), Python `str` values by their UTF-8 byte
sequences, and fallible code by `Except String`.  Floating-point fields
(`float`/`double`) are outside the embedding.
-/

namespace CbProto

/-! ## Varint encoding (`encode_varint`, src/cbproto/__init__.py:964) -/

/-- The error message raised by `decode_varint` when `shift >= 64`. -/
def tooManyBytesMsg : String := "Too many bytes when decoding varint."

/-- The error produced when `buffer[pos]` is out of range (Python raises
`IndexError`). -/
def indexErrorMsg : String := "IndexError"

/-- Loop of `encode_varint` with structural fuel (the fuel is set to the
loop argument itself, which strictly decreases, so it never runs out):
`while value: b.append(0x80 | bits); bits = value & 0x7F; value >>= 7`. -/
def encodeVarintGo (fuel : Nat) (bits : Nat) (value : Nat) : List Nat :=
  match fuel with
  | 0 => [bits]
  | fuel + 1 =>
    if value = 0 then [bits]
    else (0x80 ||| bits) :: encodeVarintGo fuel (value &&& 0x7F) (value >>> 7)

/-- Loop of `encode_varint`: `bits` holds the pending low 7 bits, `value`
the remaining high bits. -/
def encodeVarintAux (bits : Nat) (value : Nat) : List Nat :=
  encodeVarintGo value bits value

theorem encodeVarintGo_eq (f1 : Nat) :
    ∀ f2 bits value, value ≤ f1 → value ≤ f2 →
      encodeVarintGo f1 bits value = encodeVarintGo f2 bits value := by
  induction f1 using Nat.strong_induction_on with
  | _ f1 ih =>
    intro f2 bits value h1 h2
    match f1, f2 with
    | 0, 0 => rfl
    | 0, f2 + 1 =>
      have hv : value = 0 := by omega
      subst hv
      rw [encodeVarintGo, encodeVarintGo, if_pos rfl]
    | f1 + 1, 0 =>
      have hv : value = 0 := by omega
      subst hv
      rw [encodeVarintGo, encodeVarintGo, if_pos rfl]
    | f1 + 1, f2 + 1 =>
      rw [encodeVarintGo, encodeVarintGo]
      by_cases h0 : value = 0
      · rw [if_pos h0, if_pos h0]
      · rw [if_neg h0, if_neg h0]
        have hlt : value >>> 7 < value := by
          rw [Nat.shiftRight_eq_div_pow]
          exact Nat.div_lt_self (by omega) (by norm_num)
        rw [ih f1 (by omega) f2 (value &&& 127) (value >>> 7) (by omega) (by omega)]

/-- One-step unfolding of `encodeVarintAux`, matching the source loop. -/
theorem encodeVarintAux_unfold (bits value : Nat) :
    encodeVarintAux bits value =
      if value = 0 then [bits]
      else (0x80 ||| bits) :: encodeVarintAux (value &&& 0x7F) (value >>> 7) := by
  by_cases h0 : value = 0
  · subst h0
    rfl
  · rw [if_neg h0, encodeVarintAux, encodeVarintAux]
    match hval : value with
    | v + 1 =>
      rw [encodeVarintGo, if_neg (by omega)]
      congr 1
      apply encodeVarintGo_eq
      · have hlt : (v + 1) >>> 7 < v + 1 := by
          rw [Nat.shiftRight_eq_div_pow]
          exact Nat.div_lt_self (by omega) (by norm_num)
        omega
      · exact Nat.le_refl _

/-- `encode_varint(value)`: negative values are first shifted by `1 << 64`
(two's complement).  The Python source loops forever on `value < -(1 << 64)`;
the model is total by taking the non-negative part. -/
def encode_varint (value : Int) : List Nat :=
  let v : Int := if value < 0 then value + (1 <<< 64) else value
  encodeVarintAux (v.toNat &&& 0x7F) (v.toNat >>> 7)

/-- Loop of `decode_varint` (src/cbproto/__init__.py:1095) with structural
fuel: read bytes at `pos`, accumulate 7-bit groups into `result` at `shift`,
stop on a byte with the continuation bit clear, fail once `shift` reaches
64.  `10 - shift / 7` units of fuel always suffice because of that guard. -/
def decodeVarintGo (fuel : Nat) (buffer : List Nat) (pos result shift : Nat) :
    Except String (Nat × Nat) :=
  match fuel with
  | 0 => .error tooManyBytesMsg
  | fuel + 1 =>
    match buffer.get? pos with
    | none => .error indexErrorMsg
    | some b =>
      let result' := result ||| ((b &&& 0x7F) <<< shift)
      if b &&& 0x80 = 0 then .ok (result', pos + 1)
      else if shift + 7 ≥ 64 then .error tooManyBytesMsg
      else decodeVarintGo fuel buffer (pos + 1) result' (shift + 7)

def decodeVarintAux (buffer : List Nat) (pos result shift : Nat) :
    Except String (Nat × Nat) :=
  decodeVarintGo (10 - shift / 7) buffer pos result shift

/-- One-step unfolding of `decodeVarintAux`, matching the source loop, valid
whenever `shift < 64` (which the `shift >= 64` guard maintains). -/
theorem decodeVarintAux_unfold (buffer : List Nat) (pos result shift : Nat)
    (hs : shift < 64) :
    decodeVarintAux buffer pos result shift =
      match buffer.get? pos with
      | none => .error indexErrorMsg
      | some b =>
        let result' := result ||| ((b &&& 0x7F) <<< shift)
        if b &&& 0x80 = 0 then .ok (result', pos + 1)
        else if shift + 7 ≥ 64 then .error tooManyBytesMsg
        else decodeVarintAux buffer (pos + 1) result' (shift + 7) := by
  have hfuel : 10 - shift / 7 = (10 - (shift + 7) / 7) + 1 := by
    have h7 : (shift + 7) / 7 = shift / 7 + 1 := Nat.add_div_right shift (by norm_num)
    have : shift / 7 ≤ 9 := by omega
    omega
  rw [decodeVarintAux, hfuel, decodeVarintGo]
  cases buffer.get? pos with
  | none => rfl
  | some b =>
    simp only []
    by_cases hc : b &&& 0x80 = 0
    · rw [if_pos hc, if_pos hc]
    · rw [if_neg hc, if_neg hc]
      by_cases hg : shift + 7 ≥ 64
      · rw [if_pos hg, if_pos hg]
      · rw [if_neg hg, if_neg hg]
        rfl

/-- `decode_varint(buffer, pos)`: returns the decoded value and the new
position. -/
def decode_varint (buffer : List Nat) (pos : Nat) : Except String (Nat × Nat) :=
  decodeVarintAux buffer pos 0 0

/-! ### Varint reasoning helpers -/

/-- List-consuming restatement of the `decode_varint` loop: consumes from
the head of `bs` and reports the number of consumed bytes. -/
def decodeVarintList (bs : List Nat) (result shift : Nat) :
    Except String (Nat × Nat) :=
  match bs with
  | [] => .error indexErrorMsg
  | b :: rest =>
    let result' := result ||| ((b &&& 0x7F) <<< shift)
    if b &&& 0x80 = 0 then .ok (result', 1)
    else if shift + 7 ≥ 64 then .error tooManyBytesMsg
    else (decodeVarintList rest result' (shift + 7)).map fun p => (p.1, p.2 + 1)

theorem decodeVarintAux_eq_list_aux (buffer : List Nat) :
    ∀ n pos r s, s < 64 → 64 - s ≤ n →
      decodeVarintAux buffer pos r s =
        (decodeVarintList (buffer.drop pos) r s).map fun p => (p.1, pos + p.2) := by
  intro n
  induction n with
  | zero =>
    intro pos r s hs hn
    omega
  | succ n ih =>
    intro pos r s hs hn
    rw [decodeVarintAux_unfold buffer pos r s hs]
    cases hget : buffer.get? pos with
    | none =>
      have hlen : buffer.length ≤ pos := List.get?_eq_none.mp hget
      rw [List.drop_eq_nil_of_le hlen, decodeVarintList]
      rfl
    | some b =>
      have hlt : pos < buffer.length := by
        by_contra hc
        rw [List.get?_eq_none.mpr (by omega)] at hget
        exact Option.noConfusion hget
      have hb : buffer[pos] = b := by
        have := List.get?_eq_getElem? buffer pos
        rw [hget, List.getElem?_eq_getElem hlt] at this
        exact (Option.some.injEq _ _ ▸ this.symm)
      rw [List.drop_eq_getElem_cons hlt, hb, decodeVarintList]
      simp only []
      by_cases hc : b &&& 0x80 = 0
      · rw [if_pos hc, if_pos hc]
        rfl
      · rw [if_neg hc, if_neg hc]
        by_cases hg : s + 7 ≥ 64
        · rw [if_pos hg, if_pos hg]
          rfl
        · rw [if_neg hg, if_neg hg]
          rw [ih (pos + 1) (r ||| ((b &&& 127) <<< s)) (s + 7) (by omega) (by omega)]
          cases decodeVarintList (buffer.drop (pos + 1))
              (r ||| ((b &&& 127) <<< s)) (s + 7) with
          | error e => rfl
          | ok p =>
            simp [Except.map]
            omega

theorem decodeVarintAux_eq_list (buffer : List Nat) (pos r s : Nat)
    (hs : s < 64) :
    decodeVarintAux buffer pos r s =
      (decodeVarintList (buffer.drop pos) r s).map fun p => (p.1, pos + p.2) :=
  decodeVarintAux_eq_list_aux buffer 64 pos r s hs (by omega)

theorem lor_mul_two_pow_eq_add (k a b : Nat) (h : a < 2 ^ k) :
    a ||| b * 2 ^ k = a + b * 2 ^ k := by
  induction k generalizing a b with
  | zero =>
    have ha : a = 0 := by omega
    subst ha
    simp
  | succ k ih =>
    have hd : Nat.bit (a.testBit 0) (a >>> 1) = a :=
      Nat.bit_testBit_zero_shiftRight_one a
    have hbit : b * 2 ^ (k + 1) = Nat.bit false (b * 2 ^ k) := by
      simp only [Nat.bit_val, Bool.toNat_false, Nat.add_zero]
      ring
    have ha2 : a >>> 1 < 2 ^ k := by
      rw [Nat.shiftRight_one]
      have : 2 ^ (k + 1) = 2 * 2 ^ k := by ring
      omega
    have hval : a = 2 * (a >>> 1) + (a.testBit 0).toNat := by
      have hv := Nat.bit_val (a.testBit 0) (a >>> 1)
      rw [hd] at hv
      omega
    calc a ||| b * 2 ^ (k + 1)
        = Nat.bit (a.testBit 0) (a >>> 1) ||| Nat.bit false (b * 2 ^ k) := by
          rw [hd, ← hbit]
      _ = Nat.bit (a.testBit 0 || false) ((a >>> 1) ||| b * 2 ^ k) :=
          Nat.lor_bit _ _ _ _
      _ = Nat.bit (a.testBit 0) ((a >>> 1) + b * 2 ^ k) := by
          rw [Bool.or_false, ih _ _ ha2]
      _ = a + b * 2 ^ (k + 1) := by
          rw [Nat.bit_val]
          have h2 : b * 2 ^ (k + 1) = 2 * (b * 2 ^ k) := by ring
          omega

/-- Byte-level facts used when tracing the varint loop (all bytes are
less than 256; continuation bytes have bit 7 set). -/
theorem byte_facts : ∀ b : Nat, b < 128 →
    b &&& 127 = b ∧ b &&& 128 = 0 ∧ (128 ||| b) = 128 + b ∧
    (128 + b) &&& 127 = b ∧ (128 + b) &&& 128 = 128 := by decide

theorem and_127_eq_mod (x : Nat) : x &&& 127 = x % 128 := by
  have := Nat.and_pow_two_sub_one_eq_mod x 7
  norm_num at this
  exact this

theorem decodeVarintList_encodeVarintAux :
    ∀ (value bits : Nat), bits < 128 →
    ∀ (rest : List Nat) (r s : Nat), r < 2 ^ s → value < 2 ^ (57 - s) →
    decodeVarintList (encodeVarintAux bits value ++ rest) r s =
      .ok (r + (bits + 128 * value) * 2 ^ s,
        (encodeVarintAux bits value).length) := by
  intro value
  induction value using Nat.strong_induction_on with
  | _ value ih =>
    intro bits hbits rest r s hr hv
    obtain ⟨hf1, hf2, hf3, hf4, hf5⟩ := byte_facts bits hbits
    by_cases h0 : value = 0
    · subst h0
      rw [encodeVarintAux_unfold, if_pos rfl, List.cons_append, decodeVarintList]
      simp only [hf1, hf2, if_pos rfl]
      rw [Nat.shiftLeft_eq, lor_mul_two_pow_eq_add s r bits hr]
      norm_num
    · rw [encodeVarintAux_unfold, if_neg h0, List.cons_append, decodeVarintList]
      simp only [hf3, hf4, hf5]
      have hs56 : s ≤ 56 := by
        by_contra hs
        have h570 : 57 - s = 0 := by omega
        rw [h570, pow_zero] at hv
        omega
      have hguard : ¬ (s + 7 ≥ 64) := by omega
      rw [if_neg (by norm_num : ¬ (128 = 0)), if_neg hguard]
      have hlt : value >>> 7 < value := by
        rw [Nat.shiftRight_eq_div_pow]
        exact Nat.div_lt_self (by omega) (by norm_num)
      have hbits2 : value &&& 127 < 128 := by
        rw [and_127_eq_mod]
        omega
      have hr2 : r ||| bits <<< s < 2 ^ (s + 7) := by
        rw [Nat.shiftLeft_eq, lor_mul_two_pow_eq_add s r bits hr, pow_add]
        have : bits * 2 ^ s ≤ 127 * 2 ^ s := by
          exact Nat.mul_le_mul_right _ (by omega)
        nlinarith [pow_pos (by norm_num : (0:ℕ) < 2) s]
      have hv2 : value >>> 7 < 2 ^ (57 - (s + 7)) := by
        rw [Nat.shiftRight_eq_div_pow]
        by_cases hcase : s ≤ 50
        · have h1 : 57 - s = (57 - (s + 7)) + 7 := by omega
          rw [h1, pow_add] at hv
          rw [Nat.div_lt_iff_lt_mul (by norm_num : 0 < 2 ^ 7)]
          exact hv
        · have h1 : value < 128 := by
            have : (2:ℕ) ^ (57 - s) ≤ 2 ^ 6 := by
              apply Nat.pow_le_pow_right (by norm_num)
              omega
            omega
          have h2 : value / 2 ^ 7 = 0 := Nat.div_eq_of_lt (by omega)
          rw [h2]
          exact Nat.pos_pow_of_pos _ (by norm_num)
      rw [ih (value >>> 7) hlt (value &&& 127) hbits2 rest _ (s + 7) hr2 hv2]
      have hsplit : (value &&& 127) + 128 * (value >>> 7) = value := by
        rw [and_127_eq_mod, Nat.shiftRight_eq_div_pow]
        norm_num
        omega
      have hkey : (r ||| bits <<< s) + ((value &&& 127) + 128 * (value >>> 7)) * 2 ^ (s + 7)
          = r + (bits + 128 * value) * 2 ^ s := by
        rw [hsplit, Nat.shiftLeft_eq, lor_mul_two_pow_eq_add s r bits hr]
        ring
      simp only [Except.map]
      rw [hkey]
      simp [List.length_cons]

theorem encodeVarintAux_length_le (value bits : Nat) (k : Nat)
    (hv : value < 2 ^ (7 * k)) :
    (encodeVarintAux bits value).length ≤ k + 1 := by
  induction value using Nat.strong_induction_on generalizing bits k with
  | _ value ih =>
    by_cases h0 : value = 0
    · subst h0
      rw [encodeVarintAux_unfold, if_pos rfl]
      simp
    · rw [encodeVarintAux_unfold, if_neg h0]
      have hlt : value >>> 7 < value := by
        rw [Nat.shiftRight_eq_div_pow]
        exact Nat.div_lt_self (by omega) (by norm_num)
      have hk : 1 ≤ k := by
        by_contra hk0
        have : k = 0 := by omega
        subst this
        simp at hv
        omega
      have hv2 : value >>> 7 < 2 ^ (7 * (k - 1)) := by
        rw [Nat.shiftRight_eq_div_pow]
        rw [Nat.div_lt_iff_lt_mul (by norm_num : 0 < 2 ^ 7)]
        calc value < 2 ^ (7 * k) := hv
          _ = 2 ^ (7 * (k - 1)) * 2 ^ 7 := by
            rw [← pow_add]
            congr 1
            omega
      have := ih (value >>> 7) hlt (value &&& 127) (k - 1) hv2
      simp only [List.length_cons]
      omega

/-! ## Zig-zag and sign extension (`_preprocess_single`, `_postprocess_single`) -/

/-- Zig-zag transform applied by `_preprocess_single` for `sint32`/`sint64`:
`value << 1 if value >= 0 else (value << 1) ^ (~0)` (Python `~0` is `-1`). -/
def zigZag (value : Int) : Int :=
  if 0 ≤ value then value <<< 1 else Int.xor (value <<< 1) (-1)

/-- `_postprocess_single` for `sint32`/`sint64`:
`value = (value >> 1) ^ (-(value & 1))` on the non-negative varint value. -/
def unZigZag (value : Nat) : Int :=
  Int.xor ((value : Int) >>> (1 : Int)) (-((value &&& 1 : Nat) : Int))

/-- `_postprocess_single` for `int32`/`int64`:
`bits = int(meta.proto_type[3:])`, `value &= (1 << bits) - 1`,
`signbit = 1 << (bits - 1)`, `value = int((value ^ signbit) - signbit)`. -/
def signExtend (bits : Nat) (value : Nat) : Int :=
  let masked := value &&& ((1 <<< bits) - 1)
  let signbit : Nat := 1 <<< (bits - 1)
  ((masked ^^^ signbit : Nat) : Int) - (signbit : Int)

/-- The non-negative integer actually transmitted by `encode_varint`
(`value += 1 << 64` for negative inputs). -/
def varintRepr (value : Int) : Nat :=
  (if value < 0 then value + (1 <<< 64) else value).toNat

/-- `encode_varint` on the non-negative integers it actually transmits. -/
def encodeVarintNat (v : Nat) : List Nat :=
  encodeVarintAux (v &&& 0x7F) (v >>> 7)

theorem encode_varint_eq_nat (value : Int) :
    encode_varint value = encodeVarintNat (varintRepr value) := by
  rw [encode_varint, encodeVarintNat, varintRepr]

theorem encode_varint_natCast (v : Nat) :
    encode_varint (v : Int) = encodeVarintNat v := by
  rw [encode_varint_eq_nat, varintRepr, if_neg (by omega), Int.toNat_natCast]

theorem and_127_add_shift (v : Nat) : (v &&& 127) + 128 * (v >>> 7) = v := by
  rw [and_127_eq_mod, Nat.shiftRight_eq_div_pow]
  norm_num
  omega

theorem decodeVarintList_encodeVarintNat (v : Nat) (hv : v < 2 ^ 64)
    (rest : List Nat) :
    decodeVarintList (encodeVarintNat v ++ rest) 0 0 =
      .ok (v, (encodeVarintNat v).length) := by
  have hbits : v &&& 127 < 128 := by
    rw [and_127_eq_mod]
    omega
  have hv7 : v >>> 7 < 2 ^ (57 - 0) := by
    rw [Nat.shiftRight_eq_div_pow, Nat.div_lt_iff_lt_mul (by norm_num : 0 < 2 ^ 7)]
    calc v < 2 ^ 64 := hv
      _ ≤ 2 ^ 57 * 2 ^ 7 := by norm_num
  have h := decodeVarintList_encodeVarintAux (v >>> 7) (v &&& 127) hbits rest
    0 0 (by norm_num) hv7
  rw [encodeVarintNat, h, pow_zero, mul_one, Nat.zero_add, and_127_add_shift]

/-- Decoding a varint embedded at an arbitrary position of a larger buffer
recovers the encoded value and advances past exactly its bytes. -/
theorem decode_varint_encoded (v : Nat) (hv : v < 2 ^ 64) (pre rest : List Nat) :
    decode_varint (pre ++ (encodeVarintNat v ++ rest)) pre.length =
      .ok (v, pre.length + (encodeVarintNat v).length) := by
  rw [decode_varint, decodeVarintAux_eq_list _ _ _ _ (by norm_num), List.drop_left,
    decodeVarintList_encodeVarintNat v hv rest]
  rfl

theorem encodeVarintNat_length_le (v : Nat) (hv : v < 2 ^ 64) :
    (encodeVarintNat v).length ≤ 10 := by
  have h7 : v >>> 7 < 2 ^ (7 * 9) := by
    rw [Nat.shiftRight_eq_div_pow, Nat.div_lt_iff_lt_mul (by norm_num : 0 < 2 ^ 7)]
    calc v < 2 ^ 64 := hv
      _ ≤ 2 ^ 63 * 2 ^ 7 := by norm_num
  exact encodeVarintAux_length_le (v >>> 7) (v &&& 127) 9 h7

theorem zigZag_eq (n : Int) : zigZag n = if 0 ≤ n then 2 * n else -(2 * n) - 1 := by
  cases n with
  | ofNat k =>
    have hpos : (0 : ℤ) ≤ Int.ofNat k := Int.natCast_nonneg k
    rw [zigZag, if_pos hpos, if_pos hpos]
    rw [show (1 : ℤ) = ((1 : ℕ) : ℤ) from rfl, Int.shiftLeft_eq_mul_pow]
    push_cast
    ring
  | negSucc k =>
    have hneg : ¬ (0 : ℤ) ≤ Int.negSucc k := by
      rw [Int.negSucc_eq]
      omega
    rw [zigZag, if_neg hneg, if_neg hneg]
    have h1 : Int.negSucc k <<< (1 : ℤ) = Int.negSucc (2 * k + 1) := by
      rw [show (1 : ℤ) = ((1 : ℕ) : ℤ) from rfl, Int.shiftLeft_negSucc]
      congr 1
    rw [h1, show (-1 : ℤ) = Int.negSucc 0 from rfl]
    show ((2 * k + 1) ^^^ 0 : ℕ) = -(2 * Int.negSucc k) - 1
    rw [Nat.xor_zero, Int.negSucc_eq]
    push_cast
    ring

theorem unZigZag_zigZag (n : Int) : unZigZag (zigZag n).toNat = n := by
  rw [zigZag_eq]
  by_cases h : 0 ≤ n
  · rw [if_pos h]
    obtain ⟨k, rfl⟩ := Int.eq_ofNat_of_zero_le h
    have ht : (2 * (k : ℤ)).toNat = 2 * k := by omega
    rw [ht, unZigZag]
    have hand : (2 * k) &&& 1 = 0 := by
      rw [Nat.and_one_is_mod]
      omega
    rw [hand, Nat.cast_zero, neg_zero,
      show (1 : ℤ) = ((1 : ℕ) : ℤ) from rfl, Int.shiftRight_coe_nat]
    have hsh : (2 * k) >>> 1 = k := by
      rw [Nat.shiftRight_one]
      omega
    rw [hsh, show ((0 : ℤ)) = ((0 : ℕ) : ℤ) from rfl]
    show ((k ^^^ 0 : ℕ) : ℤ) = (k : ℤ)
    rw [Nat.xor_zero]
  · rw [if_neg h]
    obtain ⟨k, rfl⟩ : ∃ k : ℕ, n = Int.negSucc k := by
      cases n with
      | ofNat m => exact absurd (Int.natCast_nonneg m) h
      | negSucc m => exact ⟨m, rfl⟩
    have ht : (-(2 * Int.negSucc k) - 1).toNat = 2 * k + 1 := by
      rw [Int.negSucc_eq]
      omega
    rw [ht, unZigZag]
    have hand : (2 * k + 1) &&& 1 = 1 := by
      rw [Nat.and_one_is_mod]
      omega
    rw [hand]
    have hsh : (2 * k + 1) >>> 1 = k := by
      rw [Nat.shiftRight_one]
      omega
    show Int.xor ((((2 * k + 1) : ℕ) : ℤ) >>> (1 : ℤ)) (Int.negSucc 0) = Int.negSucc k
    rw [show ((((2 * k + 1) : ℕ) : ℤ) >>> (1 : ℤ)) = ((((2 * k + 1) >>> 1 : ℕ)) : ℤ)
      from rfl, hsh]
    show Int.negSucc (k ^^^ 0) = Int.negSucc k
    rw [Nat.xor_zero]

theorem and_two_pow_eq_zero (a k : Nat) (h : a < 2 ^ k) : a &&& 2 ^ k = 0 := by
  rw [Nat.and_two_pow, Nat.testBit_lt_two_pow h]
  simp

theorem xor_two_pow_eq_add (a k : Nat) (h : a < 2 ^ k) :
    a ^^^ 2 ^ k = a + 2 ^ k := by
  have hor : a ||| 2 ^ k = a + 2 ^ k := by
    have := lor_mul_two_pow_eq_add k a 1 h
    simpa using this
  rw [← hor]
  apply Nat.eq_of_testBit_eq
  intro i
  rw [Nat.testBit_xor, Nat.testBit_lor]
  have hb : (a.testBit i && (2 ^ k).testBit i) = false := by
    by_cases hik : i = k
    · subst hik
      rw [Nat.testBit_lt_two_pow h]
      simp
    · rw [Nat.testBit_two_pow]
      simp [Ne.symm hik]
  cases hx : a.testBit i <;> cases hy : (2 ^ k).testBit i <;>
    simp_all

/-- Evaluation of the mask/xor/subtract dance of `_postprocess_single` on an
arbitrary decoded varint value. -/
theorem signExtend_eq (bits : Nat) (hb1 : 1 ≤ bits) (X : Nat) :
    signExtend bits X =
      if X % 2 ^ bits < 2 ^ (bits - 1) then ((X % 2 ^ bits : Nat) : ℤ)
      else ((X % 2 ^ bits : Nat) : ℤ) - ((2 ^ bits : Nat) : ℤ) := by
  have hsplitpow : (2 : ℕ) ^ bits = 2 ^ (bits - 1) * 2 := by
    rw [← pow_succ]
    congr 1
    omega
  rw [signExtend]
  simp only [Nat.one_shiftLeft, Nat.and_pow_two_sub_one_eq_mod]
  set masked := X % 2 ^ bits with hm
  by_cases hlt : masked < 2 ^ (bits - 1)
  · rw [if_pos hlt, xor_two_pow_eq_add masked (bits - 1) hlt]
    push_cast
    ring
  · rw [if_neg hlt]
    have hub : masked < 2 ^ bits := Nat.mod_lt _ (Nat.pos_pow_of_pos _ (by norm_num))
    have hx : masked ^^^ 2 ^ (bits - 1) = masked - 2 ^ (bits - 1) := by
      have hmlt : masked - 2 ^ (bits - 1) < 2 ^ (bits - 1) := by omega
      have h1 : (masked - 2 ^ (bits - 1)) ^^^ 2 ^ (bits - 1) = masked := by
        rw [xor_two_pow_eq_add _ _ hmlt]
        omega
      calc masked ^^^ 2 ^ (bits - 1)
          = ((masked - 2 ^ (bits - 1)) ^^^ 2 ^ (bits - 1)) ^^^ 2 ^ (bits - 1) := by
            rw [h1]
        _ = masked - 2 ^ (bits - 1) := Nat.xor_cancel_right _ _
    rw [hx]
    omega

/-- Decoding the two's-complement transmitted value of `n` with the
`int32`/`int64` post-processing recovers `n`. -/
theorem signExtend_varintRepr (bits : Nat) (hb1 : 1 ≤ bits) (hb2 : bits ≤ 64)
    (n : Int) (hlo : -(2 ^ (bits - 1)) ≤ n) (hhi : n < 2 ^ (bits - 1)) :
    signExtend bits (varintRepr n) = n := by
  have hsplitpow : (2 : ℤ) ^ bits = 2 ^ (bits - 1) * 2 := by
    rw [← pow_succ]
    congr 1
    omega
  rw [signExtend_eq bits hb1]
  have hble : (2 : ℤ) ^ (bits - 1) ≤ 2 ^ 64 := by
    apply pow_le_pow_right₀ (by norm_num)
    omega
  by_cases hneg : n < 0
  · have hXval : ((varintRepr n : Nat) : ℤ) = n + 2 ^ 64 := by
      rw [varintRepr, if_pos hneg]
      simp only [Nat.one_shiftLeft]
      rw [Int.toNat_of_nonneg (by push_cast; omega)]
      push_cast
      ring
    have hmod : ((varintRepr n % 2 ^ bits : Nat) : ℤ) = n + 2 ^ bits := by
      push_cast
      rw [hXval]
      have hdecomp : (2 : ℤ) ^ 64 = 2 ^ bits * 2 ^ (64 - bits) := by
        rw [← pow_add]
        congr 1
        omega
      rw [hdecomp, Int.add_mul_emod_self_left]
      calc n % (2 : ℤ) ^ bits = (n + 2 ^ bits) % 2 ^ bits := by
            conv_rhs => rw [show n + (2 : ℤ) ^ bits = n + 2 ^ bits * 1 by ring]
            rw [Int.add_mul_emod_self_left]
        _ = n + 2 ^ bits := Int.emod_eq_of_lt (by omega) (by omega)
    have hge : ¬ (varintRepr n % 2 ^ bits < 2 ^ (bits - 1)) := by
      intro hcon
      have hc2 : ((varintRepr n % 2 ^ bits : Nat) : ℤ) < ((2 ^ (bits - 1) : Nat) : ℤ) := by
        exact_mod_cast hcon
      rw [hmod] at hc2
      push_cast at hc2
      omega
    rw [if_neg hge, hmod]
    push_cast
    omega
  · have hXval : ((varintRepr n : Nat) : ℤ) = n := by
      rw [varintRepr, if_neg hneg, Int.toNat_of_nonneg (by omega)]
    have hX2 : varintRepr n < 2 ^ bits := by
      have hc : ((varintRepr n : Nat) : ℤ) < ((2 ^ bits : Nat) : ℤ) := by
        rw [hXval]
        push_cast
        omega
      exact_mod_cast hc
    have hmodeq : varintRepr n % 2 ^ bits = varintRepr n := Nat.mod_eq_of_lt hX2
    have hlt2 : varintRepr n % 2 ^ bits < 2 ^ (bits - 1) := by
      rw [hmodeq]
      have hc : ((varintRepr n : Nat) : ℤ) < ((2 ^ (bits - 1) : Nat) : ℤ) := by
        rw [hXval]
        push_cast
        omega
      exact_mod_cast hc
    rw [if_pos hlt2, hmodeq, hXval]

theorem varintRepr_lt (n : Int) (hlo : -(2 ^ 63) ≤ n) (hhi : n < 2 ^ 64) :
    varintRepr n < 2 ^ 64 := by
  rw [varintRepr]
  by_cases h : n < 0
  · rw [if_pos h]
    simp only [Nat.one_shiftLeft]
    push_cast
    omega
  · rw [if_neg h]
    omega

theorem decode_encode_varint (value : Int) (h : varintRepr value < 2 ^ 64) :
    decode_varint (encode_varint value) 0 =
      .ok (varintRepr value, (encode_varint value).length) := by
  rw [encode_varint_eq_nat]
  have hd := decode_varint_encoded (varintRepr value) h [] []
  simpa using hd

/-! ## Claim C4: varint and zig-zag round trips -/

theorem zigZag_nonneg (n : Int) : 0 ≤ zigZag n := by
  rw [zigZag_eq]
  split <;> omega

theorem varintRepr_zigZag (n : Int) : varintRepr (zigZag n) = (zigZag n).toNat := by
  rw [varintRepr, if_neg (not_lt.mpr (zigZag_nonneg n))]

/-- C4: for every integer `n ∈ [-2^63, 2^63)`: decoding the varint encoding
of `n` (negatives transmitted as two's-complement 64-bit via
`value += 1 << 64`) returns the transmitted value, and the `int64`
(resp. `int32`, when `n` is in range) mask-and-sign-bit post-processing
recovers `n`; and for `sint32`/`sint64`, un-zig-zag of the zig-zag encoding
of `n` (round-tripped through the varint codec) returns `n`. -/
theorem c4_varint_roundtrip (n : Int) (hlo : -(2 ^ 63) ≤ n) (hhi : n < 2 ^ 63) :
    (decode_varint (encode_varint n) 0 =
        .ok (varintRepr n, (encode_varint n).length)
      ∧ signExtend 64 (varintRepr n) = n)
    ∧ (-(2 ^ 31) ≤ n → n < 2 ^ 31 → signExtend 32 (varintRepr n) = n)
    ∧ (decode_varint (encode_varint (zigZag n)) 0 =
        .ok ((zigZag n).toNat, (encode_varint (zigZag n)).length)
      ∧ unZigZag ((zigZag n).toNat) = n) := by
  have hrepr : varintRepr n < 2 ^ 64 := varintRepr_lt n (by omega) (by omega)
  have hz : 0 ≤ zigZag n := zigZag_nonneg n
  have hzlt : zigZag n < 2 ^ 64 := by
    rw [zigZag_eq]
    split <;> omega
  have hzrepr : varintRepr (zigZag n) < 2 ^ 64 := by
    rw [varintRepr_zigZag]
    omega
  refine ⟨⟨decode_encode_varint n hrepr, ?_⟩, ?_, ?_⟩
  · exact signExtend_varintRepr 64 (by norm_num) (by norm_num) n
      (by norm_num; omega) (by norm_num; omega)
  · intro h31lo h31hi
    exact signExtend_varintRepr 32 (by norm_num) (by norm_num) n
      (by norm_num; omega) (by norm_num; omega)
  · constructor
    · have := decode_encode_varint (zigZag n) hzrepr
      rwa [varintRepr_zigZag] at this
    · exact unZigZag_zigZag n

theorem c4_varint_roundtrip_witness :
    -(2 ^ 63) ≤ (-3 : ℤ) ∧ ((-3 : ℤ) < 2 ^ 63) ∧
      ((decode_varint (encode_varint (-3)) 0 =
          .ok (varintRepr (-3), (encode_varint (-3)).length)
        ∧ signExtend 64 (varintRepr (-3)) = -3)
      ∧ (-(2 ^ 31) ≤ (-3 : ℤ) → (-3 : ℤ) < 2 ^ 31 →
          signExtend 32 (varintRepr (-3)) = -3)
      ∧ (decode_varint (encode_varint (zigZag (-3))) 0 =
          .ok ((zigZag (-3)).toNat, (encode_varint (zigZag (-3))).length)
        ∧ unZigZag ((zigZag (-3)).toNat) = -3)) :=
  ⟨by norm_num, by norm_num,
    c4_varint_roundtrip (-3) (by norm_num) (by norm_num)⟩

/-! ## Claim C5: the 10-byte varint limit -/

set_option maxRecDepth 2000 in
theorem byte_cont_iff : ∀ b : Nat, b < 256 → ((b &&& 128 = 0) ↔ b < 128) := by
  decide

theorem c5_aux (buffer : List Nat) (hbytes : ∀ b ∈ buffer, b < 256) :
    ∀ m : Nat, m ≤ 9 → ∀ pos r : Nat,
      (decodeVarintAux buffer pos r (7 * (9 - m)) = .error tooManyBytesMsg ↔
        ∀ j, j < m + 1 → ∃ b, buffer.get? (pos + j) = some b ∧ 128 ≤ b)
      ∧ (∀ k, k < m + 1 →
          (∀ j, j < k → ∃ b, buffer.get? (pos + j) = some b ∧ 128 ≤ b) →
          (∃ b, buffer.get? (pos + k) = some b ∧ b < 128) →
          ∃ v, decodeVarintAux buffer pos r (7 * (9 - m)) = .ok (v, pos + k + 1)) := by
  intro m
  induction m with
  | zero =>
    intro hm pos r
    rw [decodeVarintAux_unfold buffer pos r _ (by omega)]
    cases hget : buffer.get? pos with
    | none =>
      constructor
      · constructor
        · intro hcon
          exact absurd (Except.error.inj hcon) (by decide)
        · intro hall
          obtain ⟨b, hb, hge⟩ := hall 0 (by omega)
          rw [Nat.add_zero, hget] at hb
          exact Option.noConfusion hb
      · intro k hk hcont ⟨b, hb, hlt⟩
        have hk0 : k = 0 := by omega
        subst hk0
        rw [Nat.add_zero, hget] at hb
        exact Option.noConfusion hb
    | some b =>
      have hb256 : b < 256 := hbytes b (List.get?_mem hget)
      by_cases hcont : b &&& 128 = 0
      · have hblt : b < 128 := (byte_cont_iff b hb256).mp hcont
        simp only [if_pos hcont]
        constructor
        · constructor
          · intro hcon
            exact Except.noConfusion hcon
          · intro hall
            obtain ⟨c, hc, hge⟩ := hall 0 (by omega)
            rw [Nat.add_zero, hget] at hc
            obtain rfl : b = c := Option.some.inj hc
            omega
        · intro k hk hprev ⟨c, hc, hlt⟩
          have hk0 : k = 0 := by omega
          subst hk0
          exact ⟨_, rfl⟩
      · have hbge : 128 ≤ b := by
          rcases Nat.lt_or_ge b 128 with h | h
          · exact absurd ((byte_cont_iff b hb256).mpr h) hcont
          · exact h
        simp only [if_neg hcont, if_pos (by omega : 7 * (9 - 0) + 7 ≥ 64)]
        constructor
        · constructor
          · intro _
            intro j hj
            have hj0 : j = 0 := by omega
            subst hj0
            exact ⟨b, by rw [Nat.add_zero]; exact hget, hbge⟩
          · intro _
            trivial
        · intro k hk hprev ⟨c, hc, hlt⟩
          have hk0 : k = 0 := by omega
          subst hk0
          rw [Nat.add_zero, hget] at hc
          obtain rfl : b = c := Option.some.inj hc
          omega
  | succ m ih =>
    intro hm pos r
    have hshift : 7 * (9 - (m + 1)) + 7 = 7 * (9 - m) := by omega
    rw [decodeVarintAux_unfold buffer pos r _ (by omega)]
    cases hget : buffer.get? pos with
    | none =>
      constructor
      · constructor
        · intro hcon
          exact absurd (Except.error.inj hcon) (by decide)
        · intro hall
          obtain ⟨b, hb, hge⟩ := hall 0 (by omega)
          rw [Nat.add_zero, hget] at hb
          exact Option.noConfusion hb
      · intro k hk hcont ⟨b, hb, hlt⟩
        by_cases hk0 : k = 0
        · subst hk0
          rw [Nat.add_zero, hget] at hb
          exact Option.noConfusion hb
        · obtain ⟨c, hc, _⟩ := hcont 0 (by omega)
          rw [Nat.add_zero, hget] at hc
          exact Option.noConfusion hc
    | some b =>
      have hb256 : b < 256 := hbytes b (List.get?_mem hget)
      by_cases hcont : b &&& 128 = 0
      · have hblt : b < 128 := (byte_cont_iff b hb256).mp hcont
        simp only [if_pos hcont]
        constructor
        · constructor
          · intro hcon
            exact Except.noConfusion hcon
          · intro hall
            obtain ⟨c, hc, hge⟩ := hall 0 (by omega)
            rw [Nat.add_zero, hget] at hc
            obtain rfl : b = c := Option.some.inj hc
            omega
        · intro k hk hprev ⟨c, hc, hlt⟩
          by_cases hk0 : k = 0
          · subst hk0
            exact ⟨_, rfl⟩
          · obtain ⟨d, hd, hge⟩ := hprev 0 (by omega)
            rw [Nat.add_zero, hget] at hd
            obtain rfl : b = d := Option.some.inj hd
            omega
      · have hbge : 128 ≤ b := by
          rcases Nat.lt_or_ge b 128 with h | h
          · exact absurd ((byte_cont_iff b hb256).mpr h) hcont
          · exact h
        have hguard : ¬ (7 * (9 - (m + 1)) + 7 ≥ 64) := by omega
        simp only [if_neg hcont, if_neg hguard]
        rw [hshift]
        obtain ⟨ihe, ihs⟩ := ih (by omega) (pos + 1) (r ||| ((b &&& 127) <<< (7 * (9 - (m + 1)))))
        constructor
        · rw [ihe]
          constructor
          · intro hall j hj
            by_cases hj0 : j = 0
            · subst hj0
              exact ⟨b, by rw [Nat.add_zero]; exact hget, hbge⟩
            · obtain ⟨c, hc, hge⟩ := hall (j - 1) (by omega)
              refine ⟨c, ?_, hge⟩
              rw [show pos + j = pos + 1 + (j - 1) by omega]
              exact hc
          · intro hall j hj
            obtain ⟨c, hc, hge⟩ := hall (j + 1) (by omega)
            refine ⟨c, ?_, hge⟩
            rw [show pos + 1 + j = pos + (j + 1) by omega]
            exact hc
        · intro k hk hprev hstop
          by_cases hk0 : k = 0
          · subst hk0
            obtain ⟨c, hc, hlt⟩ := hstop
            rw [Nat.add_zero, hget] at hc
            obtain rfl : b = c := Option.some.inj hc
            omega
          · obtain ⟨v, hv⟩ := ihs (k - 1) (by omega)
              (by
                intro j hj
                obtain ⟨c, hc, hge⟩ := hprev (j + 1) (by omega)
                refine ⟨c, ?_, hge⟩
                rw [show pos + 1 + j = pos + (j + 1) by omega]
                exact hc)
              (by
                obtain ⟨c, hc, hlt⟩ := hstop
                refine ⟨c, ?_, hlt⟩
                rw [show pos + 1 + (k - 1) = pos + k by omega]
                exact hc)
            have harith : pos + 1 + (k - 1) + 1 = pos + k + 1 := by omega
            rw [harith] at hv
            exact ⟨v, hv⟩

/-- C5: decoding a varint yields the named `ValueError`
("Too many bytes when decoding varint.", i.e. `shift` reached 64) exactly
when ten consecutive bytes with the continuation bit set are consumed; and
every varint of at most 10 bytes whose last byte clears the continuation
bit decodes successfully. -/
theorem c5_varint_ten_byte_limit (buffer : List Nat) (pos : Nat)
    (hbytes : ∀ b ∈ buffer, b < 256) :
    (decode_varint buffer pos = .error tooManyBytesMsg ↔
      ∀ j, j < 10 → ∃ b, buffer.get? (pos + j) = some b ∧ 128 ≤ b)
    ∧ (∀ k, k < 10 →
        (∀ j, j < k → ∃ b, buffer.get? (pos + j) = some b ∧ 128 ≤ b) →
        (∃ b, buffer.get? (pos + k) = some b ∧ b < 128) →
        ∃ v, decode_varint buffer pos = .ok (v, pos + k + 1)) := by
  have h := c5_aux buffer hbytes 9 (by omega) pos 0
  rw [show 7 * (9 - 9) = 0 by norm_num] at h
  exact h

theorem c5_varint_ten_byte_limit_witness :
    (∀ b ∈ [0x96, 0x01], b < 256) ∧
      ((decode_varint [0x96, 0x01] 0 = .error tooManyBytesMsg ↔
        ∀ j, j < 10 → ∃ b, ([0x96, 0x01] : List Nat).get? (0 + j) = some b ∧ 128 ≤ b)
      ∧ (∀ k, k < 10 →
          (∀ j, j < k → ∃ b, ([0x96, 0x01] : List Nat).get? (0 + j) = some b ∧ 128 ≤ b) →
          (∃ b, ([0x96, 0x01] : List Nat).get? (0 + k) = some b ∧ b < 128) →
          ∃ v, decode_varint [0x96, 0x01] 0 = .ok (v, 0 + k + 1))) :=
  ⟨by decide, c5_varint_ten_byte_limit [0x96, 0x01] 0 (by decide)⟩

/-! ## Field framing: `ParsedField` and `parse_fields`
(src/cbproto/__init__.py:1113-1141) -/

/-- Wire-type constants.  Modelled from the spec (`cbproto.const` is not in
the repository snapshot): `VARINT=0`, `FIXED_64=1`, `LEN_DELIM=2`,
`FIXED_32=5`. -/
def WIRE_VARINT : Nat := 0

def WIRE_FIXED_64 : Nat := 1

def WIRE_LEN_DELIM : Nat := 2

def WIRE_FIXED_32 : Nat := 5

/-- The payload carried by a `ParsedField`: an integer for varints, a byte
slice for the sized wire types, `None` for unrecognized wire types. -/
inductive WireVal where
  | wnum (n : Nat)
  | wbytes (bs : List Nat)
  | wnone
deriving DecidableEq, Repr

/-- `ParsedField` (src/cbproto/__init__.py:1113). -/
structure ParsedField where
  number : Nat
  wireType : Nat
  value : WireVal
  raw : List Nat
deriving DecidableEq, Repr

/-- Python slice `l[a:b]` (with clipping). -/
def pySlice (l : List Nat) (a b : Nat) : List Nat := (l.take b).drop a

theorem decodeVarintGo_pos_lt :
    ∀ fuel (buffer : List Nat) pos r s v p,
      decodeVarintGo fuel buffer pos r s = .ok (v, p) → pos < p := by
  intro fuel
  induction fuel with
  | zero =>
    intro buffer pos r s v p h
    exact Except.noConfusion h
  | succ fuel ih =>
    intro buffer pos r s v p h
    rw [decodeVarintGo] at h
    cases hget : buffer.get? pos with
    | none =>
      rw [hget] at h
      exact Except.noConfusion h
    | some b =>
      rw [hget] at h
      simp only [] at h
      by_cases hc : b &&& 0x80 = 0
      · rw [if_pos hc] at h
        have := Except.ok.inj h
        have hp : pos + 1 = p := congrArg Prod.snd this
        omega
      · rw [if_neg hc] at h
        by_cases hg : s + 7 ≥ 64
        · rw [if_pos hg] at h
          exact Except.noConfusion h
        · rw [if_neg hg] at h
          have := ih buffer (pos + 1) _ (s + 7) v p h
          omega

theorem decode_varint_pos_lt (buffer : List Nat) (pos v p : Nat)
    (h : decode_varint buffer pos = .ok (v, p)) : pos < p :=
  decodeVarintGo_pos_lt _ buffer pos 0 0 v p h

/-- `parse_fields` (src/cbproto/__init__.py:1121): reads `(tag, payload)`
records until the buffer is exhausted.  The Python generator is modelled as
the list of yielded records; a varint decoding error propagates as the
error of the whole parse.  The loop is given structural fuel
(`value.length - i`, which strictly decreases since the position strictly
advances each iteration), so it never runs out. -/
def parseFieldsGo (fuel : Nat) (value : List Nat) (i : Nat) :
    Except String (List ParsedField) :=
  match fuel with
  | 0 => .ok []
  | fuel + 1 =>
    if i < value.length then
      match decode_varint value i with
      | .error e => .error e
      | .ok (numWire, i1) =>
        let number := numWire >>> 3
        let wireType := numWire &&& 0x7
        if wireType = WIRE_VARINT then
          match decode_varint value i1 with
          | .error e => .error e
          | .ok (d, i2) =>
            (parseFieldsGo fuel value i2).map
              (ParsedField.mk number wireType (.wnum d) (pySlice value i i2) :: ·)
        else if wireType = WIRE_FIXED_64 then
          (parseFieldsGo fuel value (i1 + 8)).map
            (ParsedField.mk number wireType (.wbytes (pySlice value i1 (i1 + 8)))
              (pySlice value i (i1 + 8)) :: ·)
        else if wireType = WIRE_LEN_DELIM then
          match decode_varint value i1 with
          | .error e => .error e
          | .ok (length, i2) =>
            (parseFieldsGo fuel value (i2 + length)).map
              (ParsedField.mk number wireType
                (.wbytes (pySlice value i2 (i2 + length)))
                (pySlice value i (i2 + length)) :: ·)
        else if wireType = WIRE_FIXED_32 then
          (parseFieldsGo fuel value (i1 + 4)).map
            (ParsedField.mk number wireType (.wbytes (pySlice value i1 (i1 + 4)))
              (pySlice value i (i1 + 4)) :: ·)
        else
          (parseFieldsGo fuel value i1).map
            (ParsedField.mk number wireType .wnone (pySlice value i i1) :: ·)
    else .ok []

def parseFieldsAux (value : List Nat) (i : Nat) :
    Except String (List ParsedField) :=
  parseFieldsGo (value.length - i) value i

def parse_fields (value : List Nat) : Except String (List ParsedField) :=
  parseFieldsAux value 0

theorem pySlice_append_drop (l : List Nat) (a b : Nat) (hab : a ≤ b) :
    pySlice l a b ++ l.drop b = l.drop a := by
  rw [pySlice, List.drop_take]
  calc (l.drop a).take (b - a) ++ l.drop b
      = (l.drop a).take (b - a) ++ (l.drop a).drop (b - a) := by
        rw [List.drop_drop]
        congr 2
        omega
    _ = l.drop a := List.take_append_drop _ _

/-- Every record's `raw` is exactly the input bytes consumed for that field,
so the concatenation of all raw slices reproduces the suffix parsed. -/
theorem parseFieldsGo_raw_join (value : List Nat) :
    ∀ fuel i recs, value.length - i ≤ fuel →
      parseFieldsGo fuel value i = .ok recs →
      (recs.map ParsedField.raw).flatten = value.drop i := by
  intro fuel
  induction fuel with
  | zero =>
    intro i recs hfuel h
    obtain rfl : ([] : List ParsedField) = recs := Except.ok.inj h
    simp [List.drop_eq_nil_of_le (by omega : value.length ≤ i)]
  | succ fuel ih =>
    intro i recs hfuel h
    rw [parseFieldsGo] at h
    by_cases hlt : i < value.length
    case neg =>
      rw [if_neg hlt] at h
      obtain rfl : ([] : List ParsedField) = recs := Except.ok.inj h
      simp [List.drop_eq_nil_of_le (by omega : value.length ≤ i)]
    case pos =>
      rw [if_pos hlt] at h
      cases htag : decode_varint value i with
      | error e =>
        rw [htag] at h
        exact Except.noConfusion h
      | ok p =>
        obtain ⟨numWire, i1⟩ := p
        rw [htag] at h
        simp only [] at h
        have hii1 : i < i1 := decode_varint_pos_lt value i numWire i1 htag
        by_cases hwt1 : numWire &&& 7 = WIRE_VARINT
        · rw [if_pos hwt1] at h
          cases hv : decode_varint value i1 with
          | error e =>
            rw [hv] at h
            exact Except.noConfusion h
          | ok q =>
            obtain ⟨d, i2⟩ := q
            rw [hv] at h
            simp only [] at h
            have hi12 : i1 < i2 := decode_varint_pos_lt value i1 d i2 hv
            cases hrec : parseFieldsGo fuel value i2 with
            | error e2 =>
              rw [hrec] at h
              exact Except.noConfusion h
            | ok tail =>
              rw [hrec] at h
              simp only [Except.map] at h
              obtain rfl : _ :: tail = recs := Except.ok.inj h
              simp only [List.map_cons, List.flatten_cons]
              rw [ih i2 tail (by omega) hrec,
                pySlice_append_drop value i i2 (by omega)]
        · rw [if_neg hwt1] at h
          by_cases hwt2 : numWire &&& 7 = WIRE_FIXED_64
          · rw [if_pos hwt2] at h
            cases hrec : parseFieldsGo fuel value (i1 + 8) with
            | error e2 =>
              rw [hrec] at h
              exact Except.noConfusion h
            | ok tail =>
              rw [hrec] at h
              simp only [Except.map] at h
              obtain rfl : _ :: tail = recs := Except.ok.inj h
              simp only [List.map_cons, List.flatten_cons]
              rw [ih (i1 + 8) tail (by omega) hrec,
                pySlice_append_drop value i (i1 + 8) (by omega)]
          · rw [if_neg hwt2] at h
            by_cases hwt3 : numWire &&& 7 = WIRE_LEN_DELIM
            · rw [if_pos hwt3] at h
              cases hv : decode_varint value i1 with
              | error e =>
                rw [hv] at h
                exact Except.noConfusion h
              | ok q =>
                obtain ⟨length, i2⟩ := q
                rw [hv] at h
                simp only [] at h
                have hi12 : i1 < i2 := decode_varint_pos_lt value i1 length i2 hv
                cases hrec : parseFieldsGo fuel value (i2 + length) with
                | error e2 =>
                  rw [hrec] at h
                  exact Except.noConfusion h
                | ok tail =>
                  rw [hrec] at h
                  simp only [Except.map] at h
                  obtain rfl : _ :: tail = recs := Except.ok.inj h
                  simp only [List.map_cons, List.flatten_cons]
                  rw [ih (i2 + length) tail (by omega) hrec,
                    pySlice_append_drop value i (i2 + length) (by omega)]
            · rw [if_neg hwt3] at h
              by_cases hwt4 : numWire &&& 7 = WIRE_FIXED_32
              · rw [if_pos hwt4] at h
                cases hrec : parseFieldsGo fuel value (i1 + 4) with
                | error e2 =>
                  rw [hrec] at h
                  exact Except.noConfusion h
                | ok tail =>
                  rw [hrec] at h
                  simp only [Except.map] at h
                  obtain rfl : _ :: tail = recs := Except.ok.inj h
                  simp only [List.map_cons, List.flatten_cons]
                  rw [ih (i1 + 4) tail (by omega) hrec,
                    pySlice_append_drop value i (i1 + 4) (by omega)]
              · rw [if_neg hwt4] at h
                cases hrec : parseFieldsGo fuel value i1 with
                | error e2 =>
                  rw [hrec] at h
                  exact Except.noConfusion h
                | ok tail =>
                  rw [hrec] at h
                  simp only [Except.map] at h
                  obtain rfl : _ :: tail = recs := Except.ok.inj h
                  simp only [List.map_cons, List.flatten_cons]
                  rw [ih i1 tail (by omega) hrec,
                    pySlice_append_drop value i i1 (by omega)]

/-- C10: for every byte buffer consisting of well-formed wire fields (one
on which `parse_fields` succeeds), the concatenation of the `raw` slices of
all yielded `ParsedField` records, in yield order, is exactly the input
buffer. -/
theorem c10_parse_fields_raw_exact (b : List Nat) (recs : List ParsedField)
    (h : parse_fields b = .ok recs) :
    (recs.map ParsedField.raw).flatten = b := by
  have := parseFieldsGo_raw_join b (b.length - 0) 0 recs (by omega) h
  simpa using this

theorem c10_parse_fields_raw_exact_witness :
    parse_fields [0x08, 0x96, 0x01, 0x1A, 0x02, 0xFF, 0x00] =
        .ok [⟨1, 0, .wnum 150, [0x08, 0x96, 0x01]⟩,
             ⟨3, 2, .wbytes [0xFF, 0x00], [0x1A, 0x02, 0xFF, 0x00]⟩] ∧
    (([⟨1, 0, .wnum 150, [0x08, 0x96, 0x01]⟩,
       ⟨3, 2, .wbytes [0xFF, 0x00], [0x1A, 0x02, 0xFF, 0x00]⟩] :
        List ParsedField).map ParsedField.raw).flatten =
      [0x08, 0x96, 0x01, 0x1A, 0x02, 0xFF, 0x00] := by
  have hp : parse_fields [0x08, 0x96, 0x01, 0x1A, 0x02, 0xFF, 0x00] =
      .ok [⟨1, 0, .wnum 150, [0x08, 0x96, 0x01]⟩,
           ⟨3, 2, .wbytes [0xFF, 0x00], [0x1A, 0x02, 0xFF, 0x00]⟩] := by
    rfl
  exact ⟨hp, c10_parse_fields_raw_exact _ _ hp⟩

/-! ## The runtime message model

`Message`, `FieldMetadata` (cbproto/fields.py) and the serializers of
src/cbproto/__init__.py.  A message instance carries its class information
(field declarations, Python type hints, nested message classes) together
with its per-field state.  Python type hints `List[...]`/`Optional[...]`
are modelled by the `repeated`/`optionalHint` flags; `cls_by_field` (the
nested message class, the synthetic map `Entry` dataclass, and
`_get_wrapper`) by the `nested` slot. -/

/-- The `proto_type` string constants of `cbproto.const` (modelled from the
spec; `const.py` is not in the repository snapshot).  `float`/`double` are
outside the embedding (IEEE 754). -/
inductive ProtoType where
  | tenum | tbool | tint32 | tint64 | tuint32 | tuint64
  | tsint32 | tsint64 | tfixed32 | tfixed64 | tsfixed32 | tsfixed64
  | tstring | tbytes | tmessage | tmap
deriving DecidableEq, Repr

/-- `int(meta.proto_type[3:])` for `"int32"`/`"int64"`. -/
def ProtoType.intBits : ProtoType → Nat
  | .tint32 => 32
  | .tint64 => 64
  | _ => 0

/-- Modelled from the spec: `PACKED_TYPES` of `cbproto.const` — every
packable scalar type (float/double omitted from the embedding). -/
def PACKED_TYPES : List ProtoType :=
  [.tenum, .tbool, .tint32, .tint64, .tuint32, .tuint64,
   .tsint32, .tsint64, .tfixed32, .tfixed64, .tsfixed32, .tsfixed64]

/-- Modelled from the spec: varint-encoded scalar types. -/
def WIRE_VARINT_TYPES : List ProtoType :=
  [.tenum, .tbool, .tint32, .tint64, .tuint32, .tuint64, .tsint32, .tsint64]

/-- Modelled from the spec: 4-byte fixed types (float omitted). -/
def WIRE_FIXED_32_TYPES : List ProtoType := [.tfixed32, .tsfixed32]

/-- Modelled from the spec: 8-byte fixed types (double omitted). -/
def WIRE_FIXED_64_TYPES : List ProtoType := [.tfixed64, .tsfixed64]

/-- Modelled from the spec: length-delimited types. -/
def WIRE_LEN_DELIM_TYPES : List ProtoType :=
  [.tstring, .tbytes, .tmessage, .tmap]

/-- Modelled from the spec: `FIXED_TYPES` (float/double omitted). -/
def FIXED_TYPES : List ProtoType :=
  [.tfixed32, .tsfixed32, .tfixed64, .tsfixed64]

/-- `FieldMetadata` (cbproto/fields.py:27): `group=None`/`wraps=None` are
`none`; the empty string used in the serializer is identified with `none`. -/
structure FieldMeta where
  number : Nat
  protoType : ProtoType
  mapTypes : Option (ProtoType × ProtoType) := none
  group : Option String := none
  wraps : Option ProtoType := none
  optional : Bool := false
deriving DecidableEq, Repr

mutual
/-- A message class: its dataclass fields in declaration order. -/
inductive Schema where
  | mk (fields : List FieldDecl)

/-- One dataclass field: its name, `FieldMetadata`, whether the type hint
is `List[...]` (`repeated`) or `Optional[...]` (`optionalHint`), and the
class resolved for it (`cls_by_field`): the nested message class for
message fields, the synthetic two-field `Entry` dataclass for map fields,
and the wrapper message class for `wraps` fields. -/
inductive FieldDecl where
  | mk (name : String) (meta : FieldMeta) (repeated : Bool)
       (optionalHint : Bool) (nested : Option Schema)
end

def Schema.fields : Schema → List FieldDecl
  | .mk fs => fs

def FieldDecl.name : FieldDecl → String
  | .mk n _ _ _ _ => n

def FieldDecl.meta : FieldDecl → FieldMeta
  | .mk _ m _ _ _ => m

def FieldDecl.repeated : FieldDecl → Bool
  | .mk _ _ r _ _ => r

def FieldDecl.optionalHint : FieldDecl → Bool
  | .mk _ _ _ o _ => o

def FieldDecl.nested : FieldDecl → Option Schema
  | .mk _ _ _ _ s => s

mutual
/-- A Python value as far as the codec is concerned.  `vstr` carries the
string's UTF-8 byte sequence (UTF-8 en/decoding is a bijection on valid
strings, so it is the identity in this representation). -/
inductive PValue where
  | vint (i : Int)
  | vbool (b : Bool)
  | vstr (s : List Nat)
  | vbytes (bs : List Nat)
  | vmsg (m : PMsg)
  | vlist (xs : List PValue)
  | vdict (kvs : List (PValue × PValue))
  | vnone

/-- A dataclass slot: either still the `UNSET` sentinel or a value. -/
inductive PRaw where
  | unset
  | val (v : PValue)

/-- A message instance: its class, the raw slot of each declared field (in
declaration order), and the three book-keeping fields. -/
inductive PMsg where
  | mk (schema : Schema) (raws : List PRaw) (serializedOnWire : Bool)
       (unknownFields : List Nat) (groupCurrent : List (String × Option String))
end

def PMsg.schema : PMsg → Schema
  | .mk s _ _ _ _ => s

def PMsg.raws : PMsg → List PRaw
  | .mk _ r _ _ _ => r

def PMsg.serializedOnWire : PMsg → Bool
  | .mk _ _ b _ _ => b

def PMsg.unknownFields : PMsg → List Nat
  | .mk _ _ _ u _ => u

def PMsg.groupCurrent : PMsg → List (String × Option String)
  | .mk _ _ _ _ g => g

/-! ### Class identity and dictionary primitives -/

mutual
/-- Structural equality of message classes (models Python's
`type(self) is type(other)` check: generated classes are equal exactly
when their declarations are). -/
def schemaBeq : Schema → Schema → Bool
  | .mk fs1, .mk fs2 => fieldDeclListBeq fs1 fs2

def fieldDeclListBeq : List FieldDecl → List FieldDecl → Bool
  | [], [] => true
  | d1 :: t1, d2 :: t2 => fieldDeclBeq d1 d2 && fieldDeclListBeq t1 t2
  | _, _ => false

def fieldDeclBeq : FieldDecl → FieldDecl → Bool
  | .mk n1 m1 r1 o1 s1, .mk n2 m2 r2 o2 s2 =>
    n1 == n2 && m1 == m2 && r1 == r2 && o1 == o2 &&
      (match s1, s2 with
       | none, none => true
       | some a, some b => schemaBeq a b
       | _, _ => false)
end

/-- Python `dict.get` on the `_group_current` mapping. -/
def alGet (l : List (String × Option String)) (k : String) :
    Option (Option String) :=
  match l.find? (fun p => p.1 == k) with
  | some p => some p.2
  | none => none

/-- Python `dict.setdefault(k)` (default `None`): inserts `k ↦ None` at the
end when absent, keeps the dict unchanged when present. -/
def alSetdefault (l : List (String × Option String)) (k : String) :
    List (String × Option String) :=
  if (l.find? (fun p => p.1 == k)).isSome then l else l ++ [(k, none)]

/-- Python `d[k] = v`: replaces in place when the key is present (keeping
its position), appends otherwise. -/
def alSet (l : List (String × Option String)) (k : String) (v : Option String) :
    List (String × Option String) :=
  match l with
  | [] => [(k, v)]
  | (k1, v1) :: t => if k1 == k then (k1, v) :: t else (k1, v1) :: alSet t k v

/-! ### Construction (`__init__` defaults and `__post_init__`) -/

/-- The dataclass default installed by `proto_field`
(cbproto/fields.py:50): `None if optional else UNSET`. -/
def defaultRaw (m : FieldMeta) : PRaw :=
  if m.optional then .val .vnone else .unset

def PRaw.isUnset : PRaw → Bool
  | .unset => true
  | _ => false

def PRaw.isNone : PRaw → Bool
  | .val .vnone => true
  | _ => false

/-- Whether a slot still holds its construction sentinel
(`value != UNSET and not (meta.optional and value is None)` negated). -/
def isSentinel (m : FieldMeta) (r : PRaw) : Bool :=
  r.isUnset || (m.optional && r.isNone)

/-- `__post_init__` (src/cbproto/__init__.py:122): scan fields in
declaration order, `setdefault` each group, and record the last field of
each group holding a non-sentinel value. -/
def postInitGroupCurrent :
    List FieldDecl → List PRaw → List (String × Option String) →
      List (String × Option String)
  | [], _, acc => acc
  | _ :: _, [], acc => acc
  | d :: ds, r :: rs, acc =>
    let acc1 := match d.meta.group with
      | some g => alSetdefault acc g
      | none => acc
    let acc2 :=
      if ¬ isSentinel d.meta r then
        match d.meta.group with
        | some g => alSet acc1 g (some d.name)
        | none => acc1
      else acc1
    postInitGroupCurrent ds rs acc2

/-- `all_sentinel` of `__post_init__`. -/
def allSentinel : List FieldDecl → List PRaw → Bool
  | [], _ => true
  | _ :: _, [] => true
  | d :: ds, r :: rs => isSentinel d.meta r && allSentinel ds rs

/-- Constructing a message from per-field raw slots: `__init__` followed by
`__post_init__`. -/
def mkMessage (s : Schema) (raws : List PRaw) : PMsg :=
  .mk s raws (¬ allSentinel s.fields raws) []
    (postInitGroupCurrent s.fields raws [])

/-- `cls()`: every slot at its dataclass default. -/
def defaultMsg (s : Schema) : PMsg :=
  mkMessage s (s.fields.map (fun d => defaultRaw d.meta))

/-- `_get_field_default` / `default_gen` (src/cbproto/__init__.py:384):
dict for maps, list for repeated fields, `None` for `Optional[...]` hints,
zero scalars, and a freshly-constructed instance for message fields. -/
def getFieldDefault (d : FieldDecl) : PValue :=
  if d.meta.protoType == .tmap then .vdict []
  else if d.repeated then .vlist []
  else if d.optionalHint then .vnone
  else match d.meta.protoType with
    | .tint32 | .tint64 | .tuint32 | .tuint64 | .tsint32 | .tsint64
    | .tfixed32 | .tfixed64 | .tsfixed32 | .tsfixed64 | .tenum => .vint 0
    | .tbool => .vbool false
    | .tstring => .vstr []
    | .tbytes => .vbytes []
    | .tmessage =>
      match d.nested with
      | some s => .vmsg (defaultMsg s)
      | none => .vnone
    | .tmap => .vdict []

/-! ### Attribute access -/

def fieldIndexAux : List FieldDecl → String → Option Nat
  | [], _ => none
  | d :: ds, n => if d.name == n then some 0 else (fieldIndexAux ds n).map (· + 1)

/-- Index of a declared field by name (the model of the by-name attribute
lookup through `meta_by_field_name`). -/
def fieldIndex (s : Schema) (name : String) : Option Nat :=
  fieldIndexAux s.fields name

/-- `getattr` through `Message.__getattribute__`: an `UNSET` slot reads as
the lazily-materialized default. -/
def msgGetattr (m : PMsg) (name : String) : PValue :=
  match fieldIndex m.schema name with
  | none => .vnone
  | some i =>
    match m.raws.get? i, (m.schema.fields).get? i with
    | some .unset, some d => getFieldDefault d
    | some (.val v), _ => v
    | _, _ => .vnone

/-- `Message.__setattr__` (src/cbproto/__init__.py:204): always flips
`_serialized_on_wire`, and when `attr` belongs to a one-of group, selects
it in `_group_current` and resets every sibling slot to `UNSET`. -/
def msgSetattr (m : PMsg) (attr : String) (value : PValue) : PMsg :=
  let attrGroup :=
    match fieldIndex m.schema attr with
    | some i =>
      match (m.schema.fields).get? i with
      | some d => d.meta.group
      | none => none
    | none => none
  let stepped :=
    match attrGroup with
    | none => (m.raws, m.groupCurrent)
    | some g =>
      let raws := (m.schema.fields.zip m.raws).map
        (fun (p : FieldDecl × PRaw) =>
          if p.1.meta.group == some g && p.1.name ≠ attr then PRaw.unset else p.2)
      let gc := alSet m.groupCurrent g (some attr)
      (raws, gc)
  let raws := stepped.1
  let gc := stepped.2
  let raws2 :=
    match fieldIndex m.schema attr with
    | some i => raws.set i (.val value)
    | none => raws
  .mk m.schema raws2 true m.unknownFields gc

/-- `which_one_of` (src/cbproto/__init__.py:904). -/
def which_one_of (m : PMsg) (groupName : String) : String × PValue :=
  match alGet m.groupCurrent groupName with
  | some (some fieldName) =>
    if fieldName = "" then ("", .vnone) else (fieldName, msgGetattr m fieldName)
  | _ => ("", .vnone)

/-! ## Claim C3: one-of group semantics -/

theorem alGet_alSet (l : List (String × Option String)) (k : String)
    (v : Option String) : alGet (alSet l k v) k = some v := by
  induction l with
  | nil => simp [alSet, alGet]
  | cons p t ih =>
    obtain ⟨k1, v1⟩ := p
    rw [alSet]
    by_cases hk : k1 == k
    · rw [if_pos hk]
      rw [alGet]
      simp only [List.find?]
      rw [hk]
    · rw [if_neg hk]
      rw [alGet]
      simp only [List.find?]
      rw [show (k1 == k) = false by simpa using hk]
      exact ih

theorem fieldIndexAux_spec (fs : List FieldDecl) (f : FieldDecl)
    (hmem : f ∈ fs) (hnodup : (fs.map FieldDecl.name).Nodup) :
    ∃ i, fieldIndexAux fs f.name = some i ∧ fs.get? i = some f ∧
      ∀ j d, fs.get? j = some d → d.name = f.name → j = i := by
  induction fs with
  | nil => exact absurd hmem (List.not_mem_nil f)
  | cons d ds ih =>
    rw [List.map_cons, List.nodup_cons] at hnodup
    obtain ⟨hhead, htail⟩ := hnodup
    by_cases hn : d.name == f.name
    · have hdn : d.name = f.name := by simpa using hn
      have hfd : f = d := by
        rcases List.mem_cons.mp hmem with h | h
        · exact h
        · exact absurd (hdn ▸ (List.mem_map.mpr ⟨f, h, rfl⟩)) hhead
      subst hfd
      refine ⟨0, ?_, rfl, ?_⟩
      · rw [fieldIndexAux, if_pos hn]
      · intro j e hj he
        match j with
        | 0 => rfl
        | j + 1 =>
          simp only [List.get?] at hj
          exact absurd (he ▸ (List.mem_map.mpr ⟨e, List.get?_mem hj, rfl⟩)) hhead
    · have hdn : ¬ d.name = f.name := by simpa using hn
      have hfm : f ∈ ds := by
        rcases List.mem_cons.mp hmem with h | h
        · exact absurd (congrArg FieldDecl.name h).symm hdn
        · exact h
      obtain ⟨i, hfind, hget, huniq⟩ := ih hfm htail
      refine ⟨i + 1, ?_, hget, ?_⟩
      · rw [fieldIndexAux, if_neg hn, hfind]
        rfl
      · intro j e hj he
        match j with
        | 0 =>
          simp only [List.get?] at hj
          exact absurd ((Option.some.inj hj) ▸ he) hdn
        | j + 1 =>
          simp only [List.get?] at hj
          rw [huniq j e hj he]

/-- C3: assigning any value to a field `f` of a one-of group `g` makes
`_group_current[g]` equal to `f` and resets every sibling of `g` to the
`UNSET` sentinel (so it reads as its default); and `which_one_of` returns
`(f, value of f)` at every state whose `_group_current[g]` names a field
`f`, and `("", None)` at every state where no field of `g` is selected. -/
theorem c3_oneof_semantics (m : PMsg) (g : String) (f : FieldDecl) (v : PValue)
    (hlen : m.raws.length = m.schema.fields.length)
    (hmem : f ∈ m.schema.fields) (hg : f.meta.group = some g)
    (hnodup : (m.schema.fields.map FieldDecl.name).Nodup)
    (hfname : f.name ≠ "") :
    (alGet (msgSetattr m f.name v).groupCurrent g = some (some f.name)
      ∧ (∀ j d, m.schema.fields.get? j = some d → d.meta.group = some g →
          d.name ≠ f.name → (msgSetattr m f.name v).raws.get? j = some .unset)
      ∧ which_one_of (msgSetattr m f.name v) g
          = (f.name, msgGetattr (msgSetattr m f.name v) f.name))
    ∧ (∀ m2 : PMsg, ∀ fn : String, fn ≠ "" →
        alGet m2.groupCurrent g = some (some fn) →
        which_one_of m2 g = (fn, msgGetattr m2 fn))
    ∧ (∀ m2 : PMsg,
        alGet m2.groupCurrent g = none ∨ alGet m2.groupCurrent g = some none →
        which_one_of m2 g = ("", .vnone)) := by
  obtain ⟨i, hfind, hget, huniq⟩ :=
    fieldIndexAux_spec m.schema.fields f hmem hnodup
  have hfi : fieldIndex m.schema f.name = some i := hfind
  have hgc : (msgSetattr m f.name v).groupCurrent
      = alSet m.groupCurrent g (some f.name) := by
    rw [msgSetattr]
    simp only [hfi, hget, hg]
    rfl
  have hraws : (msgSetattr m f.name v).raws
      = ((m.schema.fields.zip m.raws).map
          (fun (p : FieldDecl × PRaw) =>
            if p.1.meta.group == some g && p.1.name ≠ f.name then PRaw.unset
            else p.2)).set i (.val v) := by
    rw [msgSetattr]
    simp only [hfi, hget, hg]
    rfl
  refine ⟨⟨?_, ?_, ?_⟩, ?_, ?_⟩
  · rw [hgc]
    exact alGet_alSet m.groupCurrent g (some f.name)
  · intro j d hj hdg hdn
    have hji : j ≠ i := by
      intro hc
      subst hc
      rw [hj] at hget
      exact hdn (congrArg FieldDecl.name (Option.some.inj hget))
    rw [hraws]
    rw [List.get?_eq_getElem?, List.getElem?_set_ne (by omega : i ≠ j)]
    have hjlt : j < m.schema.fields.length := by
      by_contra hc
      rw [List.get?_eq_getElem?, List.getElem?_eq_none (by omega)] at hj
      exact Option.noConfusion hj
    obtain ⟨r, hr⟩ : ∃ r, m.raws.get? j = some r := by
      rw [List.get?_eq_getElem?, List.getElem?_eq_getElem (by omega)]
      exact ⟨_, rfl⟩
    have hzip : (m.schema.fields.zip m.raws).get? j = some (d, r) := by
      rw [List.get?_eq_getElem?] at hj hr ⊢
      rw [List.getElem?_zip_eq_some]
      exact ⟨hj, hr⟩
    rw [List.getElem?_map, ← List.get?_eq_getElem?, hzip]
    simp only [Option.map]
    have hcond : (d.meta.group == some g && decide (d.name ≠ f.name)) = true := by
      simp [hdg, hdn]
    rw [if_pos hcond]
  · rw [which_one_of, hgc, alGet_alSet]
    simp only []
    rw [if_neg hfname]
  · intro m2 fn hfn hget2
    rw [which_one_of, hget2]
    simp only []
    rw [if_neg hfn]
  · intro m2 hcases
    rcases hcases with h | h <;> rw [which_one_of, h]

theorem c3_oneof_semantics_witness :
    ∃ m : PMsg, ∃ f : FieldDecl,
      m.raws.length = m.schema.fields.length ∧ f ∈ m.schema.fields ∧
      f.meta.group = some "o" ∧
      (m.schema.fields.map FieldDecl.name).Nodup ∧ f.name ≠ "" ∧
      (alGet (msgSetattr m f.name (.vint 7)).groupCurrent "o"
          = some (some f.name)
        ∧ (∀ j d, m.schema.fields.get? j = some d →
            d.meta.group = some "o" → d.name ≠ f.name →
            (msgSetattr m f.name (.vint 7)).raws.get? j = some .unset)
        ∧ which_one_of (msgSetattr m f.name (.vint 7)) "o"
            = (f.name, msgGetattr (msgSetattr m f.name (.vint 7)) f.name)) ∧
      True := by
  refine ⟨mkMessage (.mk
      [.mk "a" ⟨1, .tstring, none, some "o", none, false⟩ false false none,
       .mk "b" ⟨2, .tint32, none, some "o", none, false⟩ false false none])
      [.val (.vstr [104, 105]), .unset],
    .mk "b" ⟨2, .tint32, none, some "o", none, false⟩ false false none,
    ?_, ?_, ?_, ?_, ?_, ?_, trivial⟩
  · rfl
  · exact List.Mem.tail _ (List.Mem.head _)
  · rfl
  · decide
  · decide
  · have h := c3_oneof_semantics (mkMessage (.mk
        [.mk "a" ⟨1, .tstring, none, some "o", none, false⟩ false false none,
         .mk "b" ⟨2, .tint32, none, some "o", none, false⟩ false false none])
        [.val (.vstr [104, 105]), .unset]) "o"
      (.mk "b" ⟨2, .tint32, none, some "o", none, false⟩ false false none)
      (.vint 7) (by rfl) (List.Mem.tail _ (List.Mem.head _)) rfl (by decide)
      (by decide)
    exact h.1

/-! ## Python equality (`Message.__eq__`, src/cbproto/__init__.py:150, and
the `==` used on field values)

`__eq__` substitutes the freshly-constructed field default for an `UNSET`
slot before comparing, so the recursion is not structural in the values;
the family is fuelized (`pyEqGo`), with each non-recursive layer
parameterized by the comparison used one message level deeper.  The fuel
passed by `pyEq`/`msgEq` dominates the recursion depth: every step descends
either into a subvalue or into the nested schema recorded one constructor
deeper, and each level contributes at least one to the structural size. -/

/-- Python `list == list`: lengths equal and elements pairwise equal. -/
def listEqF (recur : PValue → PValue → Bool) (xs ys : List PValue) : Bool :=
  xs.length == ys.length && (xs.zip ys).all (fun p => recur p.1 p.2)

/-- Python `d2[k]` under `==`-based key lookup. -/
def dictLookupF (recur : PValue → PValue → Bool) (k : PValue)
    (kvs : List (PValue × PValue)) : Option PValue :=
  (kvs.find? (fun p => recur p.1 k)).map Prod.snd

/-- Python `dict == dict`: same size and every key of the first maps to an
equal value in the second. -/
def dictEqF (recur : PValue → PValue → Bool)
    (d1 d2 : List (PValue × PValue)) : Bool :=
  d1.length == d2.length &&
    d1.all (fun p =>
      match dictLookupF recur p.1 d2 with
      | some w => recur p.2 w
      | none => false)

/-- One field of `__eq__`'s loop: an `UNSET` side is replaced by
`get_field_default` unless both sides are `UNSET` (`continue`). -/
def slotEqF (recur : PValue → PValue → Bool) (d : FieldDecl)
    (r1 r2 : PRaw) : Bool :=
  match r1, r2 with
  | .unset, .unset => true
  | .unset, .val w => recur (getFieldDefault d) w
  | .val v, .unset => recur v (getFieldDefault d)
  | .val v, .val w => recur v w

/-- The field loop of `__eq__` over both instances' slots (a length
mismatch is unreachable for dataclass instances and reads as inequality). -/
def fieldsEqF (recur : PValue → PValue → Bool) :
    List FieldDecl → List PRaw → List PRaw → Bool
  | [], _, _ => true
  | d :: ds, r1 :: rs1, r2 :: rs2 =>
    slotEqF recur d r1 r2 && fieldsEqF recur ds rs1 rs2
  | _ :: _, _, _ => false

/-- `Message.__eq__` given the comparison for field values:
`type(self) is type(other)` then the per-field loop. -/
def msgEqF (recur : PValue → PValue → Bool) (m1 m2 : PMsg) : Bool :=
  schemaBeq m1.schema m2.schema &&
    fieldsEqF recur m1.schema.fields m1.raws m2.raws

/-- Python `==` on field values, by fuel: scalars compare by value (with
`bool`/`int` cross-comparison as in Python), strings and bytes by their
byte sequences (and never to each other), messages by `__eq__`, lists and
dicts elementwise, `None` only to `None`. -/
def pyEqGo : Nat → PValue → PValue → Bool
  | 0, _, _ => false
  | fuel + 1, a, b =>
    match a, b with
    | .vint i, .vint j => i == j
    | .vint i, .vbool c => i == (if c then 1 else 0)
    | .vbool c, .vint j => (if c then (1 : Int) else 0) == j
    | .vbool c, .vbool c2 => c == c2
    | .vstr s, .vstr t => s == t
    | .vbytes s, .vbytes t => s == t
    | .vmsg m1, .vmsg m2 => msgEqF (pyEqGo fuel) m1 m2
    | .vlist xs, .vlist ys => listEqF (pyEqGo fuel) xs ys
    | .vdict d1, .vdict d2 => dictEqF (pyEqGo fuel) d1 d2
    | .vnone, .vnone => true
    | _, _ => false

/-- `Message.__eq__` (src/cbproto/__init__.py:150) at recursion budget
`fuel` (one unit per message level, the model of CPython's recursion
limit): any `fuel` at least the nesting depth of the compared values and
their schemas computes Python's `==`. -/
def msgEqGo (fuel : Nat) (m1 m2 : PMsg) : Bool :=
  msgEqF (pyEqGo fuel) m1 m2

/-! ## Fixed-width fields (`struct.pack`/`struct.unpack` with the
little-endian formats of `_pack_fmt`, src/cbproto/__init__.py:952) -/

/-- `n` bytes, little-endian. -/
def toLEBytes : Nat → Nat → List Nat
  | 0, _ => []
  | k + 1, v => v % 256 :: toLEBytes k (v / 256)

/-- Little-endian bytes to the unsigned value they spell. -/
def fromLEBytes : List Nat → Nat
  | [] => 0
  | b :: bs => b + 256 * fromLEBytes bs

/-- `struct.pack` on an in-range value: two's complement for the signed
formats, identity for the unsigned ones (out-of-range values raise
`struct.error` in Python and are excluded by the theorems' hypotheses). -/
def packFixed (n : Nat) (i : Int) : List Nat :=
  toLEBytes n ((i % ((2 : Int) ^ (8 * n))).toNat)

/-- `struct.unpack` of exactly `n` little-endian bytes. -/
def unpackFixed (n : Nat) (signed : Bool) (bs : List Nat) : Int :=
  let u := fromLEBytes bs
  if signed && decide (2 ^ (8 * n - 1) ≤ u) then
    (u : Int) - (2 : Int) ^ (8 * n)
  else (u : Int)

/-! ## Serialization (`serialize_to_bytes`, `_preprocess_single` and
`_serialize_single`, src/cbproto/__init__.py:743-1048)

`bytes(value)` on a nested message recurses; the family is fuelized with
one unit per message level (the model of CPython's recursion limit), each
non-recursive layer parameterized by the serializer and the `==` used one
level deeper.  `datetime`/`timedelta` special cases (and the IEEE-754
`float`/`double` types) are outside the embedding. -/

/-- The Python `int` transmitted for a varint-encoded value (`bool` is an
`int` subclass: `True` counts as `1`). -/
def pvToInt : PValue → Int
  | .vint i => i
  | .vbool b => if b then 1 else 0
  | _ => 0

/-- The byte payload of a `str`/`bytes` value (`str.encode("utf-8")` is the
identity on the byte-sequence representation used here). -/
def pvBytes : PValue → List Nat
  | .vstr s => s
  | .vbytes bs => bs
  | _ => []

/-- The single-field message class `_get_wrapper(wraps)` resolves to: one
scalar field named `value` with number 1. -/
def wrapperSchema (wt : ProtoType) : Schema :=
  .mk [.mk "value" ⟨1, wt, none, none, none, false⟩ false false none]

/-- `_preprocess_single` (src/cbproto/__init__.py:980) given the serializer
for nested messages: varint types through `encode_varint`, `sint` through
zig-zag, fixed types through `struct.pack`, strings/bytes as their bytes,
messages through `bytes(value)` (a `wraps` value is first wrapped into the
single-field wrapper message, `None` becoming `b""`), anything else
returned unchanged (the `TYPE_MAP` payload is already raw bytes). -/
def preprocessSingleF (recur : PMsg → List Nat) (t : ProtoType)
    (wraps : Option ProtoType) (v : PValue) : List Nat :=
  match t with
  | .tenum | .tbool | .tint32 | .tint64 | .tuint32 | .tuint64 =>
    encode_varint (pvToInt v)
  | .tsint32 | .tsint64 => encode_varint (zigZag (pvToInt v))
  | .tfixed32 | .tsfixed32 => packFixed 4 (pvToInt v)
  | .tfixed64 | .tsfixed64 => packFixed 8 (pvToInt v)
  | .tstring => pvBytes v
  | .tmessage =>
    match wraps with
    | some wt =>
      match v with
      | .vnone => []
      | _ => recur (mkMessage (wrapperSchema wt) [.val v])
    | none =>
      match v with
      | .vmsg mm => recur mm
      | _ => pvBytes v
  | .tbytes => pvBytes v
  | .tmap => pvBytes v

/-- `_serialize_single` (src/cbproto/__init__.py:1020): preprocess, then
emit `tag ++ payload` for the scalar wire types, and
`tag ++ varint(len) ++ payload` for the length-delimited ones — the latter
only when the payload is non-empty, `serialize_empty` is set, or the field
wraps. -/
def serializeSingleF (recur : PMsg → List Nat) (fieldNumber : Nat)
    (t : ProtoType) (v : PValue) (serializeEmpty : Bool)
    (wraps : Option ProtoType) : List Nat :=
  let value := preprocessSingleF recur t wraps v
  if t ∈ WIRE_VARINT_TYPES then
    encode_varint ((fieldNumber <<< 3 : Nat) : Int) ++ value
  else if t ∈ WIRE_FIXED_32_TYPES then
    encode_varint (((fieldNumber <<< 3) ||| 5 : Nat) : Int) ++ value
  else if t ∈ WIRE_FIXED_64_TYPES then
    encode_varint (((fieldNumber <<< 3) ||| 1 : Nat) : Int) ++ value
  else if t ∈ WIRE_LEN_DELIM_TYPES then
    if decide (value.length ≠ 0) || serializeEmpty || wraps.isSome then
      encode_varint (((fieldNumber <<< 3) ||| 2 : Nat) : Int) ++
        encode_varint (value.length : Int) ++ value
    else []
  else []

/-- A slot read as `getattr` reads it: an `UNSET` slot materializes the
field default. -/
def slotValue (d : FieldDecl) (r : PRaw) : PValue :=
  match r with
  | .unset => getFieldDefault d
  | .val v => v

/-- The bytes one field contributes to `serialize_to_bytes`
(src/cbproto/__init__.py:748-823), given the serializer and the `==` for
nested messages: read the slot as `getattr` does, skip `None`, skip a
default-valued field unless it is the selected member of its one-of group
or an empty message already seen on the wire; then emit packed or
per-item repeated encodings (an empty repeated chunk falling back to
`b"\x0a\x00"`), one entry per map pair, or the single-field encoding. -/
def serializeFieldChunkF (recur : PMsg → List Nat)
    (eq : PValue → PValue → Bool) (gc : List (String × Option String))
    (d : FieldDecl) (r : PRaw) : List Nat :=
  let value : PValue := slotValue d r
  match value with
  | .vnone => []
  | _ =>
    let selectedInGroup : Bool :=
      match d.meta.group with
      | some g => alGet gc g == some (some d.name)
      | none => false
    let serializeEmpty : Bool :=
      match value with
      | .vmsg mm => mm.serializedOnWire
      | _ => false
    let includeDefault : Bool :=
      match d.meta.group with
      | some g => alGet gc g == some (some d.name)
      | none => false
    if eq value (getFieldDefault d) &&
        !(selectedInGroup || serializeEmpty || includeDefault) then []
    else
      match value with
      | .vlist items =>
        if d.meta.protoType ∈ PACKED_TYPES then
          let buf := items.flatMap
            (fun it => preprocessSingleF recur d.meta.protoType none it)
          serializeSingleF recur d.meta.number .tbytes (.vbytes buf) false none
        else
          items.flatMap (fun it =>
            let chunk := serializeSingleF recur d.meta.number d.meta.protoType
              it false d.meta.wraps
            if chunk.isEmpty then [10, 0] else chunk)
      | .vdict kvs =>
        match d.meta.mapTypes with
        | some kv =>
          kvs.flatMap (fun p =>
            let sk := serializeSingleF recur 1 kv.1 p.1 false none
            let sv := serializeSingleF recur 2 kv.2 p.2 false none
            serializeSingleF recur d.meta.number d.meta.protoType
              (.vbytes (sk ++ sv)) false none)
        | none => []
      | _ =>
        let serializeEmpty2 : Bool :=
          if (match value with | .vstr [] => true | _ => false) &&
              includeDefault then true
          else serializeEmpty
        serializeSingleF recur d.meta.number d.meta.protoType value
          (serializeEmpty2 || selectedInGroup) d.meta.wraps

/-- The field loop of `serialize_to_bytes` over declarations and slots in
declaration order. -/
def serializeFieldsF (recur : PMsg → List Nat)
    (eq : PValue → PValue → Bool) (gc : List (String × Option String)) :
    List FieldDecl → List PRaw → List Nat
  | d :: ds, r :: rs =>
    serializeFieldChunkF recur eq gc d r ++ serializeFieldsF recur eq gc ds rs
  | _, _ => []

/-- `serialize_to_bytes` (src/cbproto/__init__.py:743) at recursion budget
`fuel`: the field chunks in declaration order followed by the preserved
unknown fields.  Any `fuel` at least the message-nesting depth of the
value computes the Python result. -/
def serializeMsgGo : Nat → PMsg → List Nat
  | 0, _ => []
  | fuel + 1, m =>
    serializeFieldsF (serializeMsgGo fuel) (pyEqGo (fuel + 1)) m.groupCurrent
      m.schema.fields m.raws ++ m.unknownFields

/-! ## Deserialization (`deserialize_from_bytes` and `_postprocess_single`,
src/cbproto/__init__.py:839-949)

Nested messages recurse through the declared field class
(`proto_meta.cls_by_field`, the `nested` slot); each level parses a strict
sub-slice of the input, so the budget `data.length + 1` always suffices
and `deserialize_from_bytes` needs no explicit fuel. -/

/-- `m._serialized_on_wire = b` (through `__setattr__`, whose one-of logic
does not apply to this attribute). -/
def setSerializedOnWire (m : PMsg) (b : Bool) : PMsg :=
  .mk m.schema m.raws b m.unknownFields m.groupCurrent

/-- `message._unknown_fields += parsed.raw` (the `__setattr__` flip of
`_serialized_on_wire` is idempotent here: deserialization set it first). -/
def addUnknown (m : PMsg) (raw : List Nat) : PMsg :=
  .mk m.schema m.raws true (m.unknownFields ++ raw) m.groupCurrent

/-- In-place mutation of an already materialized slot (`current.append`
and `current[key] = value` bypass `__setattr__`). -/
def rawSetSlot (m : PMsg) (i : Nat) (r : PRaw) : PMsg :=
  .mk m.schema (m.raws.set i r) m.serializedOnWire m.unknownFields
    m.groupCurrent

/-- Python `d[k] = v` on a message's map field: replace in place under
`==`-equality of keys (keeping the stored key), append otherwise. -/
def dictSetF (eq : PValue → PValue → Bool) :
    List (PValue × PValue) → PValue → PValue → List (PValue × PValue)
  | [], k, v => [(k, v)]
  | (k1, v1) :: t, k, v =>
    if eq k1 k then (k1, v) :: t else (k1, v1) :: dictSetF eq t k v

/-- `field_name_by_number` (src/cbproto/__init__.py:337): the dict is
written in declaration order, so on duplicate numbers the last declaration
wins; the result carries the field's index and declaration. -/
def fieldByNumberAux : Nat → List FieldDecl → Nat → Option (Nat × FieldDecl)
  | _, [], _ => none
  | i, d :: ds, n =>
    match fieldByNumberAux (i + 1) ds n with
    | some r => some r
    | none => if d.meta.number == n then some (i, d) else none

def fieldByNumber (s : Schema) (n : Nat) : Option (Nat × FieldDecl) :=
  fieldByNumberAux 0 s.fields n

/-- `_postprocess_single` (src/cbproto/__init__.py:911) given the
deserializer for nested classes: sign-extension for `int32`/`int64`,
un-zig-zag for `sint`, `value > 0` for `bool`, `struct.unpack` for the
fixed wire types (`_pack_fmt` raises `KeyError` on any other proto type),
UTF-8 decoding for strings, recursive deserialization for messages
(unwrapping `wraps` values through the wrapper class) and for map entries,
and the unchanged payload otherwise.  `datetime`/`timedelta` are outside
the embedding. -/
def postprocessSingleF (recur : Schema → List Nat → Except String PMsg)
    (wireType : Nat) (d : FieldDecl) (w : WireVal) :
    Except String PValue :=
  if wireType == WIRE_VARINT then
    let n : Nat := match w with | .wnum n => n | _ => 0
    if d.meta.protoType == .tint32 || d.meta.protoType == .tint64 then
      .ok (.vint (signExtend d.meta.protoType.intBits n))
    else if d.meta.protoType == .tsint32 || d.meta.protoType == .tsint64 then
      .ok (.vint (unZigZag n))
    else if d.meta.protoType == .tbool then
      .ok (.vbool (decide (0 < n)))
    else .ok (.vint (n : Int))
  else if wireType == WIRE_FIXED_32 || wireType == WIRE_FIXED_64 then
    let bs : List Nat := match w with | .wbytes bs => bs | _ => []
    match d.meta.protoType with
    | .tfixed32 => .ok (.vint (unpackFixed 4 false bs))
    | .tsfixed32 => .ok (.vint (unpackFixed 4 true bs))
    | .tfixed64 => .ok (.vint (unpackFixed 8 false bs))
    | .tsfixed64 => .ok (.vint (unpackFixed 8 true bs))
    | _ => .error "KeyError"
  else if wireType == WIRE_LEN_DELIM then
    let bs : List Nat := match w with | .wbytes bs => bs | _ => []
    if d.meta.protoType == .tstring then .ok (.vstr bs)
    else if d.meta.protoType == .tmessage then
      match d.meta.wraps with
      | some wt =>
        match recur (wrapperSchema wt) bs with
        | .ok wm => .ok (msgGetattr wm "value")
        | .error e => .error e
      | none =>
        match d.nested with
        | some s =>
          match recur s bs with
          | .ok mm => .ok (.vmsg (setSerializedOnWire mm true))
          | .error e => .error e
        | none => .error "KeyError"
    else if d.meta.protoType == .tmap then
      match d.nested with
      | some s =>
        match recur s bs with
        | .ok mm => .ok (.vmsg mm)
        | .error e => .error e
      | none => .error "KeyError"
    else .ok (.vbytes bs)
  else
    .ok (match w with
      | .wnum n => .vint (n : Nat)
      | .wbytes bs => .vbytes bs
      | .wnone => .vnone)

/-- The packed-repeated loop of `deserialize_from_bytes`
(src/cbproto/__init__.py:860-873): scan the chunk's payload, taking 4- or
8-byte slices for the fixed types (`struct.unpack` raises `struct.error`
on a short final slice) and varints otherwise, postprocessing each item. -/
def packedItemsGoF (recur : Schema → List Nat → Except String PMsg)
    (d : FieldDecl) : Nat → List Nat → Nat → Except String (List PValue)
  | 0, _, _ => .ok []
  | fuel + 1, bs, pos =>
    if pos < bs.length then
      if d.meta.protoType ∈ WIRE_FIXED_32_TYPES then
        if pos + 4 ≤ bs.length then
          match postprocessSingleF recur WIRE_FIXED_32 d
              (.wbytes (pySlice bs pos (pos + 4))) with
          | .ok v =>
            match packedItemsGoF recur d fuel bs (pos + 4) with
            | .ok rest => .ok (v :: rest)
            | .error e => .error e
          | .error e => .error e
        else .error "struct.error"
      else if d.meta.protoType ∈ WIRE_FIXED_64_TYPES then
        if pos + 8 ≤ bs.length then
          match postprocessSingleF recur WIRE_FIXED_64 d
              (.wbytes (pySlice bs pos (pos + 8))) with
          | .ok v =>
            match packedItemsGoF recur d fuel bs (pos + 8) with
            | .ok rest => .ok (v :: rest)
            | .error e => .error e
          | .error e => .error e
        else .error "struct.error"
      else
        match decode_varint bs pos with
        | .ok p =>
          match postprocessSingleF recur WIRE_VARINT d (.wnum p.1) with
          | .ok v =>
            match packedItemsGoF recur d fuel bs p.2 with
            | .ok rest => .ok (v :: rest)
            | .error e => .error e
          | .error e => .error e
        | .error e => .error e
    else .ok []

/-- One parsed field applied to the message being built
(src/cbproto/__init__.py:849-884): unknown numbers (and falsy names) are
preserved byte-exactly in `_unknown_fields`; a length-delimited chunk of a
packed type becomes a list of postprocessed items; a map entry updates the
dict in place; a single value lands on a repeated field by in-place
append, and otherwise through `setattr`. -/
def deserializeStepF (recur : Schema → List Nat → Except String PMsg)
    (eq : PValue → PValue → Bool) (message : PMsg) (parsed : ParsedField) :
    Except String PMsg :=
  match fieldByNumber message.schema parsed.number with
  | none => .ok (addUnknown message parsed.raw)
  | some (i, d) =>
    if d.name == "" then .ok (addUnknown message parsed.raw)
    else
      let postprocessed : Except String PValue :=
        if parsed.wireType == WIRE_LEN_DELIM &&
            d.meta.protoType ∈ PACKED_TYPES then
          let bs : List Nat :=
            match parsed.value with | .wbytes bs => bs | _ => []
          match packedItemsGoF recur d bs.length bs 0 with
          | .ok items => .ok (.vlist items)
          | .error e => .error e
        else postprocessSingleF recur parsed.wireType d parsed.value
      match postprocessed with
      | .error e => .error e
      | .ok value =>
        let current := msgGetattr message d.name
        if d.meta.protoType == .tmap then
          match current, value with
          | .vdict kvs, .vmsg entry =>
            .ok (rawSetSlot message i (.val (.vdict
              (dictSetF eq kvs (msgGetattr entry "key")
                (msgGetattr entry "value")))))
          | _, _ => .error "AttributeError"
        else
          match current, value with
          | .vlist _, .vlist _ => .ok (msgSetattr message d.name value)
          | .vlist xs, _ => .ok (rawSetSlot message i (.val (.vlist (xs ++ [value]))))
          | _, _ => .ok (msgSetattr message d.name value)

/-- The fold of `deserialize_from_bytes` over the parsed fields in yield
order. -/
def deserializeFieldsGoF (recur : Schema → List Nat → Except String PMsg)
    (eq : PValue → PValue → Bool) :
    PMsg → List ParsedField → Except String PMsg
  | m, [] => .ok m
  | m, p :: ps =>
    match deserializeStepF recur eq m p with
    | .ok m2 => deserializeFieldsGoF recur eq m2 ps
    | .error e => .error e

/-- `deserialize_from_bytes(cls, data)` at recursion budget `fuel`: build
`cls()`, set `_serialized_on_wire`, then fold the parsed fields. -/
def deserializeGo : Nat → Schema → List Nat → Except String PMsg
  | 0, _, _ => .error "RecursionError"
  | fuel + 1, s, data =>
    match parse_fields data with
    | .error e => .error e
    | .ok recs =>
      deserializeFieldsGoF (deserializeGo fuel) (pyEqGo (fuel + 1))
        (setSerializedOnWire (defaultMsg s) true) recs

/-- `deserialize_from_bytes` (src/cbproto/__init__.py:839) on a message
class: each nested message parses a strict sub-slice of its parent's
payload, so the budget `data.length + 1` covers every well-formed input. -/
def deserialize_from_bytes (s : Schema) (data : List Nat) :
    Except String PMsg :=
  deserializeGo (data.length + 1) s data

/-! ## Claim C6: map entry serialization -/

theorem encodeVarintNat_small (v : Nat) (h : v < 128) :
    encodeVarintNat v = [v] := by
  have hs : v >>> 7 = 0 := by
    rw [Nat.shiftRight_eq_div_pow]
    exact Nat.div_eq_of_lt (by norm_num; omega)
  rw [encodeVarintNat, hs, encodeVarintAux_unfold, if_pos rfl,
    and_127_eq_mod, Nat.mod_eq_of_lt h]

theorem serializeSingleF_string (recur : PMsg → List Nat) (num : Nat)
    (ks : List Nat) :
    serializeSingleF recur num .tstring (.vstr ks) false none =
      if ks.length = 0 then []
      else encodeVarintNat ((num <<< 3) ||| 2) ++ encodeVarintNat ks.length ++ ks := by
  by_cases h : ks.length = 0
  · rw [if_pos h]
    simp [serializeSingleF, preprocessSingleF, pvBytes, WIRE_VARINT_TYPES,
      WIRE_FIXED_32_TYPES, WIRE_FIXED_64_TYPES, WIRE_LEN_DELIM_TYPES, h]
  · rw [if_neg h]
    simp [serializeSingleF, preprocessSingleF, pvBytes, WIRE_VARINT_TYPES,
      WIRE_FIXED_32_TYPES, WIRE_FIXED_64_TYPES, WIRE_LEN_DELIM_TYPES, h,
      encode_varint_natCast]

theorem serializeSingleF_int32 (recur : PMsg → List Nat) (num : Nat)
    (n : Int) :
    serializeSingleF recur num .tint32 (.vint n) false none =
      encodeVarintNat (num <<< 3) ++ encode_varint n := by
  simp [serializeSingleF, preprocessSingleF, pvToInt, WIRE_VARINT_TYPES,
    encode_varint_natCast]

theorem serializeSingleF_mapEntry (recur : PMsg → List Nat) (num : Nat)
    (payload : List Nat) (hne : payload ≠ []) :
    serializeSingleF recur num .tmap (.vbytes payload) false none =
      encodeVarintNat ((num <<< 3) ||| 2) ++ encodeVarintNat payload.length ++
        payload := by
  have h : payload.length ≠ 0 := fun hc =>
    hne (List.eq_nil_of_length_eq_zero hc)
  simp [serializeSingleF, preprocessSingleF, pvBytes, WIRE_VARINT_TYPES,
    WIRE_FIXED_32_TYPES, WIRE_FIXED_64_TYPES, WIRE_LEN_DELIM_TYPES, h,
    encode_varint_natCast]

/-- A single-field message with no one-of group serializes to the field's
chunk alone. -/
theorem serializeMsgGo_single (fuel : Nat) (d : FieldDecl) (r : PRaw)
    (hg : d.meta.group = none) :
    serializeMsgGo (fuel + 1) (mkMessage (.mk [d]) [r]) =
      serializeFieldChunkF (serializeMsgGo fuel) (pyEqGo (fuel + 1)) [] d r := by
  have hgc : postInitGroupCurrent [d] [r] [] = [] := by
    simp [postInitGroupCurrent, hg]
  rw [serializeMsgGo]
  simp only [mkMessage, PMsg.groupCurrent, PMsg.schema, PMsg.raws,
    PMsg.unknownFields, Schema.fields, hgc, serializeFieldsF,
    List.append_nil]

theorem c6EntryChunk (recur : PMsg → List Nat) (number : Nat)
    (p : List Nat × Int) :
    serializeSingleF recur number .tmap
      (.vbytes (serializeSingleF recur 1 .tstring (.vstr p.1) false none ++
        serializeSingleF recur 2 .tint32 (.vint p.2) false none)) false
        none =
    encodeVarintNat ((number <<< 3) ||| 2) ++
      encodeVarintNat ((if p.1.length = 0 then []
          else 0x0A :: (encodeVarintNat p.1.length ++ p.1)) ++
        0x10 :: encode_varint p.2).length ++
      ((if p.1.length = 0 then []
          else 0x0A :: (encodeVarintNat p.1.length ++ p.1)) ++
        0x10 :: encode_varint p.2) := by
  rw [serializeSingleF_string, serializeSingleF_int32,
    encodeVarintNat_small ((1 <<< 3) ||| 2) (by decide),
    encodeVarintNat_small (2 <<< 3) (by decide)]
  rw [serializeSingleF_mapEntry _ _ _ (by
    rcases h : (if p.1.length = 0 then ([] : List Nat)
        else encodeVarintNat ((1 <<< 3) ||| 2) ++ encodeVarintNat p.1.length
          ++ p.1) with _ | _ <;> simp)]
  simp

theorem serializeSingleF_mapEntry_empty (recur : PMsg → List Nat)
    (num : Nat) :
    serializeSingleF recur num .tmap (.vbytes []) false none = [] := by
  simp [serializeSingleF, preprocessSingleF, pvBytes, WIRE_VARINT_TYPES,
    WIRE_FIXED_32_TYPES, WIRE_FIXED_64_TYPES, WIRE_LEN_DELIM_TYPES]

/-- C6 (amended: an entry whose key and value encodings are both empty is
dropped, never emitted).  For every map field with `map_types = (kt, vt)`
and every entry list, serialization emits at most one length-delimited
field per entry — tag `number << 3 | 2`, then the payload length, then the
payload, which is the field-1 encoding of the key under `kt` followed by
the field-2 encoding of the value under `vt`, the entry being dropped
exactly when both encodings are empty.  For `map<string, int32>` the
field-2 value encoding is never empty, so every entry yields exactly one
field; and the claim's example, field number 1 holding `{"k": 3}`, yields
the single entry `0A 05` + payload `0A 01 6B 10 03`. -/
theorem c6_map_entry_serialization (number : Nat) (name : String)
    (kt vt : ProtoType) (nested : Option Schema)
    (entries : List (PValue × PValue)) (fuel : Nat) :
    serializeMsgGo (fuel + 1)
        (mkMessage
          (.mk [.mk name ⟨number, .tmap, some (kt, vt), none,
              none, false⟩ false false nested])
          [.val (.vdict entries)]) =
      entries.flatMap (fun p =>
        let sk : List Nat :=
          serializeSingleF (serializeMsgGo fuel) 1 kt p.1 false none
        let sv : List Nat :=
          serializeSingleF (serializeMsgGo fuel) 2 vt p.2 false none
        if sk ++ sv = [] then []
        else encodeVarintNat ((number <<< 3) ||| 2) ++
          encodeVarintNat (sk ++ sv).length ++ (sk ++ sv)) ∧
    (∀ (recur : PMsg → List Nat) (v : Int),
      serializeSingleF recur 2 .tint32 (.vint v) false none ≠ []) ∧
    serializeMsgGo 1
        (mkMessage
          (.mk [.mk "m" ⟨1, .tmap, some (.tstring, .tint32), none, none,
              false⟩ false false none])
          [.val (.vdict [(.vstr [0x6B], .vint 3)])]) =
      [0x0A, 0x05, 0x0A, 0x01, 0x6B, 0x10, 0x03] := by
  refine ⟨?_, ?_, by rfl⟩
  · cases entries with
    | nil => rfl
    | cons p0 rest =>
      rw [serializeMsgGo_single fuel _ _ (by rfl), serializeFieldChunkF]
      simp only [FieldDecl.meta, FieldDecl.name]
      rw [if_neg (by simp [slotValue, getFieldDefault, FieldDecl.meta,
        FieldDecl.repeated, pyEqGo, dictEqF])]
      simp only [slotValue, FieldDecl.meta]
      refine congrArg (List.flatMap (p0 :: rest)) (funext fun p => ?_)
      by_cases hpe : serializeSingleF (serializeMsgGo fuel) 1 kt p.1 false
          none ++ serializeSingleF (serializeMsgGo fuel) 2 vt p.2 false
          none = ([] : List Nat)
      · rw [hpe, serializeSingleF_mapEntry_empty, if_pos rfl]
      · rw [serializeSingleF_mapEntry _ _ _ hpe, if_neg hpe]
  · intro recur v
    rw [serializeSingleF_int32, encodeVarintNat_small (2 <<< 3) (by decide)]
    simp

/-- C6 counterexample: a `map<string, string>` field numbered 1 holding
the single entry `{"": ""}` serializes to no bytes at all — the key and
value encodings are both empty, so `_serialize_single` suppresses the
entry's length-delimited field — refuting "serialization emits exactly one
length-delimited field per entry". -/
theorem c6_map_empty_entry_dropped :
    (∀ fuel, serializeMsgGo fuel (mkMessage
        (.mk [.mk "m" ⟨1, .tmap, some (.tstring, .tstring), none, none,
            false⟩ false false none])
        [.val (.vdict [(.vstr [], .vstr [])])]) = []) ∧
    msgGetattr (mkMessage
        (.mk [.mk "m" ⟨1, .tmap, some (.tstring, .tstring), none, none,
            false⟩ false false none])
        [.val (.vdict [(.vstr [], .vstr [])])]) "m" =
      .vdict [(.vstr [], .vstr [])] := by
  refine ⟨?_, by rfl⟩
  intro fuel
  cases fuel with
  | zero => rfl
  | succ n => rfl

/-! ## Claim C2: default-valued fields are skipped -/

theorem serializeFieldChunkF_skip (recur : PMsg → List Nat)
    (eq : PValue → PValue → Bool) (gc : List (String × Option String))
    (d : FieldDecl) (r : PRaw)
    (heq : eq (slotValue d r) (getFieldDefault d) = true)
    (hsel : ∀ g, d.meta.group = some g →
      ¬ alGet gc g = some (some d.name))
    (hemp : ∀ mm, slotValue d r = .vmsg mm → mm.serializedOnWire = false) :
    serializeFieldChunkF recur eq gc d r = [] := by
  have hselb : (match d.meta.group with
      | some g => alGet gc g == some (some d.name)
      | none => false) = false := by
    cases hg : d.meta.group with
    | none => rfl
    | some g => exact beq_eq_false_iff_ne.mpr (hsel g hg)
  have heq2 := heq
  rw [serializeFieldChunkF]
  cases hv : slotValue d r with
  | vnone => simp only [hv]
  | vmsg mm =>
    rw [hv] at heq2
    simp [hselb, heq2, hemp mm hv]
  | vint i => rw [hv] at heq2; simp [hselb, heq2]
  | vbool b => rw [hv] at heq2; simp [hselb, heq2]
  | vstr s => rw [hv] at heq2; simp [hselb, heq2]
  | vbytes bs => rw [hv] at heq2; simp [hselb, heq2]
  | vlist xs => rw [hv] at heq2; simp [hselb, heq2]
  | vdict kvs => rw [hv] at heq2; simp [hselb, heq2]

theorem serializeFieldsF_skip (recur : PMsg → List Nat)
    (eq : PValue → PValue → Bool) (gc : List (String × Option String)) :
    ∀ (i : Nat) (fields : List FieldDecl) (raws : List PRaw)
      (d : FieldDecl) (r : PRaw),
      fields.get? i = some d → raws.get? i = some r →
      serializeFieldChunkF recur eq gc d r = [] →
      serializeFieldsF recur eq gc fields raws =
        serializeFieldsF recur eq gc (fields.eraseIdx i) (raws.eraseIdx i) := by
  intro i
  induction i with
  | zero =>
    intro fields raws d r hf hr hc
    match fields, raws with
    | d0 :: ds, r0 :: rs =>
      obtain rfl : d0 = d := by simpa using hf
      obtain rfl : r0 = r := by simpa using hr
      simp [serializeFieldsF, hc, List.eraseIdx]
  | succ i ih =>
    intro fields raws d r hf hr hc
    match fields, raws with
    | [], _ => exact absurd hf (by simp)
    | _ :: _, [] => exact absurd hr (by simp)
    | d0 :: ds, r0 :: rs =>
      simp only [List.get?] at hf hr
      simp only [serializeFieldsF, List.eraseIdx]
      rw [ih ds rs d r hf hr hc]

/-- C2: a declared field whose current value (`getattr`, materializing the
default for an `UNSET` slot) compares `==`-equal to the field's default is
skipped by `serialize_to_bytes` — under the claim's provisos that the
field is not the `_group_current` selection of its one-of group and is not
a message with `_serialized_on_wire` set: its chunk is empty, and the
output equals the serialization of the message with that field erased from
the loop. -/
theorem c2_default_value_skipped (fuel : Nat) (m : PMsg) (i : Nat)
    (d : FieldDecl) (r : PRaw)
    (hf : m.schema.fields.get? i = some d) (hr : m.raws.get? i = some r)
    (heq : pyEqGo (fuel + 1) (slotValue d r) (getFieldDefault d) = true)
    (hsel : ∀ g, d.meta.group = some g →
      ¬ alGet m.groupCurrent g = some (some d.name))
    (hemp : ∀ mm, slotValue d r = .vmsg mm → mm.serializedOnWire = false) :
    serializeFieldChunkF (serializeMsgGo fuel) (pyEqGo (fuel + 1))
        m.groupCurrent d r = [] ∧
    serializeMsgGo (fuel + 1) m =
      serializeFieldsF (serializeMsgGo fuel) (pyEqGo (fuel + 1))
        m.groupCurrent (m.schema.fields.eraseIdx i) (m.raws.eraseIdx i) ++
        m.unknownFields := by
  have hc := serializeFieldChunkF_skip (serializeMsgGo fuel)
    (pyEqGo (fuel + 1)) m.groupCurrent d r heq hsel hemp
  refine ⟨hc, ?_⟩
  rw [serializeMsgGo,
    serializeFieldsF_skip _ _ _ i _ _ d r hf hr hc]

theorem c2_default_value_skipped_witness :
    (pyEqGo 1
        (slotValue
          (.mk "b" ⟨2, .tint32, none, none, none, false⟩ false false none)
          (.val (.vint 0)))
        (getFieldDefault
          (.mk "b" ⟨2, .tint32, none, none, none, false⟩ false false none))
      = true) ∧
    serializeMsgGo 1 (mkMessage
        (.mk [.mk "a" ⟨1, .tuint32, none, none, none, false⟩ false false none,
              .mk "b" ⟨2, .tint32, none, none, none, false⟩ false false none])
        [.val (.vint 5), .val (.vint 0)]) =
      serializeFieldsF (serializeMsgGo 0) (pyEqGo 1)
        (mkMessage
          (.mk [.mk "a" ⟨1, .tuint32, none, none, none, false⟩ false false none,
                .mk "b" ⟨2, .tint32, none, none, none, false⟩ false false none])
          [.val (.vint 5), .val (.vint 0)]).groupCurrent
        ((mkMessage
          (.mk [.mk "a" ⟨1, .tuint32, none, none, none, false⟩ false false none,
                .mk "b" ⟨2, .tint32, none, none, none, false⟩ false false none])
          [.val (.vint 5), .val (.vint 0)]).schema.fields.eraseIdx 1)
        ((mkMessage
          (.mk [.mk "a" ⟨1, .tuint32, none, none, none, false⟩ false false none,
                .mk "b" ⟨2, .tint32, none, none, none, false⟩ false false none])
          [.val (.vint 5), .val (.vint 0)]).raws.eraseIdx 1) ++
      (mkMessage
        (.mk [.mk "a" ⟨1, .tuint32, none, none, none, false⟩ false false none,
              .mk "b" ⟨2, .tint32, none, none, none, false⟩ false false none])
        [.val (.vint 5), .val (.vint 0)]).unknownFields := by
  refine ⟨by decide, ?_⟩
  exact (c2_default_value_skipped 0
    (mkMessage
      (.mk [.mk "a" ⟨1, .tuint32, none, none, none, false⟩ false false none,
            .mk "b" ⟨2, .tint32, none, none, none, false⟩ false false none])
      [.val (.vint 5), .val (.vint 0)])
    1 (.mk "b" ⟨2, .tint32, none, none, none, false⟩ false false none)
    (.val (.vint 0)) rfl rfl (by decide)
    (fun g hg => Option.noConfusion hg)
    (fun mm h => PValue.noConfusion h)).2

/-! ## Claim C1: serialize/deserialize round trip

The round trip is settled on messages whose fields are plain scalars; the
embedding-level machinery below characterizes each field's wire chunk, the
parse of a concatenation of chunks, and the deserializing fold. -/

/-- The scalar (non-message, non-map) proto types covered by the amended
round-trip claim (floats excluded from the embedding). -/
def SCALAR_TYPES : List ProtoType :=
  [.tbool, .tenum, .tint32, .tint64, .tuint32, .tuint64, .tsint32, .tsint64,
   .tfixed32, .tfixed64, .tsfixed32, .tsfixed64, .tstring, .tbytes]

/-- A plain scalar field: scalar type, not repeated/optional, no one-of
group, no wrapper, a non-empty name and an in-range field number. -/
def scalarFieldOK (d : FieldDecl) : Bool :=
  decide (d.meta.protoType ∈ SCALAR_TYPES) && !d.repeated &&
    !d.optionalHint && !d.meta.optional && d.meta.group == none &&
    d.meta.wraps == none && decide (d.name ≠ "") &&
    decide (d.meta.number < 2 ^ 29)

/-- A value valid for its declared scalar type: the declared protobuf
ranges (enums restricted to the non-negative values, which is what the
amended claim survives on). -/
def valueOK : ProtoType → PValue → Bool
  | .tbool, .vbool _ => true
  | .tenum, .vint n => decide (0 ≤ n) && decide (n < 2 ^ 31)
  | .tint32, .vint n => decide (-2 ^ 31 ≤ n) && decide (n < 2 ^ 31)
  | .tint64, .vint n => decide (-2 ^ 63 ≤ n) && decide (n < 2 ^ 63)
  | .tuint32, .vint n => decide (0 ≤ n) && decide (n < 2 ^ 32)
  | .tuint64, .vint n => decide (0 ≤ n) && decide (n < 2 ^ 64)
  | .tsint32, .vint n => decide (-2 ^ 31 ≤ n) && decide (n < 2 ^ 31)
  | .tsint64, .vint n => decide (-2 ^ 63 ≤ n) && decide (n < 2 ^ 63)
  | .tfixed32, .vint n => decide (0 ≤ n) && decide (n < 2 ^ 32)
  | .tfixed64, .vint n => decide (0 ≤ n) && decide (n < 2 ^ 64)
  | .tsfixed32, .vint n => decide (-2 ^ 31 ≤ n) && decide (n < 2 ^ 31)
  | .tsfixed64, .vint n => decide (-2 ^ 63 ≤ n) && decide (n < 2 ^ 63)
  | .tstring, .vstr bs => decide (bs.length < 2 ^ 64)
  | .tbytes, .vbytes bs => decide (bs.length < 2 ^ 64)
  | _, _ => false

/-- A slot valid for its field: still `UNSET`, or holding a valid value. -/
def slotOK (d : FieldDecl) : PRaw → Bool
  | .unset => true
  | .val v => valueOK d.meta.protoType v

/-- Whether a scalar field's slot is emitted (not skipped as
default-valued). -/
def emittedB (d : FieldDecl) (r : PRaw) : Bool :=
  !(pyEqGo 1 (slotValue d r) (getFieldDefault d))

/-- A scalar field's chunk; no scalar chunk recurses into a nested
message, so the serializer argument is irrelevant. -/
def fieldChunk (d : FieldDecl) (r : PRaw) : List Nat :=
  serializeFieldChunkF (fun _ => []) (pyEqGo 1) [] d r

/-- The wire type a scalar proto type is emitted with. -/
def wireTypeOf (t : ProtoType) : Nat :=
  if t ∈ WIRE_VARINT_TYPES then WIRE_VARINT
  else if t ∈ WIRE_FIXED_32_TYPES then WIRE_FIXED_32
  else if t ∈ WIRE_FIXED_64_TYPES then WIRE_FIXED_64
  else WIRE_LEN_DELIM

/-- The non-negative integer a varint-typed value puts on the wire. -/
def transmittedNat (t : ProtoType) (v : PValue) : Nat :=
  match t with
  | .tsint32 | .tsint64 => varintRepr (zigZag (pvToInt v))
  | _ => varintRepr (pvToInt v)

/-- The payload `parse_fields` recovers for a scalar field's chunk. -/
def wireValOf (d : FieldDecl) (r : PRaw) : WireVal :=
  match d.meta.protoType with
  | .tfixed32 | .tsfixed32 => .wbytes (packFixed 4 (pvToInt (slotValue d r)))
  | .tfixed64 | .tsfixed64 => .wbytes (packFixed 8 (pvToInt (slotValue d r)))
  | .tstring | .tbytes => .wbytes (pvBytes (slotValue d r))
  | _ => .wnum (transmittedNat d.meta.protoType (slotValue d r))

/-- The `ParsedField` record a scalar field's chunk parses back to. -/
def fieldRec (d : FieldDecl) (r : PRaw) : ParsedField :=
  ⟨d.meta.number, wireTypeOf d.meta.protoType, wireValOf d r, fieldChunk d r⟩

/-- Slot list after the deserializing fold: emitted positions hold the
decoded (original) value, the rest keep the constructed default. -/
def updatedSlots : List (FieldDecl × PRaw) → List PRaw → List PRaw
  | [], rs => rs
  | _ :: _, [] => []
  | p :: ps, r0 :: rs =>
    (if emittedB p.1 p.2 then PRaw.val (slotValue p.1 p.2) else r0) ::
      updatedSlots ps rs

/-- A value of a shape the scalar comparisons settle at any budget. -/
def scalarShaped : PValue → Bool
  | .vint _ | .vbool _ | .vstr _ | .vbytes _ | .vnone => true
  | _ => false

/-! ### Little-endian and tag arithmetic -/

theorem toLEBytes_length (n v : Nat) : (toLEBytes n v).length = n := by
  induction n generalizing v with
  | zero => rfl
  | succ n ih => rw [toLEBytes]; simp [ih]

theorem fromLEBytes_toLEBytes (n v : Nat) :
    fromLEBytes (toLEBytes n v) = v % 2 ^ (8 * n) := by
  induction n generalizing v with
  | zero => simp [toLEBytes, fromLEBytes, Nat.mod_one]
  | succ n ih =>
    rw [toLEBytes, fromLEBytes, ih]
    have hsplit : 2 ^ (8 * (n + 1)) = 256 * 2 ^ (8 * n) := by
      rw [show 8 * (n + 1) = 8 + 8 * n from by ring, pow_add]
      norm_num
    rw [hsplit, Nat.mod_mul]

theorem tag_decomp (num w : Nat) (hw : w < 8) :
    (num <<< 3) ||| w = 8 * num + w := by
  rw [Nat.shiftLeft_eq, Nat.lor_comm,
    lor_mul_two_pow_eq_add 3 w num (by norm_num; omega)]
  norm_num
  ring

theorem tag_and7 (num w : Nat) (hw : w < 8) :
    ((num <<< 3) ||| w) &&& 7 = w := by
  rw [tag_decomp num w hw]
  have h := Nat.and_pow_two_sub_one_eq_mod (8 * num + w) 3
  norm_num at h
  rw [h]
  omega

theorem tag_shr3 (num w : Nat) (hw : w < 8) :
    ((num <<< 3) ||| w) >>> 3 = num := by
  rw [tag_decomp num w hw, Nat.shiftRight_eq_div_pow]
  norm_num
  omega

theorem tag_lt (num w : Nat) (hw : w < 8) (hnum : num < 2 ^ 29) :
    ((num <<< 3) ||| w) < 2 ^ 64 := by
  rw [tag_decomp num w hw]
  have : (2 : Nat) ^ 29 ≤ 2 ^ 64 := by norm_num
  omega

theorem encodeVarintNat_ne_nil (v : Nat) : encodeVarintNat v ≠ [] := by
  rw [encodeVarintNat, encodeVarintAux_unfold]
  by_cases h : v >>> 7 = 0
  · rw [if_pos h]
    exact List.cons_ne_nil _ _
  · rw [if_neg h]
    exact List.cons_ne_nil _ _

theorem pySlice_mid (pre mid rest : List Nat) :
    pySlice (pre ++ mid ++ rest) pre.length (pre.length + mid.length) =
      mid := by
  rw [pySlice, List.append_assoc, List.take_append_eq_append_take,
    List.take_of_length_le (by simp),
    List.take_append_eq_append_take]
  simp [List.drop_left]

theorem unpackFixed_packFixed_unsigned (n : Nat) (i : Int) (h0 : 0 ≤ i)
    (hi : i < 2 ^ (8 * n)) :
    unpackFixed n false (packFixed n i) = i := by
  rw [packFixed, unpackFixed, Int.emod_eq_of_lt h0 hi]
  rw [fromLEBytes_toLEBytes]
  have htn : i.toNat < 2 ^ (8 * n) := by
    have hcast : ((2 ^ (8 * n) : Nat) : Int) = 2 ^ (8 * n) := by push_cast; rfl
    omega
  rw [Nat.mod_eq_of_lt htn]
  simp only [Bool.false_and, if_neg (Bool.false_ne_true)]
  omega

theorem unpackFixed_packFixed_signed (n : Nat) (hn : 1 ≤ n) (i : Int)
    (h0 : -(2 ^ (8 * n - 1)) ≤ i) (hi : i < 2 ^ (8 * n - 1)) :
    unpackFixed n true (packFixed n i) = i := by
  have hMP : ((2 : Int) ^ (8 * n)) = 2 * 2 ^ (8 * n - 1) := by
    rw [← pow_succ']
    congr 1
    omega
  have hMpos : (0 : Int) < 2 ^ (8 * n) := by positivity
  have hcast : ((2 ^ (8 * n) : Nat) : Int) = 2 ^ (8 * n) := by push_cast; rfl
  have hcast2 : ((2 ^ (8 * n - 1) : Nat) : Int) = 2 ^ (8 * n - 1) := by
    push_cast; rfl
  have hemod : i % 2 ^ (8 * n) = if 0 ≤ i then i else i + 2 ^ (8 * n) := by
    by_cases hc : 0 ≤ i
    · rw [if_pos hc]
      exact Int.emod_eq_of_lt hc (by omega)
    · rw [if_neg hc]
      have : (i + 2 ^ (8 * n)) % 2 ^ (8 * n) = i % 2 ^ (8 * n) := by
        simp
      rw [← this, Int.emod_eq_of_lt (by omega) (by omega)]
  rw [packFixed, unpackFixed, fromLEBytes_toLEBytes]
  have hlt : (i % 2 ^ (8 * n)).toNat < 2 ^ (8 * n) := by
    have h1 := Int.emod_nonneg i (ne_of_gt hMpos)
    have h2 := Int.emod_lt_of_pos i hMpos
    omega
  rw [Nat.mod_eq_of_lt hlt]
  simp only [Bool.true_and]
  by_cases hc : 0 ≤ i
  · rw [hemod, if_pos hc] at hlt ⊢
    rw [if_neg (by
      simp only [decide_eq_true_eq]
      omega)]
    omega
  · rw [hemod, if_neg hc] at hlt ⊢
    rw [if_pos (by
      simp only [decide_eq_true_eq]
      omega)]
    omega

/-! ### Scalar `==` is budget-independent and reflexive -/

theorem pyEqGo_scalar_stable (k j : Nat) (v w : PValue)
    (hv : scalarShaped v = true) :
    pyEqGo (k + 1) v w = pyEqGo (j + 1) v w := by
  cases v <;> simp [scalarShaped] at hv <;> cases w <;> simp [pyEqGo]

theorem pyEqGo_scalar_refl (k : Nat) (v : PValue)
    (hv : scalarShaped v = true) : pyEqGo (k + 1) v v = true := by
  cases v <;> simp [scalarShaped] at hv <;> simp [pyEqGo]

mutual
theorem schemaBeq_refl : ∀ s : Schema, schemaBeq s s = true
  | .mk fs => by
    rw [schemaBeq]
    exact fieldDeclListBeq_refl fs

theorem fieldDeclListBeq_refl : ∀ l : List FieldDecl,
    fieldDeclListBeq l l = true
  | [] => rfl
  | d :: t => by
    rw [fieldDeclListBeq, fieldDeclBeq_refl d, fieldDeclListBeq_refl t]
    rfl

theorem fieldDeclBeq_refl : ∀ d : FieldDecl, fieldDeclBeq d d = true
  | .mk n m r o s => by
    cases s with
    | none =>
      rw [fieldDeclBeq]
      simp
    | some a =>
      rw [fieldDeclBeq]
      simp [schemaBeq_refl a]
end

/-! ### Parsing a concatenation of well-formed chunks -/

/-- The well-formed chunks `parse_fields` consumes in one step: a tag
varint followed by the wire type's payload, together with the
`ParsedField` the step yields (whose `raw` is the whole chunk). -/
inductive ChunkShape : List Nat → ParsedField → Prop where
  | varint (num v : Nat) (hnum : num < 2 ^ 29) (hv : v < 2 ^ 64) :
      ChunkShape (encodeVarintNat (num <<< 3) ++ encodeVarintNat v)
        ⟨num, WIRE_VARINT, .wnum v,
          encodeVarintNat (num <<< 3) ++ encodeVarintNat v⟩
  | fixed32 (num : Nat) (body : List Nat) (hnum : num < 2 ^ 29)
      (hlen : body.length = 4) :
      ChunkShape (encodeVarintNat ((num <<< 3) ||| 5) ++ body)
        ⟨num, WIRE_FIXED_32, .wbytes body,
          encodeVarintNat ((num <<< 3) ||| 5) ++ body⟩
  | fixed64 (num : Nat) (body : List Nat) (hnum : num < 2 ^ 29)
      (hlen : body.length = 8) :
      ChunkShape (encodeVarintNat ((num <<< 3) ||| 1) ++ body)
        ⟨num, WIRE_FIXED_64, .wbytes body,
          encodeVarintNat ((num <<< 3) ||| 1) ++ body⟩
  | lenDelim (num : Nat) (payload : List Nat) (hnum : num < 2 ^ 29)
      (hlen : payload.length < 2 ^ 64) :
      ChunkShape (encodeVarintNat ((num <<< 3) ||| 2) ++
          (encodeVarintNat payload.length ++ payload))
        ⟨num, WIRE_LEN_DELIM, .wbytes payload,
          encodeVarintNat ((num <<< 3) ||| 2) ++
            (encodeVarintNat payload.length ++ payload)⟩

theorem ChunkShape.ne_nil {c : List Nat} {pf : ParsedField}
    (h : ChunkShape c pf) : c ≠ [] := by
  cases h <;> exact fun hc =>
    encodeVarintNat_ne_nil _ (List.append_eq_nil.mp hc).1

theorem parseFieldsGo_chunk (fuel : Nat) (pre c rest : List Nat)
    (pf : ParsedField) (hc : ChunkShape c pf) :
    parseFieldsGo (fuel + 1) (pre ++ c ++ rest) pre.length =
      (parseFieldsGo fuel (pre ++ c ++ rest) (pre.length + c.length)).map
        (pf :: ·) := by
  cases hc with
  | varint num v hnum hv =>
    have htaglt : (num <<< 3) < 2 ^ 64 := by
      have h := tag_lt num 0 (by norm_num) hnum
      rwa [Nat.or_zero] at h
    have hilt : pre.length < (pre ++
        (encodeVarintNat (num <<< 3) ++ encodeVarintNat v) ++ rest).length := by
      have h2 : 0 < (encodeVarintNat (num <<< 3)).length :=
        List.length_pos.mpr (encodeVarintNat_ne_nil _)
      simp only [List.length_append]
      omega
    have htag : decode_varint
        (pre ++ (encodeVarintNat (num <<< 3) ++ encodeVarintNat v) ++ rest)
        pre.length = .ok (num <<< 3,
          pre.length + (encodeVarintNat (num <<< 3)).length) := by
      have h := decode_varint_encoded (num <<< 3) htaglt
        pre (encodeVarintNat v ++ rest)
      rw [← h]
      congr 1
      simp [List.append_assoc]
    have hval : decode_varint
        (pre ++ (encodeVarintNat (num <<< 3) ++ encodeVarintNat v) ++ rest)
        (pre.length + (encodeVarintNat (num <<< 3)).length) =
        .ok (v, pre.length + (encodeVarintNat (num <<< 3)).length +
          (encodeVarintNat v).length) := by
      have h := decode_varint_encoded v hv
        (pre ++ encodeVarintNat (num <<< 3)) rest
      simp only [List.append_assoc, List.length_append] at h
      simp only [List.append_assoc]
      exact h
    have hand : (num <<< 3) &&& 7 = WIRE_VARINT := by
      have h := tag_and7 num 0 (by norm_num)
      rwa [Nat.or_zero] at h
    have hshr : (num <<< 3) >>> 3 = num := by
      have h := tag_shr3 num 0 (by norm_num)
      rwa [Nat.or_zero] at h
    have hslice : pySlice
        (pre ++ (encodeVarintNat (num <<< 3) ++ encodeVarintNat v) ++ rest)
        pre.length (pre.length + (encodeVarintNat (num <<< 3)).length +
          (encodeVarintNat v).length) =
        encodeVarintNat (num <<< 3) ++ encodeVarintNat v := by
      have h := pySlice_mid pre
        (encodeVarintNat (num <<< 3) ++ encodeVarintNat v) rest
      rw [List.length_append, ← Nat.add_assoc] at h
      exact h
    rw [parseFieldsGo, if_pos hilt, htag]
    simp only []
    rw [if_pos hand, hval]
    simp only []
    rw [hslice]
    simp only [hand, hshr]
    have hpos : pre.length +
        (encodeVarintNat (num <<< 3) ++ encodeVarintNat v).length =
        pre.length + (encodeVarintNat (num <<< 3)).length +
          (encodeVarintNat v).length := by
      rw [List.length_append]
      omega
    rw [hpos]
  | fixed32 num body hnum hlen =>
    have hilt : pre.length <
        (pre ++ (encodeVarintNat ((num <<< 3) ||| 5) ++ body) ++ rest).length := by
      have h2 : 0 < (encodeVarintNat ((num <<< 3) ||| 5)).length :=
        List.length_pos.mpr (encodeVarintNat_ne_nil _)
      simp only [List.length_append]
      omega
    have htag : decode_varint
        (pre ++ (encodeVarintNat ((num <<< 3) ||| 5) ++ body) ++ rest)
        pre.length = .ok ((num <<< 3) ||| 5,
          pre.length + (encodeVarintNat ((num <<< 3) ||| 5)).length) := by
      have h := decode_varint_encoded ((num <<< 3) ||| 5)
        (tag_lt num 5 (by norm_num) hnum) pre (body ++ rest)
      rw [← h]
      congr 1
      simp [List.append_assoc]
    have h0 : ¬ ((num <<< 3) ||| 5) &&& 7 = WIRE_VARINT := by
      rw [tag_and7 num 5 (by norm_num)]
      decide
    have h1 : ¬ ((num <<< 3) ||| 5) &&& 7 = WIRE_FIXED_64 := by
      rw [tag_and7 num 5 (by norm_num)]
      decide
    have h2 : ¬ ((num <<< 3) ||| 5) &&& 7 = WIRE_LEN_DELIM := by
      rw [tag_and7 num 5 (by norm_num)]
      decide
    have h3 : ((num <<< 3) ||| 5) &&& 7 = WIRE_FIXED_32 := by
      rw [tag_and7 num 5 (by norm_num)]
      decide
    have hbody : pySlice
        (pre ++ (encodeVarintNat ((num <<< 3) ||| 5) ++ body) ++ rest)
        (pre.length + (encodeVarintNat ((num <<< 3) ||| 5)).length)
        (pre.length + (encodeVarintNat ((num <<< 3) ||| 5)).length + 4) =
        body := by
      have h := pySlice_mid (pre ++ encodeVarintNat ((num <<< 3) ||| 5))
        body rest
      simp only [List.append_assoc, List.length_append, hlen] at h
      simp only [List.append_assoc]
      exact h
    have hraw : pySlice
        (pre ++ (encodeVarintNat ((num <<< 3) ||| 5) ++ body) ++ rest)
        pre.length
        (pre.length + (encodeVarintNat ((num <<< 3) ||| 5)).length + 4) =
        encodeVarintNat ((num <<< 3) ||| 5) ++ body := by
      have h := pySlice_mid pre
        (encodeVarintNat ((num <<< 3) ||| 5) ++ body) rest
      rw [List.length_append, hlen, ← Nat.add_assoc] at h
      exact h
    rw [parseFieldsGo, if_pos hilt, htag]
    simp only []
    rw [if_neg h0, if_neg h1, if_neg h2, if_pos h3, hbody, hraw]
    simp only [h3, tag_shr3 num 5 (by norm_num)]
    have hpos : pre.length +
        (encodeVarintNat ((num <<< 3) ||| 5) ++ body).length =
        pre.length + (encodeVarintNat ((num <<< 3) ||| 5)).length + 4 := by
      rw [List.length_append, hlen]
      omega
    rw [hpos]
  | fixed64 num body hnum hlen =>
    have hilt : pre.length <
        (pre ++ (encodeVarintNat ((num <<< 3) ||| 1) ++ body) ++ rest).length := by
      have h2 : 0 < (encodeVarintNat ((num <<< 3) ||| 1)).length :=
        List.length_pos.mpr (encodeVarintNat_ne_nil _)
      simp only [List.length_append]
      omega
    have htag : decode_varint
        (pre ++ (encodeVarintNat ((num <<< 3) ||| 1) ++ body) ++ rest)
        pre.length = .ok ((num <<< 3) ||| 1,
          pre.length + (encodeVarintNat ((num <<< 3) ||| 1)).length) := by
      have h := decode_varint_encoded ((num <<< 3) ||| 1)
        (tag_lt num 1 (by norm_num) hnum) pre (body ++ rest)
      rw [← h]
      congr 1
      simp [List.append_assoc]
    have h0 : ¬ ((num <<< 3) ||| 1) &&& 7 = WIRE_VARINT := by
      rw [tag_and7 num 1 (by norm_num)]
      decide
    have h1 : ((num <<< 3) ||| 1) &&& 7 = WIRE_FIXED_64 := by
      rw [tag_and7 num 1 (by norm_num)]
      decide
    have hbody : pySlice
        (pre ++ (encodeVarintNat ((num <<< 3) ||| 1) ++ body) ++ rest)
        (pre.length + (encodeVarintNat ((num <<< 3) ||| 1)).length)
        (pre.length + (encodeVarintNat ((num <<< 3) ||| 1)).length + 8) =
        body := by
      have h := pySlice_mid (pre ++ encodeVarintNat ((num <<< 3) ||| 1))
        body rest
      simp only [List.append_assoc, List.length_append, hlen] at h
      simp only [List.append_assoc]
      exact h
    have hraw : pySlice
        (pre ++ (encodeVarintNat ((num <<< 3) ||| 1) ++ body) ++ rest)
        pre.length
        (pre.length + (encodeVarintNat ((num <<< 3) ||| 1)).length + 8) =
        encodeVarintNat ((num <<< 3) ||| 1) ++ body := by
      have h := pySlice_mid pre
        (encodeVarintNat ((num <<< 3) ||| 1) ++ body) rest
      rw [List.length_append, hlen, ← Nat.add_assoc] at h
      exact h
    rw [parseFieldsGo, if_pos hilt, htag]
    simp only []
    rw [if_neg h0, if_pos h1, hbody, hraw]
    simp only [h1, tag_shr3 num 1 (by norm_num)]
    have hpos : pre.length +
        (encodeVarintNat ((num <<< 3) ||| 1) ++ body).length =
        pre.length + (encodeVarintNat ((num <<< 3) ||| 1)).length + 8 := by
      rw [List.length_append, hlen]
      omega
    rw [hpos]
  | lenDelim num payload hnum hlen =>
    have hilt : pre.length < (pre ++ (encodeVarintNat ((num <<< 3) ||| 2) ++
        (encodeVarintNat payload.length ++ payload)) ++ rest).length := by
      have h2 : 0 < (encodeVarintNat ((num <<< 3) ||| 2)).length :=
        List.length_pos.mpr (encodeVarintNat_ne_nil _)
      simp only [List.length_append]
      omega
    have htag : decode_varint
        (pre ++ (encodeVarintNat ((num <<< 3) ||| 2) ++
          (encodeVarintNat payload.length ++ payload)) ++ rest)
        pre.length = .ok ((num <<< 3) ||| 2,
          pre.length + (encodeVarintNat ((num <<< 3) ||| 2)).length) := by
      have h := decode_varint_encoded ((num <<< 3) ||| 2)
        (tag_lt num 2 (by norm_num) hnum) pre
        (encodeVarintNat payload.length ++ payload ++ rest)
      rw [← h]
      congr 1
      simp [List.append_assoc]
    have hval : decode_varint
        (pre ++ (encodeVarintNat ((num <<< 3) ||| 2) ++
          (encodeVarintNat payload.length ++ payload)) ++ rest)
        (pre.length + (encodeVarintNat ((num <<< 3) ||| 2)).length) =
        .ok (payload.length,
          pre.length + (encodeVarintNat ((num <<< 3) ||| 2)).length +
            (encodeVarintNat payload.length).length) := by
      have h := decode_varint_encoded payload.length hlen
        (pre ++ encodeVarintNat ((num <<< 3) ||| 2)) (payload ++ rest)
      simp only [List.append_assoc, List.length_append] at h
      simp only [List.append_assoc]
      exact h
    have h0 : ¬ ((num <<< 3) ||| 2) &&& 7 = WIRE_VARINT := by
      rw [tag_and7 num 2 (by norm_num)]
      decide
    have h1 : ¬ ((num <<< 3) ||| 2) &&& 7 = WIRE_FIXED_64 := by
      rw [tag_and7 num 2 (by norm_num)]
      decide
    have h2 : ((num <<< 3) ||| 2) &&& 7 = WIRE_LEN_DELIM := by
      rw [tag_and7 num 2 (by norm_num)]
      decide
    have hbody : pySlice
        (pre ++ (encodeVarintNat ((num <<< 3) ||| 2) ++
          (encodeVarintNat payload.length ++ payload)) ++ rest)
        (pre.length + (encodeVarintNat ((num <<< 3) ||| 2)).length +
          (encodeVarintNat payload.length).length)
        (pre.length + (encodeVarintNat ((num <<< 3) ||| 2)).length +
          (encodeVarintNat payload.length).length + payload.length) =
        payload := by
      have h := pySlice_mid (pre ++ encodeVarintNat ((num <<< 3) ||| 2) ++
        encodeVarintNat payload.length) payload rest
      simp only [List.append_assoc, List.length_append] at h
      simp only [List.append_assoc]
      convert h using 2 <;> omega
    have hraw : pySlice
        (pre ++ (encodeVarintNat ((num <<< 3) ||| 2) ++
          (encodeVarintNat payload.length ++ payload)) ++ rest)
        pre.length
        (pre.length + (encodeVarintNat ((num <<< 3) ||| 2)).length +
          (encodeVarintNat payload.length).length + payload.length) =
        encodeVarintNat ((num <<< 3) ||| 2) ++
          (encodeVarintNat payload.length ++ payload) := by
      have h := pySlice_mid pre (encodeVarintNat ((num <<< 3) ||| 2) ++
        (encodeVarintNat payload.length ++ payload)) rest
      simp only [List.length_append] at h
      rw [show pre.length + ((encodeVarintNat ((num <<< 3) ||| 2)).length +
        ((encodeVarintNat payload.length).length + payload.length)) =
        pre.length + (encodeVarintNat ((num <<< 3) ||| 2)).length +
          (encodeVarintNat payload.length).length + payload.length
        from by omega] at h
      exact h
    rw [parseFieldsGo, if_pos hilt, htag]
    simp only []
    rw [if_neg h0, if_neg h1, if_pos h2, hval]
    simp only []
    rw [hbody, hraw]
    simp only [h2, tag_shr3 num 2 (by norm_num)]
    have hpos : pre.length +
        (encodeVarintNat ((num <<< 3) ||| 2) ++
          (encodeVarintNat payload.length ++ payload)).length =
        pre.length + (encodeVarintNat ((num <<< 3) ||| 2)).length +
          (encodeVarintNat payload.length).length + payload.length := by
      simp only [List.length_append]
      omega
    rw [hpos]

theorem parse_chunks :
    ∀ (cs : List (List Nat × ParsedField)) (pre value : List Nat)
      (fuel : Nat),
      value = pre ++ cs.flatMap Prod.fst →
      (∀ p ∈ cs, ChunkShape p.1 p.2) →
      value.length - pre.length ≤ fuel →
      parseFieldsGo fuel value pre.length = .ok (cs.map Prod.snd) := by
  intro cs
  induction cs with
  | nil =>
    intro pre value fuel hv _ _
    subst hv
    simp only [List.flatMap_nil, List.append_nil, List.map_nil]
    cases fuel with
    | zero => rfl
    | succ f => rw [parseFieldsGo, if_neg (by omega)]
  | cons p cs ih =>
    intro pre value fuel hv hshape hfuel
    obtain ⟨c, pf⟩ := p
    have hcp : ChunkShape c pf := hshape _ (List.mem_cons_self _ _)
    have hcne : c ≠ [] := hcp.ne_nil
    have hclen : 0 < c.length := List.length_pos.mpr hcne
    subst hv
    simp only [List.flatMap_cons] at hfuel ⊢
    rw [← List.append_assoc] at hfuel ⊢
    cases fuel with
    | zero =>
      exfalso
      simp only [List.length_append] at hfuel
      omega
    | succ f =>
      rw [parseFieldsGo_chunk f pre c (cs.flatMap Prod.fst) pf hcp]
      have hrec := ih (pre ++ c) (pre ++ c ++ cs.flatMap Prod.fst) f
        (by rw [List.append_assoc])
        (fun q hq => hshape q (List.mem_cons_of_mem _ hq))
        (by
          simp only [List.length_append] at hfuel ⊢
          omega)
      rw [List.length_append] at hrec
      rw [hrec]
      rfl

/-! ### Scalar field facts -/

theorem scalarFieldOK_spec (d : FieldDecl) (hd : scalarFieldOK d = true) :
    d.meta.protoType ∈ SCALAR_TYPES ∧ d.repeated = false ∧
    d.optionalHint = false ∧ d.meta.optional = false ∧
    d.meta.group = none ∧ d.meta.wraps = none ∧ d.name ≠ "" ∧
    d.meta.number < 2 ^ 29 := by
  simp only [scalarFieldOK, Bool.and_eq_true, Bool.not_eq_true',
    decide_eq_true_eq, beq_iff_eq] at hd
  exact ⟨hd.1.1.1.1.1.1.1, hd.1.1.1.1.1.1.2, hd.1.1.1.1.1.2,
    hd.1.1.1.1.2, hd.1.1.1.2, hd.1.1.2, hd.1.2, hd.2⟩

theorem slotValue_scalar_shaped (d : FieldDecl) (r : PRaw)
    (hd : scalarFieldOK d = true) (hr : slotOK d r = true) :
    scalarShaped (slotValue d r) = true ∧
    (∀ mm, slotValue d r ≠ .vmsg mm) ∧
    (∀ xs, slotValue d r ≠ .vlist xs) ∧
    (∀ kvs, slotValue d r ≠ .vdict kvs) ∧ slotValue d r ≠ .vnone := by
  obtain ⟨hmem, hrep, hopt, hmopt, hgroup, hwraps, hname, hnum⟩ :=
    scalarFieldOK_spec d hd
  cases r with
  | unset =>
    simp only [SCALAR_TYPES, List.mem_cons, List.mem_singleton] at hmem
    simp only [slotValue, getFieldDefault, hrep, hopt]
    rcases hmem with h | h | h | h | h | h | h | h | h | h | h | h | h | h |
        h <;>
      first
        | (rw [h]; simp [scalarShaped])
        | exact absurd h (by simp [List.not_mem_nil])
  | val v =>
    simp only [slotOK] at hr
    simp only [slotValue]
    simp only [SCALAR_TYPES, List.mem_cons, List.mem_singleton] at hmem
    cases v <;>
      rcases hmem with h | h | h | h | h | h | h | h | h | h | h | h | h |
          h | h <;>
        solve
          | simp [scalarShaped]
          | (rw [h] at hr; exact Bool.noConfusion hr)
          | exact absurd h (List.not_mem_nil _)

theorem serializeSingleF_recur_irrel (recur recur2 : PMsg → List Nat)
    (num : Nat) (t : ProtoType) (v : PValue) (se : Bool)
    (w : Option ProtoType) (ht : t ≠ .tmessage) :
    serializeSingleF recur num t v se w =
      serializeSingleF recur2 num t v se w := by
  cases t <;> first | rfl | exact absurd rfl ht

theorem serializeFieldsF_eq_flatMap (recur : PMsg → List Nat)
    (eq : PValue → PValue → Bool) (gc : List (String × Option String)) :
    ∀ (fs : List FieldDecl) (rs : List PRaw),
      serializeFieldsF recur eq gc fs rs =
        (fs.zip rs).flatMap
          (fun p => serializeFieldChunkF recur eq gc p.1 p.2) := by
  intro fs
  induction fs with
  | nil => intro rs; cases rs <;> rfl
  | cons d ds ih =>
    intro rs
    cases rs with
    | nil => rfl
    | cons r rs2 =>
      rw [serializeFieldsF, ih rs2]
      rfl

/-- On a plain scalar field any serializer, `==` budget and group state
produce the same chunk: skip when default-valued, else the single-field
encoding with no flags. -/
theorem serializeFieldChunkF_scalar_nf (recur : PMsg → List Nat) (k : Nat)
    (gc : List (String × Option String)) (d : FieldDecl) (r : PRaw)
    (hd : scalarFieldOK d = true) (hr : slotOK d r = true) :
    serializeFieldChunkF recur (pyEqGo (k + 1)) gc d r =
      if pyEqGo 1 (slotValue d r) (getFieldDefault d) = true then []
      else serializeSingleF (fun _ => []) d.meta.number d.meta.protoType
        (slotValue d r) false none := by
  obtain ⟨hmem, hrep, hopt, hmopt, hgroup, hwraps, hname, hnum⟩ :=
    scalarFieldOK_spec d hd
  have hsh := slotValue_scalar_shaped d r hd hr
  have htmsg : d.meta.protoType ≠ .tmessage := by
    revert hmem
    have : ∀ t ∈ SCALAR_TYPES, t ≠ ProtoType.tmessage := by decide
    exact fun hm => this _ hm
  cases hv : slotValue d r
  case vmsg mm => exact absurd hv (hsh.2.1 mm)
  case vlist xs => exact absurd hv (hsh.2.2.1 xs)
  case vdict kvs => exact absurd hv (hsh.2.2.2.1 kvs)
  case vnone => exact absurd hv hsh.2.2.2.2
  all_goals (
    simp only [serializeFieldChunkF, hv, hgroup, hwraps]
    rw [pyEqGo_scalar_stable k 0 _ (getFieldDefault d) (by rw [← hv]; exact hsh.1)]
    simp only [Nat.zero_add, Bool.or_false, Bool.or_self, Bool.not_false,
      Bool.and_true, Bool.false_or, Bool.false_and, Bool.and_false]
    rw [hv] at hsh
    by_cases hc : pyEqGo 1 (slotValue d r) (getFieldDefault d) = true
    · rw [hv] at hc
      rw [if_pos hc, if_pos hc]
    · rw [hv] at hc
      rw [if_neg hc, if_neg hc]
      exact serializeSingleF_recur_irrel _ _ _ _ _ _ _ htmsg)

theorem serializeSingleF_varint (recur : PMsg → List Nat) (num : Nat)
    (t : ProtoType)
    (ht : t ∈ [ProtoType.tenum, .tbool, .tint32, .tint64, .tuint32,
      .tuint64]) (v : PValue) :
    serializeSingleF recur num t v false none =
      encodeVarintNat (num <<< 3) ++ encode_varint (pvToInt v) := by
  simp only [List.mem_cons, List.mem_singleton] at ht
  rcases ht with rfl | rfl | rfl | rfl | rfl | rfl | ht <;>
    solve
      | simp [serializeSingleF, preprocessSingleF, WIRE_VARINT_TYPES,
          encode_varint_natCast]
      | exact absurd ht (List.not_mem_nil _)

theorem serializeSingleF_sint (recur : PMsg → List Nat) (num : Nat)
    (t : ProtoType) (ht : t ∈ [ProtoType.tsint32, .tsint64]) (v : PValue) :
    serializeSingleF recur num t v false none =
      encodeVarintNat (num <<< 3) ++ encode_varint (zigZag (pvToInt v)) := by
  simp only [List.mem_cons, List.mem_singleton] at ht
  rcases ht with rfl | rfl | ht <;>
    solve
      | simp [serializeSingleF, preprocessSingleF, WIRE_VARINT_TYPES,
          encode_varint_natCast]
      | exact absurd ht (List.not_mem_nil _)

theorem serializeSingleF_fixed32 (recur : PMsg → List Nat) (num : Nat)
    (t : ProtoType) (ht : t ∈ [ProtoType.tfixed32, .tsfixed32])
    (v : PValue) :
    serializeSingleF recur num t v false none =
      encodeVarintNat ((num <<< 3) ||| 5) ++ packFixed 4 (pvToInt v) := by
  simp only [List.mem_cons, List.mem_singleton] at ht
  rcases ht with rfl | rfl | ht <;>
    solve
      | simp [serializeSingleF, preprocessSingleF, WIRE_VARINT_TYPES,
          WIRE_FIXED_32_TYPES, encode_varint_natCast]
      | exact absurd ht (List.not_mem_nil _)

theorem serializeSingleF_fixed64 (recur : PMsg → List Nat) (num : Nat)
    (t : ProtoType) (ht : t ∈ [ProtoType.tfixed64, .tsfixed64])
    (v : PValue) :
    serializeSingleF recur num t v false none =
      encodeVarintNat ((num <<< 3) ||| 1) ++ packFixed 8 (pvToInt v) := by
  simp only [List.mem_cons, List.mem_singleton] at ht
  rcases ht with rfl | rfl | ht <;>
    solve
      | simp [serializeSingleF, preprocessSingleF, WIRE_VARINT_TYPES,
          WIRE_FIXED_32_TYPES, WIRE_FIXED_64_TYPES, encode_varint_natCast]
      | exact absurd ht (List.not_mem_nil _)

theorem serializeSingleF_lenScalar (recur : PMsg → List Nat) (num : Nat)
    (t : ProtoType) (ht : t ∈ [ProtoType.tstring, .tbytes]) (v : PValue) :
    serializeSingleF recur num t v false none =
      if (pvBytes v).length = 0 then []
      else encodeVarintNat ((num <<< 3) ||| 2) ++
        (encodeVarintNat (pvBytes v).length ++ pvBytes v) := by
  simp only [List.mem_cons, List.mem_singleton] at ht
  by_cases hz : (pvBytes v).length = 0
  · rw [if_pos hz]
    rcases ht with rfl | rfl | ht <;>
      solve
        | simp [serializeSingleF, preprocessSingleF, WIRE_VARINT_TYPES,
            WIRE_FIXED_32_TYPES, WIRE_FIXED_64_TYPES, WIRE_LEN_DELIM_TYPES,
            hz]
        | exact absurd ht (List.not_mem_nil _)
  · rw [if_neg hz]
    rcases ht with rfl | rfl | ht <;>
      solve
        | simp [serializeSingleF, preprocessSingleF, WIRE_VARINT_TYPES,
            WIRE_FIXED_32_TYPES, WIRE_FIXED_64_TYPES, WIRE_LEN_DELIM_TYPES,
            hz, encode_varint_natCast]
        | exact absurd ht (List.not_mem_nil _)

/-- What the fold through `deserialize_from_bytes` needs of one emitted
scalar field: its chunk parses to its record, postprocessing the record
recovers the original value, and the packed-repeated branch is not
taken. -/
def FieldRoundtrip (d : FieldDecl) (r : PRaw) : Prop :=
  ChunkShape (fieldChunk d r) (fieldRec d r) ∧
  (∀ recur2 : Schema → List Nat → Except String PMsg,
    postprocessSingleF recur2 (fieldRec d r).wireType d (fieldRec d r).value
      = .ok (slotValue d r)) ∧
  (((fieldRec d r).wireType == WIRE_LEN_DELIM) &&
    decide (d.meta.protoType ∈ PACKED_TYPES)) = false

theorem fieldChunk_val_nf (d : FieldDecl) (v : PValue)
    (hd : scalarFieldOK d = true) (hr : slotOK d (.val v) = true)
    (hemS : pyEqGo 1 v (getFieldDefault d) = false) :
    fieldChunk d (.val v) =
      serializeSingleF (fun _ => []) d.meta.number d.meta.protoType v
        false none := by
  rw [fieldChunk, serializeFieldChunkF_scalar_nf (fun _ => []) 0 [] d _ hd hr]
  rw [if_neg (by
    show ¬ pyEqGo 1 (slotValue d (.val v)) (getFieldDefault d) = true
    intro hc
    rw [show slotValue d (.val v) = v from rfl, hemS] at hc
    exact Bool.noConfusion hc)]
  rfl

theorem fieldRoundtrip_int32 (name : String) (number : Nat)
    (mt : Option (ProtoType × ProtoType)) (nested : Option Schema)
    (n : Int) (hnum : number < 2 ^ 29) (hname : name ≠ "")
    (hlo : -2 ^ 31 ≤ n) (hhi : n < 2 ^ 31)
    (hemS : pyEqGo 1 (.vint n)
      (getFieldDefault
        (.mk name ⟨number, .tint32, mt, none, none, false⟩ false false
          nested)) = false) :
    FieldRoundtrip
      (.mk name ⟨number, .tint32, mt, none, none, false⟩ false false nested)
      (.val (.vint n)) := by
  have hch2 : fieldChunk
      (.mk name ⟨number, .tint32, mt, none, none, false⟩ false false nested)
      (.val (.vint n)) =
      encodeVarintNat (number <<< 3) ++ encodeVarintNat (varintRepr n) := by
    rw [fieldChunk_val_nf _ _ (by
        simp [scalarFieldOK, SCALAR_TYPES, FieldDecl.meta, FieldDecl.name,
          FieldDecl.repeated, FieldDecl.optionalHint]
        exact ⟨hname, hnum⟩)
      (by
        show valueOK .tint32 (.vint n) = true
        simp [valueOK]
        omega) hemS]
    rw [show (FieldDecl.mk name ⟨number, .tint32, mt, none, none, false⟩
        false false nested).meta.protoType = ProtoType.tint32 from rfl,
      show (FieldDecl.mk name ⟨number, .tint32, mt, none, none, false⟩
        false false nested).meta.number = number from rfl]
    rw [serializeSingleF_varint _ _ _ (by decide) _, encode_varint_eq_nat]
    rfl
  refine ⟨?_, ?_, ?_⟩
  · have hwv : wireValOf
        (.mk name ⟨number, .tint32, mt, none, none, false⟩ false false
          nested) (.val (.vint n)) = .wnum (varintRepr n) := rfl
    have hwt : wireTypeOf ProtoType.tint32 = WIRE_VARINT := rfl
    show ChunkShape _ ⟨number, wireTypeOf ProtoType.tint32, _, _⟩
    rw [hwt, hwv, hch2]
    exact ChunkShape.varint number (varintRepr n) hnum
      (varintRepr_lt n (by omega) (by omega))
  · intro recur2
    have hred : postprocessSingleF recur2
        (fieldRec (.mk name ⟨number, .tint32, mt, none, none, false⟩ false
          false nested) (.val (.vint n))).wireType
        (.mk name ⟨number, .tint32, mt, none, none, false⟩ false false
          nested)
        (fieldRec (.mk name ⟨number, .tint32, mt, none, none, false⟩ false
          false nested) (.val (.vint n))).value =
        .ok (.vint (signExtend 32 (varintRepr n))) := rfl
    rw [hred, signExtend_varintRepr 32 (by norm_num) (by norm_num) n
      (by simpa using hlo) (by simpa using hhi)]
    rfl
  · rfl

theorem fieldRoundtrip_int64 (name : String) (number : Nat)
    (mt : Option (ProtoType × ProtoType)) (nested : Option Schema)
    (n : Int) (hnum : number < 2 ^ 29) (hname : name ≠ "")
    (hlo : -2 ^ 63 ≤ n) (hhi : n < 2 ^ 63)
    (hemS : pyEqGo 1 (.vint n)
      (getFieldDefault
        (.mk name ⟨number, .tint64, mt, none, none, false⟩ false false
          nested)) = false) :
    FieldRoundtrip
      (.mk name ⟨number, .tint64, mt, none, none, false⟩ false false nested)
      (.val (.vint n)) := by
  have hch2 : fieldChunk
      (.mk name ⟨number, .tint64, mt, none, none, false⟩ false false nested)
      (.val (.vint n)) =
      encodeVarintNat (number <<< 3) ++ encodeVarintNat (varintRepr n) := by
    rw [fieldChunk_val_nf _ _ (by
        simp [scalarFieldOK, SCALAR_TYPES, FieldDecl.meta, FieldDecl.name,
          FieldDecl.repeated, FieldDecl.optionalHint]
        exact ⟨hname, hnum⟩)
      (by
        show valueOK .tint64 (.vint n) = true
        simp [valueOK]
        omega) hemS]
    rw [show (FieldDecl.mk name ⟨number, .tint64, mt, none, none, false⟩
        false false nested).meta.protoType = ProtoType.tint64 from rfl,
      show (FieldDecl.mk name ⟨number, .tint64, mt, none, none, false⟩
        false false nested).meta.number = number from rfl]
    rw [serializeSingleF_varint _ _ _ (by decide) _, encode_varint_eq_nat]
    rfl
  refine ⟨?_, ?_, ?_⟩
  · have hwv : wireValOf
        (.mk name ⟨number, .tint64, mt, none, none, false⟩ false false
          nested) (.val (.vint n)) = .wnum (varintRepr n) := rfl
    have hwt : wireTypeOf ProtoType.tint64 = WIRE_VARINT := rfl
    show ChunkShape _ ⟨number, wireTypeOf ProtoType.tint64, _, _⟩
    rw [hwt, hwv, hch2]
    exact ChunkShape.varint number (varintRepr n) hnum
      (varintRepr_lt n (by omega) (by omega))
  · intro recur2
    have hred : postprocessSingleF recur2
        (fieldRec (.mk name ⟨number, .tint64, mt, none, none, false⟩ false
          false nested) (.val (.vint n))).wireType
        (.mk name ⟨number, .tint64, mt, none, none, false⟩ false false
          nested)
        (fieldRec (.mk name ⟨number, .tint64, mt, none, none, false⟩ false
          false nested) (.val (.vint n))).value =
        .ok (.vint (signExtend 64 (varintRepr n))) := rfl
    rw [hred, signExtend_varintRepr 64 (by norm_num) (by norm_num) n
      (by simpa using hlo) (by simpa using hhi)]
    rfl
  · rfl

theorem fieldRoundtrip_uintLike (name : String) (number : Nat)
    (mt : Option (ProtoType × ProtoType)) (nested : Option Schema)
    (t : ProtoType) (ht : t ∈ [ProtoType.tenum, .tuint32, .tuint64])
    (n : Int) (hnum : number < 2 ^ 29) (hname : name ≠ "")
    (h0 : 0 ≤ n) (hhi : n < 2 ^ 64)
    (hvalid : valueOK t (.vint n) = true)
    (hemS : pyEqGo 1 (.vint n)
      (getFieldDefault
        (.mk name ⟨number, t, mt, none, none, false⟩ false false
          nested)) = false) :
    FieldRoundtrip
      (.mk name ⟨number, t, mt, none, none, false⟩ false false nested)
      (.val (.vint n)) := by
  have hcast : ((varintRepr n : Nat) : Int) = n := by
    rw [varintRepr, if_neg (by omega)]
    simp only [Int.toNat_of_nonneg h0]
  simp only [List.mem_cons, List.mem_singleton] at ht
  rcases ht with rfl | rfl | rfl | ht
  case inr.inr.inr => exact absurd ht (List.not_mem_nil _)
  case inl => (
    have hch2 : fieldChunk
        (.mk name ⟨number, ProtoType.tenum, mt, none, none, false⟩ false false nested)
        (.val (.vint n)) =
        encodeVarintNat (number <<< 3) ++ encodeVarintNat (varintRepr n) := by
      rw [fieldChunk_val_nf _ _ (by
          simp [scalarFieldOK, SCALAR_TYPES, FieldDecl.meta, FieldDecl.name,
            FieldDecl.repeated, FieldDecl.optionalHint]
          exact ⟨hname, hnum⟩) (by exact hvalid) hemS]
      rw [show (FieldDecl.mk name ⟨number, ProtoType.tenum, mt, none, none, false⟩
          false false nested).meta.protoType = ProtoType.tenum from rfl,
        show (FieldDecl.mk name ⟨number, ProtoType.tenum, mt, none, none, false⟩
          false false nested).meta.number = number from rfl]
      rw [serializeSingleF_varint _ _ _ (by decide) _, encode_varint_eq_nat]
      rfl
    refine ⟨?_, ?_, ?_⟩
    · rw [show (fieldRec (.mk name ⟨number, ProtoType.tenum, mt, none, none, false⟩
          false false nested) (.val (.vint n))) =
        ⟨number, WIRE_VARINT, .wnum (varintRepr n),
          fieldChunk (.mk name ⟨number, ProtoType.tenum, mt, none, none, false⟩ false
            false nested) (.val (.vint n))⟩ from rfl, hch2]
      exact ChunkShape.varint number (varintRepr n) hnum
        (varintRepr_lt n (by omega) hhi)
    · intro recur2
      have hred : postprocessSingleF recur2
          (fieldRec (.mk name ⟨number, ProtoType.tenum, mt, none, none, false⟩ false
            false nested) (.val (.vint n))).wireType
          (.mk name ⟨number, ProtoType.tenum, mt, none, none, false⟩ false false nested)
          (fieldRec (.mk name ⟨number, ProtoType.tenum, mt, none, none, false⟩ false
            false nested) (.val (.vint n))).value =
          .ok (.vint ((varintRepr n : Nat) : Int)) := rfl
      rw [hred, hcast]
      rfl
    · rfl)
  case inr.inl => (
    have hch2 : fieldChunk
        (.mk name ⟨number, .tuint32, mt, none, none, false⟩ false false nested)
        (.val (.vint n)) =
        encodeVarintNat (number <<< 3) ++ encodeVarintNat (varintRepr n) := by
      rw [fieldChunk_val_nf _ _ (by
          simp [scalarFieldOK, SCALAR_TYPES, FieldDecl.meta, FieldDecl.name,
            FieldDecl.repeated, FieldDecl.optionalHint]
          exact ⟨hname, hnum⟩) (by exact hvalid) hemS]
      rw [show (FieldDecl.mk name ⟨number, .tuint32, mt, none, none, false⟩
          false false nested).meta.protoType = ProtoType.tuint32 from rfl,
        show (FieldDecl.mk name ⟨number, .tuint32, mt, none, none, false⟩
          false false nested).meta.number = number from rfl]
      rw [serializeSingleF_varint _ _ _ (by decide) _, encode_varint_eq_nat]
      rfl
    refine ⟨?_, ?_, ?_⟩
    · rw [show (fieldRec (.mk name ⟨number, .tuint32, mt, none, none, false⟩
          false false nested) (.val (.vint n))) =
        ⟨number, WIRE_VARINT, .wnum (varintRepr n),
          fieldChunk (.mk name ⟨number, .tuint32, mt, none, none, false⟩ false
            false nested) (.val (.vint n))⟩ from rfl, hch2]
      exact ChunkShape.varint number (varintRepr n) hnum
        (varintRepr_lt n (by omega) hhi)
    · intro recur2
      have hred : postprocessSingleF recur2
          (fieldRec (.mk name ⟨number, .tuint32, mt, none, none, false⟩ false
            false nested) (.val (.vint n))).wireType
          (.mk name ⟨number, .tuint32, mt, none, none, false⟩ false false nested)
          (fieldRec (.mk name ⟨number, .tuint32, mt, none, none, false⟩ false
            false nested) (.val (.vint n))).value =
          .ok (.vint ((varintRepr n : Nat) : Int)) := rfl
      rw [hred, hcast]
      rfl
    · rfl)
  case inr.inr.inl => (
    have hch2 : fieldChunk
        (.mk name ⟨number, .tuint64, mt, none, none, false⟩ false false nested)
        (.val (.vint n)) =
        encodeVarintNat (number <<< 3) ++ encodeVarintNat (varintRepr n) := by
      rw [fieldChunk_val_nf _ _ (by
          simp [scalarFieldOK, SCALAR_TYPES, FieldDecl.meta, FieldDecl.name,
            FieldDecl.repeated, FieldDecl.optionalHint]
          exact ⟨hname, hnum⟩) (by exact hvalid) hemS]
      rw [show (FieldDecl.mk name ⟨number, .tuint64, mt, none, none, false⟩
          false false nested).meta.protoType = ProtoType.tuint64 from rfl,
        show (FieldDecl.mk name ⟨number, .tuint64, mt, none, none, false⟩
          false false nested).meta.number = number from rfl]
      rw [serializeSingleF_varint _ _ _ (by decide) _, encode_varint_eq_nat]
      rfl
    refine ⟨?_, ?_, ?_⟩
    · rw [show (fieldRec (.mk name ⟨number, .tuint64, mt, none, none, false⟩
          false false nested) (.val (.vint n))) =
        ⟨number, WIRE_VARINT, .wnum (varintRepr n),
          fieldChunk (.mk name ⟨number, .tuint64, mt, none, none, false⟩ false
            false nested) (.val (.vint n))⟩ from rfl, hch2]
      exact ChunkShape.varint number (varintRepr n) hnum
        (varintRepr_lt n (by omega) hhi)
    · intro recur2
      have hred : postprocessSingleF recur2
          (fieldRec (.mk name ⟨number, .tuint64, mt, none, none, false⟩ false
            false nested) (.val (.vint n))).wireType
          (.mk name ⟨number, .tuint64, mt, none, none, false⟩ false false nested)
          (fieldRec (.mk name ⟨number, .tuint64, mt, none, none, false⟩ false
            false nested) (.val (.vint n))).value =
          .ok (.vint ((varintRepr n : Nat) : Int)) := rfl
      rw [hred, hcast]
      rfl
    · rfl)

theorem fieldRoundtrip_sint (name : String) (number : Nat)
    (mt : Option (ProtoType × ProtoType)) (nested : Option Schema)
    (t : ProtoType) (ht : t ∈ [ProtoType.tsint32, .tsint64])
    (n : Int) (hnum : number < 2 ^ 29) (hname : name ≠ "")
    (hlo : -2 ^ 63 ≤ n) (hhi : n < 2 ^ 63)
    (hvalid : valueOK t (.vint n) = true)
    (hemS : pyEqGo 1 (.vint n)
      (getFieldDefault
        (.mk name ⟨number, t, mt, none, none, false⟩ false false
          nested)) = false) :
    FieldRoundtrip
      (.mk name ⟨number, t, mt, none, none, false⟩ false false nested)
      (.val (.vint n)) := by
  have hzlt : varintRepr (zigZag n) < 2 ^ 64 := by
    have hz := zigZag_eq n
    have hznn := zigZag_nonneg n
    refine varintRepr_lt _ (by omega) ?_
    rw [hz]
    by_cases hc : 0 ≤ n
    · rw [if_pos hc]
      omega
    · rw [if_neg hc]
      omega
  simp only [List.mem_cons, List.mem_singleton] at ht
  rcases ht with rfl | rfl | ht
  case inr.inr => exact absurd ht (List.not_mem_nil _)
  case inl => (
    have hch2 : fieldChunk
        (.mk name ⟨number, ProtoType.tsint32, mt, none, none, false⟩ false false nested)
        (.val (.vint n)) =
        encodeVarintNat (number <<< 3) ++
          encodeVarintNat (varintRepr (zigZag n)) := by
      rw [fieldChunk_val_nf _ _ (by
          simp [scalarFieldOK, SCALAR_TYPES, FieldDecl.meta, FieldDecl.name,
            FieldDecl.repeated, FieldDecl.optionalHint]
          exact ⟨hname, hnum⟩) (by exact hvalid) hemS]
      rw [show (FieldDecl.mk name ⟨number, ProtoType.tsint32, mt, none, none, false⟩
          false false nested).meta.protoType = ProtoType.tsint32 from rfl,
        show (FieldDecl.mk name ⟨number, ProtoType.tsint32, mt, none, none, false⟩
          false false nested).meta.number = number from rfl]
      rw [serializeSingleF_sint _ _ _ (by decide) _, encode_varint_eq_nat]
      rfl
    refine ⟨?_, ?_, ?_⟩
    · rw [show (fieldRec (.mk name ⟨number, ProtoType.tsint32, mt, none, none, false⟩
          false false nested) (.val (.vint n))) =
        ⟨number, WIRE_VARINT, .wnum (varintRepr (zigZag n)),
          fieldChunk (.mk name ⟨number, ProtoType.tsint32, mt, none, none, false⟩ false
            false nested) (.val (.vint n))⟩ from rfl, hch2]
      exact ChunkShape.varint number (varintRepr (zigZag n)) hnum hzlt
    · intro recur2
      have hred : postprocessSingleF recur2
          (fieldRec (.mk name ⟨number, ProtoType.tsint32, mt, none, none, false⟩ false
            false nested) (.val (.vint n))).wireType
          (.mk name ⟨number, ProtoType.tsint32, mt, none, none, false⟩ false false nested)
          (fieldRec (.mk name ⟨number, ProtoType.tsint32, mt, none, none, false⟩ false
            false nested) (.val (.vint n))).value =
          .ok (.vint (unZigZag (varintRepr (zigZag n)))) := rfl
      rw [hred, varintRepr_zigZag, unZigZag_zigZag]
      rfl
    · rfl)
  case inr.inl => (
    have hch2 : fieldChunk
        (.mk name ⟨number, .tsint64, mt, none, none, false⟩ false false nested)
        (.val (.vint n)) =
        encodeVarintNat (number <<< 3) ++
          encodeVarintNat (varintRepr (zigZag n)) := by
      rw [fieldChunk_val_nf _ _ (by
          simp [scalarFieldOK, SCALAR_TYPES, FieldDecl.meta, FieldDecl.name,
            FieldDecl.repeated, FieldDecl.optionalHint]
          exact ⟨hname, hnum⟩) (by exact hvalid) hemS]
      rw [show (FieldDecl.mk name ⟨number, .tsint64, mt, none, none, false⟩
          false false nested).meta.protoType = ProtoType.tsint64 from rfl,
        show (FieldDecl.mk name ⟨number, .tsint64, mt, none, none, false⟩
          false false nested).meta.number = number from rfl]
      rw [serializeSingleF_sint _ _ _ (by decide) _, encode_varint_eq_nat]
      rfl
    refine ⟨?_, ?_, ?_⟩
    · rw [show (fieldRec (.mk name ⟨number, .tsint64, mt, none, none, false⟩
          false false nested) (.val (.vint n))) =
        ⟨number, WIRE_VARINT, .wnum (varintRepr (zigZag n)),
          fieldChunk (.mk name ⟨number, .tsint64, mt, none, none, false⟩ false
            false nested) (.val (.vint n))⟩ from rfl, hch2]
      exact ChunkShape.varint number (varintRepr (zigZag n)) hnum hzlt
    · intro recur2
      have hred : postprocessSingleF recur2
          (fieldRec (.mk name ⟨number, .tsint64, mt, none, none, false⟩ false
            false nested) (.val (.vint n))).wireType
          (.mk name ⟨number, .tsint64, mt, none, none, false⟩ false false nested)
          (fieldRec (.mk name ⟨number, .tsint64, mt, none, none, false⟩ false
            false nested) (.val (.vint n))).value =
          .ok (.vint (unZigZag (varintRepr (zigZag n)))) := rfl
      rw [hred, varintRepr_zigZag, unZigZag_zigZag]
      rfl
    · rfl)

theorem fieldRoundtrip_bool (name : String) (number : Nat)
    (mt : Option (ProtoType × ProtoType)) (nested : Option Schema)
    (b : Bool) (hnum : number < 2 ^ 29) (hname : name ≠ "")
    (hemS : pyEqGo 1 (.vbool b)
      (getFieldDefault
        (.mk name ⟨number, .tbool, mt, none, none, false⟩ false false
          nested)) = false) :
    FieldRoundtrip
      (.mk name ⟨number, .tbool, mt, none, none, false⟩ false false nested)
      (.val (.vbool b)) := by
  have hch2 : fieldChunk
      (.mk name ⟨number, .tbool, mt, none, none, false⟩ false false nested)
      (.val (.vbool b)) =
      encodeVarintNat (number <<< 3) ++
        encodeVarintNat (varintRepr (pvToInt (.vbool b))) := by
    rw [fieldChunk_val_nf _ _ (by
        simp [scalarFieldOK, SCALAR_TYPES, FieldDecl.meta, FieldDecl.name,
          FieldDecl.repeated, FieldDecl.optionalHint]
        exact ⟨hname, hnum⟩)
      (by rfl) hemS]
    rw [show (FieldDecl.mk name ⟨number, .tbool, mt, none, none, false⟩
        false false nested).meta.protoType = ProtoType.tbool from rfl,
      show (FieldDecl.mk name ⟨number, .tbool, mt, none, none, false⟩
        false false nested).meta.number = number from rfl]
    rw [serializeSingleF_varint _ _ _ (by decide) _, encode_varint_eq_nat]
  refine ⟨?_, ?_, ?_⟩
  · rw [show (fieldRec (.mk name ⟨number, .tbool, mt, none, none, false⟩
        false false nested) (.val (.vbool b))) =
      ⟨number, WIRE_VARINT, .wnum (varintRepr (pvToInt (.vbool b))),
        fieldChunk (.mk name ⟨number, .tbool, mt, none, none, false⟩ false
          false nested) (.val (.vbool b))⟩ from rfl, hch2]
    exact ChunkShape.varint number (varintRepr (pvToInt (.vbool b))) hnum
      (by cases b <;> decide)
  · intro recur2
    cases b <;> rfl
  · rfl

theorem fieldRoundtrip_fixed32 (name : String) (number : Nat)
    (mt : Option (ProtoType × ProtoType)) (nested : Option Schema)
    (n : Int) (hnum : number < 2 ^ 29) (hname : name ≠ "")
    (h0 : 0 ≤ n) (hhi : n < 2 ^ 32)
    (hemS : pyEqGo 1 (.vint n)
      (getFieldDefault
        (.mk name ⟨number, .tfixed32, mt, none, none, false⟩ false false
          nested)) = false) :
    FieldRoundtrip
      (.mk name ⟨number, .tfixed32, mt, none, none, false⟩ false false
        nested) (.val (.vint n)) := by
  have hch2 : fieldChunk
      (.mk name ⟨number, .tfixed32, mt, none, none, false⟩ false false
        nested) (.val (.vint n)) =
      encodeVarintNat ((number <<< 3) ||| 5) ++ packFixed 4 n := by
    rw [fieldChunk_val_nf _ _ (by
        simp [scalarFieldOK, SCALAR_TYPES, FieldDecl.meta, FieldDecl.name,
          FieldDecl.repeated, FieldDecl.optionalHint]
        exact ⟨hname, hnum⟩)
      (by
        show valueOK .tfixed32 (.vint n) = true
        simp [valueOK]
        omega) hemS]
    rw [show (FieldDecl.mk name ⟨number, .tfixed32, mt, none, none, false⟩
        false false nested).meta.protoType = ProtoType.tfixed32 from rfl,
      show (FieldDecl.mk name ⟨number, .tfixed32, mt, none, none, false⟩
        false false nested).meta.number = number from rfl]
    rw [serializeSingleF_fixed32 _ _ _ (by decide) _]
    rfl
  refine ⟨?_, ?_, ?_⟩
  · rw [show (fieldRec (.mk name ⟨number, .tfixed32, mt, none, none,
        false⟩ false false nested) (.val (.vint n))) =
      ⟨number, WIRE_FIXED_32, .wbytes (packFixed 4 n),
        fieldChunk (.mk name ⟨number, .tfixed32, mt, none, none, false⟩
          false false nested) (.val (.vint n))⟩ from rfl, hch2]
    exact ChunkShape.fixed32 number (packFixed 4 n) hnum
      (by rw [packFixed]; exact toLEBytes_length 4 _)
  · intro recur2
    have hred : postprocessSingleF recur2
        (fieldRec (.mk name ⟨number, .tfixed32, mt, none, none, false⟩
          false false nested) (.val (.vint n))).wireType
        (.mk name ⟨number, .tfixed32, mt, none, none, false⟩ false false
          nested)
        (fieldRec (.mk name ⟨number, .tfixed32, mt, none, none, false⟩
          false false nested) (.val (.vint n))).value =
        .ok (.vint (unpackFixed 4 false (packFixed 4 n))) := rfl
    rw [hred, unpackFixed_packFixed_unsigned 4 n h0 (by norm_num; omega)]
    rfl
  · rfl

theorem fieldRoundtrip_sfixed32 (name : String) (number : Nat)
    (mt : Option (ProtoType × ProtoType)) (nested : Option Schema)
    (n : Int) (hnum : number < 2 ^ 29) (hname : name ≠ "")
    (hlo : -2 ^ 31 ≤ n) (hhi : n < 2 ^ 31)
    (hemS : pyEqGo 1 (.vint n)
      (getFieldDefault
        (.mk name ⟨number, .tsfixed32, mt, none, none, false⟩ false false
          nested)) = false) :
    FieldRoundtrip
      (.mk name ⟨number, .tsfixed32, mt, none, none, false⟩ false false
        nested) (.val (.vint n)) := by
  have hch2 : fieldChunk
      (.mk name ⟨number, .tsfixed32, mt, none, none, false⟩ false false
        nested) (.val (.vint n)) =
      encodeVarintNat ((number <<< 3) ||| 5) ++ packFixed 4 n := by
    rw [fieldChunk_val_nf _ _ (by
        simp [scalarFieldOK, SCALAR_TYPES, FieldDecl.meta, FieldDecl.name,
          FieldDecl.repeated, FieldDecl.optionalHint]
        exact ⟨hname, hnum⟩)
      (by
        show valueOK .tsfixed32 (.vint n) = true
        simp [valueOK]
        omega) hemS]
    rw [show (FieldDecl.mk name ⟨number, .tsfixed32, mt, none, none, false⟩
        false false nested).meta.protoType = ProtoType.tsfixed32 from rfl,
      show (FieldDecl.mk name ⟨number, .tsfixed32, mt, none, none, false⟩
        false false nested).meta.number = number from rfl]
    rw [serializeSingleF_fixed32 _ _ _ (by decide) _]
    rfl
  refine ⟨?_, ?_, ?_⟩
  · rw [show (fieldRec (.mk name ⟨number, .tsfixed32, mt, none, none,
        false⟩ false false nested) (.val (.vint n))) =
      ⟨number, WIRE_FIXED_32, .wbytes (packFixed 4 n),
        fieldChunk (.mk name ⟨number, .tsfixed32, mt, none, none, false⟩
          false false nested) (.val (.vint n))⟩ from rfl, hch2]
    exact ChunkShape.fixed32 number (packFixed 4 n) hnum
      (by rw [packFixed]; exact toLEBytes_length 4 _)
  · intro recur2
    have hred : postprocessSingleF recur2
        (fieldRec (.mk name ⟨number, .tsfixed32, mt, none, none, false⟩
          false false nested) (.val (.vint n))).wireType
        (.mk name ⟨number, .tsfixed32, mt, none, none, false⟩ false false
          nested)
        (fieldRec (.mk name ⟨number, .tsfixed32, mt, none, none, false⟩
          false false nested) (.val (.vint n))).value =
        .ok (.vint (unpackFixed 4 true (packFixed 4 n))) := rfl
    rw [hred, unpackFixed_packFixed_signed 4 (by norm_num) n
      (by norm_num; omega) (by norm_num; omega)]
    rfl
  · rfl

theorem fieldRoundtrip_fixed64 (name : String) (number : Nat)
    (mt : Option (ProtoType × ProtoType)) (nested : Option Schema)
    (n : Int) (hnum : number < 2 ^ 29) (hname : name ≠ "")
    (h0 : 0 ≤ n) (hhi : n < 2 ^ 64)
    (hemS : pyEqGo 1 (.vint n)
      (getFieldDefault
        (.mk name ⟨number, .tfixed64, mt, none, none, false⟩ false false
          nested)) = false) :
    FieldRoundtrip
      (.mk name ⟨number, .tfixed64, mt, none, none, false⟩ false false
        nested) (.val (.vint n)) := by
  have hch2 : fieldChunk
      (.mk name ⟨number, .tfixed64, mt, none, none, false⟩ false false
        nested) (.val (.vint n)) =
      encodeVarintNat ((number <<< 3) ||| 1) ++ packFixed 8 n := by
    rw [fieldChunk_val_nf _ _ (by
        simp [scalarFieldOK, SCALAR_TYPES, FieldDecl.meta, FieldDecl.name,
          FieldDecl.repeated, FieldDecl.optionalHint]
        exact ⟨hname, hnum⟩)
      (by
        show valueOK .tfixed64 (.vint n) = true
        simp [valueOK]
        omega) hemS]
    rw [show (FieldDecl.mk name ⟨number, .tfixed64, mt, none, none, false⟩
        false false nested).meta.protoType = ProtoType.tfixed64 from rfl,
      show (FieldDecl.mk name ⟨number, .tfixed64, mt, none, none, false⟩
        false false nested).meta.number = number from rfl]
    rw [serializeSingleF_fixed64 _ _ _ (by decide) _]
    rfl
  refine ⟨?_, ?_, ?_⟩
  · rw [show (fieldRec (.mk name ⟨number, .tfixed64, mt, none, none,
        false⟩ false false nested) (.val (.vint n))) =
      ⟨number, WIRE_FIXED_64, .wbytes (packFixed 8 n),
        fieldChunk (.mk name ⟨number, .tfixed64, mt, none, none, false⟩
          false false nested) (.val (.vint n))⟩ from rfl, hch2]
    exact ChunkShape.fixed64 number (packFixed 8 n) hnum
      (by rw [packFixed]; exact toLEBytes_length 8 _)
  · intro recur2
    have hred : postprocessSingleF recur2
        (fieldRec (.mk name ⟨number, .tfixed64, mt, none, none, false⟩
          false false nested) (.val (.vint n))).wireType
        (.mk name ⟨number, .tfixed64, mt, none, none, false⟩ false false
          nested)
        (fieldRec (.mk name ⟨number, .tfixed64, mt, none, none, false⟩
          false false nested) (.val (.vint n))).value =
        .ok (.vint (unpackFixed 8 false (packFixed 8 n))) := rfl
    rw [hred, unpackFixed_packFixed_unsigned 8 n h0 (by norm_num; omega)]
    rfl
  · rfl

theorem fieldRoundtrip_sfixed64 (name : String) (number : Nat)
    (mt : Option (ProtoType × ProtoType)) (nested : Option Schema)
    (n : Int) (hnum : number < 2 ^ 29) (hname : name ≠ "")
    (hlo : -2 ^ 63 ≤ n) (hhi : n < 2 ^ 63)
    (hemS : pyEqGo 1 (.vint n)
      (getFieldDefault
        (.mk name ⟨number, .tsfixed64, mt, none, none, false⟩ false false
          nested)) = false) :
    FieldRoundtrip
      (.mk name ⟨number, .tsfixed64, mt, none, none, false⟩ false false
        nested) (.val (.vint n)) := by
  have hch2 : fieldChunk
      (.mk name ⟨number, .tsfixed64, mt, none, none, false⟩ false false
        nested) (.val (.vint n)) =
      encodeVarintNat ((number <<< 3) ||| 1) ++ packFixed 8 n := by
    rw [fieldChunk_val_nf _ _ (by
        simp [scalarFieldOK, SCALAR_TYPES, FieldDecl.meta, FieldDecl.name,
          FieldDecl.repeated, FieldDecl.optionalHint]
        exact ⟨hname, hnum⟩)
      (by
        show valueOK .tsfixed64 (.vint n) = true
        simp [valueOK]
        omega) hemS]
    rw [show (FieldDecl.mk name ⟨number, .tsfixed64, mt, none, none, false⟩
        false false nested).meta.protoType = ProtoType.tsfixed64 from rfl,
      show (FieldDecl.mk name ⟨number, .tsfixed64, mt, none, none, false⟩
        false false nested).meta.number = number from rfl]
    rw [serializeSingleF_fixed64 _ _ _ (by decide) _]
    rfl
  refine ⟨?_, ?_, ?_⟩
  · rw [show (fieldRec (.mk name ⟨number, .tsfixed64, mt, none, none,
        false⟩ false false nested) (.val (.vint n))) =
      ⟨number, WIRE_FIXED_64, .wbytes (packFixed 8 n),
        fieldChunk (.mk name ⟨number, .tsfixed64, mt, none, none, false⟩
          false false nested) (.val (.vint n))⟩ from rfl, hch2]
    exact ChunkShape.fixed64 number (packFixed 8 n) hnum
      (by rw [packFixed]; exact toLEBytes_length 8 _)
  · intro recur2
    have hred : postprocessSingleF recur2
        (fieldRec (.mk name ⟨number, .tsfixed64, mt, none, none, false⟩
          false false nested) (.val (.vint n))).wireType
        (.mk name ⟨number, .tsfixed64, mt, none, none, false⟩ false false
          nested)
        (fieldRec (.mk name ⟨number, .tsfixed64, mt, none, none, false⟩
          false false nested) (.val (.vint n))).value =
        .ok (.vint (unpackFixed 8 true (packFixed 8 n))) := rfl
    rw [hred, unpackFixed_packFixed_signed 8 (by norm_num) n
      (by norm_num; omega) (by norm_num; omega)]
    rfl
  · rfl

theorem fieldRoundtrip_string (name : String) (number : Nat)
    (mt : Option (ProtoType × ProtoType)) (nested : Option Schema)
    (bs : List Nat) (hnum : number < 2 ^ 29) (hname : name ≠ "")
    (hlen : bs.length < 2 ^ 64)
    (hemS : pyEqGo 1 (.vstr bs)
      (getFieldDefault
        (.mk name ⟨number, .tstring, mt, none, none, false⟩ false false
          nested)) = false) :
    FieldRoundtrip
      (.mk name ⟨number, .tstring, mt, none, none, false⟩ false false
        nested) (.val (.vstr bs)) := by
  have hne : (bs == ([] : List Nat)) = false := hemS
  have hlz : ¬ bs.length = 0 := by
    cases bs with
    | nil => exact Bool.noConfusion hne
    | cons a t => simp
  have hch2 : fieldChunk
      (.mk name ⟨number, .tstring, mt, none, none, false⟩ false false
        nested) (.val (.vstr bs)) =
      encodeVarintNat ((number <<< 3) ||| 2) ++
        (encodeVarintNat bs.length ++ bs) := by
    rw [fieldChunk_val_nf _ _ (by
        simp [scalarFieldOK, SCALAR_TYPES, FieldDecl.meta, FieldDecl.name,
          FieldDecl.repeated, FieldDecl.optionalHint]
        exact ⟨hname, hnum⟩)
      (by
        show valueOK .tstring (.vstr bs) = true
        simp [valueOK]
        omega) hemS]
    rw [show (FieldDecl.mk name ⟨number, .tstring, mt, none, none, false⟩
        false false nested).meta.protoType = ProtoType.tstring from rfl,
      show (FieldDecl.mk name ⟨number, .tstring, mt, none, none, false⟩
        false false nested).meta.number = number from rfl]
    rw [serializeSingleF_lenScalar _ _ _ (by decide) _]
    rw [if_neg (by exact hlz)]
    rfl
  refine ⟨?_, ?_, ?_⟩
  · rw [show (fieldRec (.mk name ⟨number, .tstring, mt, none, none,
        false⟩ false false nested) (.val (.vstr bs))) =
      ⟨number, WIRE_LEN_DELIM, .wbytes bs,
        fieldChunk (.mk name ⟨number, .tstring, mt, none, none, false⟩
          false false nested) (.val (.vstr bs))⟩ from rfl, hch2]
    exact ChunkShape.lenDelim number bs hnum hlen
  · intro recur2
    rfl
  · rfl

theorem fieldRoundtrip_bytes (name : String) (number : Nat)
    (mt : Option (ProtoType × ProtoType)) (nested : Option Schema)
    (bs : List Nat) (hnum : number < 2 ^ 29) (hname : name ≠ "")
    (hlen : bs.length < 2 ^ 64)
    (hemS : pyEqGo 1 (.vbytes bs)
      (getFieldDefault
        (.mk name ⟨number, .tbytes, mt, none, none, false⟩ false false
          nested)) = false) :
    FieldRoundtrip
      (.mk name ⟨number, .tbytes, mt, none, none, false⟩ false false
        nested) (.val (.vbytes bs)) := by
  have hne : (bs == ([] : List Nat)) = false := hemS
  have hlz : ¬ bs.length = 0 := by
    cases bs with
    | nil => exact Bool.noConfusion hne
    | cons a t => simp
  have hch2 : fieldChunk
      (.mk name ⟨number, .tbytes, mt, none, none, false⟩ false false
        nested) (.val (.vbytes bs)) =
      encodeVarintNat ((number <<< 3) ||| 2) ++
        (encodeVarintNat bs.length ++ bs) := by
    rw [fieldChunk_val_nf _ _ (by
        simp [scalarFieldOK, SCALAR_TYPES, FieldDecl.meta, FieldDecl.name,
          FieldDecl.repeated, FieldDecl.optionalHint]
        exact ⟨hname, hnum⟩)
      (by
        show valueOK .tbytes (.vbytes bs) = true
        simp [valueOK]
        omega) hemS]
    rw [show (FieldDecl.mk name ⟨number, .tbytes, mt, none, none, false⟩
        false false nested).meta.protoType = ProtoType.tbytes from rfl,
      show (FieldDecl.mk name ⟨number, .tbytes, mt, none, none, false⟩
        false false nested).meta.number = number from rfl]
    rw [serializeSingleF_lenScalar _ _ _ (by decide) _]
    rw [if_neg (by exact hlz)]
    rfl
  refine ⟨?_, ?_, ?_⟩
  · rw [show (fieldRec (.mk name ⟨number, .tbytes, mt, none, none,
        false⟩ false false nested) (.val (.vbytes bs))) =
      ⟨number, WIRE_LEN_DELIM, .wbytes bs,
        fieldChunk (.mk name ⟨number, .tbytes, mt, none, none, false⟩
          false false nested) (.val (.vbytes bs))⟩ from rfl, hch2]
    exact ChunkShape.lenDelim number bs hnum hlen
  · intro recur2
    rfl
  · rfl

/-- A skipped scalar field contributes no bytes. -/
theorem fieldChunk_skip (d : FieldDecl) (r : PRaw)
    (hd : scalarFieldOK d = true) (hr : slotOK d r = true)
    (hem : emittedB d r = false) : fieldChunk d r = [] := by
  rw [fieldChunk, serializeFieldChunkF_scalar_nf (fun _ => []) 0 [] d r hd hr,
    if_pos]
  rw [emittedB, Bool.not_eq_false'] at hem
  exact hem

/-- Every emitted plain scalar slot round-trips through its chunk. -/
theorem fieldRoundtrip_of_scalar (d : FieldDecl) (r : PRaw)
    (hd : scalarFieldOK d = true) (hr : slotOK d r = true)
    (hem : emittedB d r = true) : FieldRoundtrip d r := by
  obtain ⟨name, meta, rep, opt, nested⟩ := d
  obtain ⟨number, t, mt, grp, wr, mopt⟩ := meta
  obtain ⟨hmem, hrep, hopt, hmopt, hgroup, hwraps, hname, hnum⟩ :=
    scalarFieldOK_spec _ hd
  simp only [FieldDecl.meta, FieldDecl.name, FieldDecl.repeated,
    FieldDecl.optionalHint] at hmem hrep hopt hmopt hgroup hwraps hname hnum
  subst hrep hopt hmopt hgroup hwraps
  cases r with
  | unset =>
    exfalso
    have hdef := slotValue_scalar_shaped _ .unset hd rfl
    have hrefl : pyEqGo 1
        (getFieldDefault (.mk name ⟨number, t, mt, none, none, false⟩
          false false nested))
        (getFieldDefault (.mk name ⟨number, t, mt, none, none, false⟩
          false false nested)) = true := pyEqGo_scalar_refl 0 _ hdef.1
    rw [emittedB,
      show slotValue (.mk name ⟨number, t, mt, none, none, false⟩ false
        false nested) .unset =
        getFieldDefault (.mk name ⟨number, t, mt, none, none, false⟩ false
          false nested) from rfl] at hem
    rw [hrefl] at hem
    exact Bool.noConfusion hem
  | val v =>
    have hemS : pyEqGo 1 v
        (getFieldDefault (.mk name ⟨number, t, mt, none, none, false⟩
          false false nested)) = false := by
      rw [emittedB, Bool.not_eq_true'] at hem
      exact hem
    have hvok : valueOK t v = true := hr
    simp only [SCALAR_TYPES, List.mem_cons, List.mem_singleton] at hmem
    rcases hmem with rfl | rfl | rfl | rfl | rfl | rfl | rfl | rfl | rfl |
      rfl | rfl | rfl | rfl | rfl | hmem
    case inr.inr.inr.inr.inr.inr.inr.inr.inr.inr.inr.inr.inr.inr =>
      exact absurd hmem (List.not_mem_nil _)
    -- tbool
    case inl =>
      cases v <;> try exact absurd hvok (fun hx => Bool.noConfusion hx)
      case vbool b =>
        exact fieldRoundtrip_bool name number mt nested b hnum hname hemS
    -- tenum
    case inr.inl =>
      cases v <;> try exact absurd hvok (fun hx => Bool.noConfusion hx)
      case vint n =>
        simp only [valueOK, Bool.and_eq_true, decide_eq_true_eq] at hvok
        exact fieldRoundtrip_uintLike name number mt nested _ (by decide) n
          hnum hname hvok.1 (by omega)
          (by simp [valueOK]; omega) hemS
    -- tint32
    case inr.inr.inl =>
      cases v <;> try exact absurd hvok (fun hx => Bool.noConfusion hx)
      case vint n =>
        simp only [valueOK, Bool.and_eq_true, decide_eq_true_eq] at hvok
        exact fieldRoundtrip_int32 name number mt nested n hnum hname
          hvok.1 hvok.2 hemS
    -- tint64
    case inr.inr.inr.inl =>
      cases v <;> try exact absurd hvok (fun hx => Bool.noConfusion hx)
      case vint n =>
        simp only [valueOK, Bool.and_eq_true, decide_eq_true_eq] at hvok
        exact fieldRoundtrip_int64 name number mt nested n hnum hname
          hvok.1 hvok.2 hemS
    -- tuint32
    case inr.inr.inr.inr.inl =>
      cases v <;> try exact absurd hvok (fun hx => Bool.noConfusion hx)
      case vint n =>
        simp only [valueOK, Bool.and_eq_true, decide_eq_true_eq] at hvok
        exact fieldRoundtrip_uintLike name number mt nested _ (by decide) n
          hnum hname hvok.1 (by omega)
          (by simp [valueOK]; omega) hemS
    -- tuint64
    case inr.inr.inr.inr.inr.inl =>
      cases v <;> try exact absurd hvok (fun hx => Bool.noConfusion hx)
      case vint n =>
        simp only [valueOK, Bool.and_eq_true, decide_eq_true_eq] at hvok
        exact fieldRoundtrip_uintLike name number mt nested _ (by decide) n
          hnum hname hvok.1 (by omega)
          (by simp [valueOK]; omega) hemS
    -- tsint32
    case inr.inr.inr.inr.inr.inr.inl =>
      cases v <;> try exact absurd hvok (fun hx => Bool.noConfusion hx)
      case vint n =>
        simp only [valueOK, Bool.and_eq_true, decide_eq_true_eq] at hvok
        exact fieldRoundtrip_sint name number mt nested _ (by decide) n
          hnum hname (by omega) (by omega)
          (by simp [valueOK]; omega) hemS
    -- tsint64
    case inr.inr.inr.inr.inr.inr.inr.inl =>
      cases v <;> try exact absurd hvok (fun hx => Bool.noConfusion hx)
      case vint n =>
        simp only [valueOK, Bool.and_eq_true, decide_eq_true_eq] at hvok
        exact fieldRoundtrip_sint name number mt nested _ (by decide) n
          hnum hname (by omega) (by omega)
          (by simp [valueOK]; omega) hemS
    -- tfixed32
    case inr.inr.inr.inr.inr.inr.inr.inr.inl =>
      cases v <;> try exact absurd hvok (fun hx => Bool.noConfusion hx)
      case vint n =>
        simp only [valueOK, Bool.and_eq_true, decide_eq_true_eq] at hvok
        exact fieldRoundtrip_fixed32 name number mt nested n hnum hname
          hvok.1 hvok.2 hemS
    -- tfixed64
    case inr.inr.inr.inr.inr.inr.inr.inr.inr.inl =>
      cases v <;> try exact absurd hvok (fun hx => Bool.noConfusion hx)
      case vint n =>
        simp only [valueOK, Bool.and_eq_true, decide_eq_true_eq] at hvok
        exact fieldRoundtrip_fixed64 name number mt nested n hnum hname
          hvok.1 hvok.2 hemS
    -- tsfixed32
    case inr.inr.inr.inr.inr.inr.inr.inr.inr.inr.inl =>
      cases v <;> try exact absurd hvok (fun hx => Bool.noConfusion hx)
      case vint n =>
        simp only [valueOK, Bool.and_eq_true, decide_eq_true_eq] at hvok
        exact fieldRoundtrip_sfixed32 name number mt nested n hnum hname
          hvok.1 hvok.2 hemS
    -- tsfixed64
    case inr.inr.inr.inr.inr.inr.inr.inr.inr.inr.inr.inl =>
      cases v <;> try exact absurd hvok (fun hx => Bool.noConfusion hx)
      case vint n =>
        simp only [valueOK, Bool.and_eq_true, decide_eq_true_eq] at hvok
        exact fieldRoundtrip_sfixed64 name number mt nested n hnum hname
          hvok.1 hvok.2 hemS
    -- tstring
    case inr.inr.inr.inr.inr.inr.inr.inr.inr.inr.inr.inr.inl =>
      cases v <;> try exact absurd hvok (fun hx => Bool.noConfusion hx)
      case vstr bs =>
        simp only [valueOK, decide_eq_true_eq] at hvok
        exact fieldRoundtrip_string name number mt nested bs hnum hname
          hvok hemS
    -- tbytes
    case inr.inr.inr.inr.inr.inr.inr.inr.inr.inr.inr.inr.inr.inl =>
      cases v <;> try exact absurd hvok (fun hx => Bool.noConfusion hx)
      case vbytes bs =>
        simp only [valueOK, decide_eq_true_eq] at hvok
        exact fieldRoundtrip_bytes name number mt nested bs hnum hname
          hvok hemS

/-! ### The deserializing fold on a flat scalar schema -/

theorem postInit_nogroup :
    ∀ (fs : List FieldDecl) (rs : List PRaw)
      (acc : List (String × Option String)),
      (∀ p ∈ fs.zip rs, p.1.meta.group = none) →
      postInitGroupCurrent fs rs acc = acc := by
  intro fs
  induction fs with
  | nil => intro rs acc _; cases rs <;> rfl
  | cons d ds ih =>
    intro rs acc hg
    cases rs with
    | nil => rfl
    | cons r rs2 =>
      rw [postInitGroupCurrent]
      have hd : d.meta.group = none :=
        hg (d, r) (by simp [List.zip_cons_cons])
      rw [hd]
      simp only []
      rw [ite_self]
      exact ih rs2 acc (fun p hp => hg p (by simp [List.zip_cons_cons, hp]))

theorem fieldByNumberAux_mem :
    ∀ (fs : List FieldDecl) (base n : Nat) (p : Nat × FieldDecl),
      fieldByNumberAux base fs n = some p →
      n ∈ fs.map (fun d2 => d2.meta.number) := by
  intro fs
  induction fs with
  | nil =>
    intro base n p h
    rw [fieldByNumberAux] at h
    exact Option.noConfusion h
  | cons d ds ih =>
    intro base n p h
    rw [fieldByNumberAux] at h
    cases hfind : fieldByNumberAux (base + 1) ds n with
    | some q =>
      have := ih (base + 1) n q hfind
      simp [this]
    | none =>
      rw [hfind] at h
      have h2 : (if d.meta.number == n then some (base, d) else none) =
          some p := h
      by_cases he : (d.meta.number == n) = true
      · exact List.mem_map.mpr ⟨d, List.mem_cons_self d ds, by simpa using he⟩
      · rw [if_neg he] at h2
        exact Option.noConfusion h2

theorem fieldByNumberAux_get :
    ∀ (fs : List FieldDecl) (base : Nat) (i : Nat) (d : FieldDecl),
      fs.get? i = some d →
      (fs.map (fun d2 => d2.meta.number)).Nodup →
      fieldByNumberAux base fs d.meta.number = some (base + i, d) := by
  intro fs
  induction fs with
  | nil => intro base i d hi; exact absurd hi (by simp)
  | cons d0 ds ih =>
    intro base i d hi hnodup
    rw [List.map_cons, List.nodup_cons] at hnodup
    obtain ⟨hhead, htail⟩ := hnodup
    rw [fieldByNumberAux]
    match i, hi with
    | 0, hi =>
      have hd0 : d0 = d := by simpa using hi
      have hnone : fieldByNumberAux (base + 1) ds d.meta.number = none := by
        cases hfind : fieldByNumberAux (base + 1) ds d.meta.number with
        | none => rfl
        | some p =>
          exact absurd
            (fieldByNumberAux_mem ds (base + 1) d.meta.number p hfind)
            (hd0 ▸ hhead)
      rw [hnone]
      simp [hd0]
    | i + 1, hi =>
      simp only [List.get?] at hi
      rw [ih (base + 1) i d hi htail]
      have : base + 1 + i = base + (i + 1) := by omega
      rw [this]

theorem fieldByNumber_get (s : Schema) (i : Nat) (d : FieldDecl)
    (hi : s.fields.get? i = some d)
    (hnums : (s.fields.map (fun d2 => d2.meta.number)).Nodup) :
    fieldByNumber s d.meta.number = some (i, d) := by
  have h := fieldByNumberAux_get s.fields 0 i d hi hnums
  rw [fieldByNumber, h]
  simp

theorem fieldIndex_get (s : Schema) (i : Nat) (d : FieldDecl)
    (hi : s.fields.get? i = some d)
    (hnames : (s.fields.map FieldDecl.name).Nodup) :
    fieldIndex s d.name = some i := by
  have hmem : d ∈ s.fields := by
    have := List.get?_mem hi
    exact this
  obtain ⟨i2, hfind, hget, huniq⟩ :=
    fieldIndexAux_spec s.fields d hmem hnames
  have : i = i2 := huniq i d hi rfl
  rw [fieldIndex, hfind, this]

/-- The slots after folding the records of the zip elements from offset
`k`. -/
def updFrom (R : List PRaw) (k : Nat) :
    List (FieldDecl × PRaw) → List PRaw
  | [] => R
  | p :: ps =>
    updFrom (if emittedB p.1 p.2 then R.set k (.val (slotValue p.1 p.2))
      else R) (k + 1) ps

theorem updFrom_length (ps : List (FieldDecl × PRaw)) :
    ∀ (R : List PRaw) (k : Nat), (updFrom R k ps).length = R.length := by
  induction ps with
  | nil => intro R k; rfl
  | cons p ps ih =>
    intro R k
    rw [updFrom, ih]
    split <;> simp

theorem updFrom_cons (ps : List (FieldDecl × PRaw)) :
    ∀ (r0 : PRaw) (R : List PRaw) (k : Nat),
      updFrom (r0 :: R) (k + 1) ps = r0 :: updFrom R k ps := by
  induction ps with
  | nil => intro r0 R k; rfl
  | cons p ps ih =>
    intro r0 R k
    rw [updFrom, updFrom]
    split
    · rw [List.set_cons_succ, ih]
    · rw [ih]

theorem scalar_ne_tmap (t : ProtoType) (ht : t ∈ SCALAR_TYPES) :
    (t == ProtoType.tmap) = false := by
  fin_cases ht <;> rfl

theorem beqSymm {α : Type} [BEq α] [LawfulBEq α] (a b : α) :
    (a == b) = (b == a) := by
  by_cases h : a = b
  · subst h; rfl
  · rw [beq_eq_false_iff_ne.mpr h, beq_eq_false_iff_ne.mpr (Ne.symm h)]

theorem pyEqGo_scalar_symm (k : Nat) (v w : PValue)
    (hv : scalarShaped v = true) :
    pyEqGo (k + 1) v w = pyEqGo (k + 1) w v := by
  cases v <;> simp [scalarShaped] at hv <;> cases w <;>
    first
      | rfl
      | exact beqSymm _ _

/-- One deserializing step on a plain scalar field's own record: the
in-range value lands in the field's slot and nothing else moves. -/
theorem deserializeStepF_scalar
    (recur : Schema → List Nat → Except String PMsg)
    (eq : PValue → PValue → Bool) (s : Schema) (R : List PRaw)
    (i : Nat) (d : FieldDecl) (r : PRaw)
    (hnums : (s.fields.map (fun d2 => d2.meta.number)).Nodup)
    (hnames : (s.fields.map FieldDecl.name).Nodup)
    (hi : s.fields.get? i = some d)
    (hd : scalarFieldOK d = true) (hr : slotOK d r = true)
    (hrt : FieldRoundtrip d r)
    (hslot : R.get? i = some PRaw.unset) :
    deserializeStepF recur eq (PMsg.mk s R true [] []) (fieldRec d r) =
      .ok (PMsg.mk s (R.set i (.val (slotValue d r))) true [] []) := by
  obtain ⟨hmemT, hrep, hopt, hmopt, hgrp, hwraps, hname, hnum⟩ :=
    scalarFieldOK_spec d hd
  obtain ⟨-, hpost, hpacked⟩ := hrt
  have hpost2 := hpost recur
  simp only [fieldRec] at hpost2 hpacked
  have hnumF : fieldByNumber s d.meta.number = some (i, d) :=
    fieldByNumber_get s i d hi hnums
  have hidx : fieldIndex s d.name = some i := fieldIndex_get s i d hi hnames
  have hnameF : (d.name == "") = false := beq_eq_false_iff_ne.mpr hname
  have hcur : msgGetattr (PMsg.mk s R true [] []) d.name =
      getFieldDefault d := by
    simp only [msgGetattr, PMsg.schema, PMsg.raws, hidx, hslot, hi]
  have htm : (d.meta.protoType == ProtoType.tmap) = false :=
    scalar_ne_tmap _ hmemT
  have hsetattr : msgSetattr (PMsg.mk s R true [] []) d.name (slotValue d r) =
      PMsg.mk s (R.set i (.val (slotValue d r))) true [] [] := by
    simp only [msgSetattr, PMsg.schema, PMsg.raws, PMsg.unknownFields,
      PMsg.groupCurrent, hidx, hi, hgrp]
  have hgds : scalarShaped (getFieldDefault d) = true :=
    (slotValue_scalar_shaped d .unset hd rfl).1
  simp only [deserializeStepF, fieldRec, PMsg.schema, hnumF, hnameF, hpacked,
    hpost2, hcur, htm, Bool.false_eq_true, if_false]
  cases hgd : getFieldDefault d
  case vmsg mm => rw [hgd] at hgds; exact Bool.noConfusion hgds
  case vlist xs => rw [hgd] at hgds; exact Bool.noConfusion hgds
  case vdict kvs => rw [hgd] at hgds; exact Bool.noConfusion hgds
  all_goals exact congrArg Except.ok hsetattr

/-- The deserializing fold over the records of a flat scalar message's
own serialization: each record sets its field's slot. -/
theorem deserializeFold_scalar
    (recur : Schema → List Nat → Except String PMsg)
    (eq : PValue → PValue → Bool) (s : Schema)
    (hnums : (s.fields.map (fun d2 => d2.meta.number)).Nodup)
    (hnames : (s.fields.map FieldDecl.name).Nodup) :
    ∀ (fs : List FieldDecl) (rs : List PRaw) (k : Nat) (R : List PRaw),
      s.fields.drop k = fs →
      fs.length = rs.length →
      (∀ p ∈ fs.zip rs, scalarFieldOK p.1 = true ∧ slotOK p.1 p.2 = true) →
      (∀ j, k ≤ j → j < s.fields.length → R.get? j = some PRaw.unset) →
      deserializeFieldsGoF recur eq (PMsg.mk s R true [] [])
          (((fs.zip rs).filter (fun p => emittedB p.1 p.2)).map
            (fun p => fieldRec p.1 p.2)) =
        .ok (PMsg.mk s (updFrom R k (fs.zip rs)) true [] []) := by
  intro fs
  induction fs with
  | nil => intro rs k R _ _ _ _; rfl
  | cons d ds ih =>
    intro rs k R hdrop hlen hp hinv
    cases rs with
    | nil => exact absurd hlen (by simp)
    | cons r rs2 =>
      have hk : s.fields.get? k = some d := by
        have h0 : (s.fields.drop k).get? 0 = some d := by rw [hdrop]; rfl
        rw [List.get?_drop] at h0
        simpa using h0
      have hklen : k < s.fields.length := by
        by_contra hcon
        rw [List.get?_eq_none.mpr (by omega)] at hk
        exact Option.noConfusion hk
      have hdrop2 : s.fields.drop (k + 1) = ds := by
        have h2 := congrArg (List.drop 1) hdrop
        rw [List.drop_drop] at h2
        simpa using h2
      have hdr := hp (d, r) (by simp [List.zip_cons_cons])
      have hptail : ∀ p ∈ ds.zip rs2,
          scalarFieldOK p.1 = true ∧ slotOK p.1 p.2 = true :=
        fun p hp2 => hp p (by simp [List.zip_cons_cons, hp2])
      have hlen2 : ds.length = rs2.length := by simpa using hlen
      rw [List.zip_cons_cons]
      simp only [List.filter_cons, updFrom]
      by_cases hem : emittedB d r = true
      · rw [if_pos hem, if_pos hem, List.map_cons]
        have hrt := fieldRoundtrip_of_scalar d r hdr.1 hdr.2 hem
        have hstep := deserializeStepF_scalar recur eq s R k d r hnums hnames
          hk hdr.1 hdr.2 hrt (hinv k (Nat.le_refl k) hklen)
        rw [deserializeFieldsGoF, hstep]
        exact ih rs2 (k + 1) (R.set k (.val (slotValue d r))) hdrop2 hlen2
          hptail (fun j hj hjl => by
            rw [List.get?_set_ne _ _ (by omega : k ≠ j)]
            exact hinv j (by omega) hjl)
      · rw [if_neg hem, if_neg hem]
        exact ih rs2 (k + 1) R hdrop2 hlen2 hptail
          (fun j hj hjl => hinv j (by omega) hjl)

theorem flatMap_congr_mem {α β : Type} (l : List α) (f g : α → List β)
    (h : ∀ x ∈ l, f x = g x) : l.flatMap f = l.flatMap g := by
  induction l with
  | nil => rfl
  | cons a t ih =>
    rw [List.flatMap_cons, List.flatMap_cons, h a (by simp),
      ih (fun x hx => h x (by simp [hx]))]

theorem fieldChunk_eq_nf (d : FieldDecl) (r : PRaw)
    (hd : scalarFieldOK d = true) (hr : slotOK d r = true) :
    fieldChunk d r =
      if pyEqGo 1 (slotValue d r) (getFieldDefault d) = true then []
      else serializeSingleF (fun _ => []) d.meta.number d.meta.protoType
        (slotValue d r) false none :=
  serializeFieldChunkF_scalar_nf (fun _ => []) 0 [] d r hd hr

/-- `serialize_to_bytes` of a flat scalar message is the concatenation of
the per-field chunks in declaration order. -/
theorem serializeMsgGo_flat (s : Schema) (raws : List PRaw) (fuel : Nat)
    (hflat : ∀ p ∈ s.fields.zip raws,
      scalarFieldOK p.1 = true ∧ slotOK p.1 p.2 = true) :
    serializeMsgGo (fuel + 1) (mkMessage s raws) =
      (s.fields.zip raws).flatMap (fun p => fieldChunk p.1 p.2) := by
  have hgc0 : postInitGroupCurrent s.fields raws [] = [] :=
    postInit_nogroup s.fields raws []
      (fun p hp => (scalarFieldOK_spec p.1 (hflat p hp).1).2.2.2.2.1)
  rw [serializeMsgGo]
  rw [show (mkMessage s raws).groupCurrent =
    postInitGroupCurrent s.fields raws [] from rfl, hgc0]
  rw [show (mkMessage s raws).schema.fields = s.fields from rfl,
    show (mkMessage s raws).raws = raws from rfl,
    show (mkMessage s raws).unknownFields = ([] : List Nat) from rfl,
    List.append_nil]
  rw [serializeFieldsF_eq_flatMap]
  exact flatMap_congr_mem _ _ _ (fun p hp =>
    (serializeFieldChunkF_scalar_nf (serializeMsgGo fuel) fuel [] p.1 p.2
        (hflat p hp).1 (hflat p hp).2).trans
      (fieldChunk_eq_nf p.1 p.2 (hflat p hp).1 (hflat p hp).2).symm)

/-- Skipped fields contribute nothing, so only the emitted fields' chunks
remain. -/
theorem flatMap_filter_emitted :
    ∀ ps : List (FieldDecl × PRaw),
      (∀ p ∈ ps, scalarFieldOK p.1 = true ∧ slotOK p.1 p.2 = true) →
      ps.flatMap (fun p => fieldChunk p.1 p.2) =
        (ps.filter (fun p => emittedB p.1 p.2)).flatMap
          (fun p => fieldChunk p.1 p.2) := by
  intro ps
  induction ps with
  | nil => intro _; rfl
  | cons p ps ih =>
    intro h
    rw [List.flatMap_cons]
    simp only [List.filter_cons]
    by_cases hem : emittedB p.1 p.2 = true
    · rw [if_pos hem, List.flatMap_cons,
        ih (fun q hq => h q (List.mem_cons_of_mem _ hq))]
    · have hemf : emittedB p.1 p.2 = false := by
        revert hem; cases emittedB p.1 p.2 <;> simp
      rw [if_neg hem,
        fieldChunk_skip p.1 p.2 (h p (List.mem_cons_self p ps)).1
          (h p (List.mem_cons_self p ps)).2 hemf,
        List.nil_append]
      exact ih (fun q hq => h q (List.mem_cons_of_mem _ hq))

/-- Parsing a concatenation of well-shaped field chunks recovers exactly
the per-field records, in order. -/
theorem parse_of_chunks_list (ps : List (FieldDecl × PRaw))
    (hsh : ∀ p ∈ ps, ChunkShape (fieldChunk p.1 p.2) (fieldRec p.1 p.2)) :
    parse_fields (ps.flatMap (fun p => fieldChunk p.1 p.2)) =
      .ok (ps.map (fun p => fieldRec p.1 p.2)) := by
  have hv : ps.flatMap (fun p => fieldChunk p.1 p.2) =
      [] ++ (ps.map (fun p => (fieldChunk p.1 p.2, fieldRec p.1 p.2))).flatMap
        Prod.fst := by
    rw [List.nil_append, List.flatMap_map]
  have h := parse_chunks
    (ps.map (fun p => (fieldChunk p.1 p.2, fieldRec p.1 p.2))) []
    (ps.flatMap (fun p => fieldChunk p.1 p.2))
    (ps.flatMap (fun p => fieldChunk p.1 p.2)).length hv
    (fun q hq => by
      obtain ⟨p, hpmem, rfl⟩ := List.mem_map.mp hq
      exact hsh p hpmem)
    (by simp)
  have h2 : parse_fields (ps.flatMap (fun p => fieldChunk p.1 p.2)) =
      .ok ((ps.map (fun p => (fieldChunk p.1 p.2, fieldRec p.1 p.2))).map
        Prod.snd) := h
  rw [h2, List.map_map]
  rfl

/-- The slots after the fold compare `==`-equal to the original slots. -/
theorem fieldsEqF_updFrom (fuel : Nat) :
    ∀ (fs : List FieldDecl) (rs R0 : List PRaw),
      (∀ p ∈ fs.zip rs, scalarFieldOK p.1 = true ∧ slotOK p.1 p.2 = true) →
      fs.length = rs.length → R0.length = fs.length →
      (∀ e ∈ R0, e = PRaw.unset) →
      fieldsEqF (pyEqGo (fuel + 1)) fs (updFrom R0 0 (fs.zip rs)) rs =
        true := by
  intro fs
  induction fs with
  | nil => intro rs R0 _ _ _ _; rfl
  | cons d ds ih =>
    intro rs R0 hp hlen hlenR hunset
    cases rs with
    | nil => exact absurd hlen (by simp)
    | cons r rs2 =>
      cases R0 with
      | nil => exact absurd hlenR (by simp)
      | cons u0 R0' =>
        have hu0 : u0 = PRaw.unset := hunset u0 (by simp)
        subst hu0
        obtain ⟨hd, hr⟩ := hp (d, r) (by simp [List.zip_cons_cons])
        have hshape := (slotValue_scalar_shaped d r hd hr).1
        have hdefshape : scalarShaped (getFieldDefault d) = true :=
          (slotValue_scalar_shaped d .unset hd rfl).1
        have htailok : ∀ p ∈ ds.zip rs2,
            scalarFieldOK p.1 = true ∧ slotOK p.1 p.2 = true :=
          fun p hp2 => hp p (by simp [List.zip_cons_cons, hp2])
        have htail := ih rs2 R0' htailok (by simpa using hlen)
          (by simpa using hlenR) (fun e he => hunset e (by simp [he]))
        rw [List.zip_cons_cons]
        simp only [updFrom]
        by_cases hem : emittedB d r = true
        · rw [if_pos hem,
            show (PRaw.unset :: R0').set 0 (PRaw.val (slotValue d r)) =
              PRaw.val (slotValue d r) :: R0' from rfl,
            updFrom_cons, fieldsEqF, Bool.and_eq_true]
          refine ⟨?_, htail⟩
          cases r with
          | unset =>
            exact pyEqGo_scalar_refl fuel (slotValue d PRaw.unset) hshape
          | val w => exact pyEqGo_scalar_refl fuel w hshape
        · rw [if_neg hem, updFrom_cons, fieldsEqF, Bool.and_eq_true]
          refine ⟨?_, htail⟩
          cases r with
          | unset => rfl
          | val w =>
            show pyEqGo (fuel + 1) (getFieldDefault d) w = true
            have hemf : emittedB d (.val w) = false := by
              revert hem; cases emittedB d (.val w) <;> simp
            have h1 : pyEqGo 1 w (getFieldDefault d) = true := by
              rw [emittedB, Bool.not_eq_false'] at hemf
              exact hemf
            rw [← pyEqGo_scalar_stable 0 fuel (getFieldDefault d) w hdefshape,
              pyEqGo_scalar_symm 0 (getFieldDefault d) w hdefshape]
            exact h1

theorem zip_get_mem {α β : Type} :
    ∀ (l1 : List α) (l2 : List β) (i : Nat) (a : α) (b : β),
      l1.get? i = some a → l2.get? i = some b → (a, b) ∈ l1.zip l2 := by
  intro l1
  induction l1 with
  | nil => intro l2 i a b h1 _; simp at h1
  | cons x t ih =>
    intro l2 i a b h1 h2
    cases l2 with
    | nil => simp at h2
    | cons y t2 =>
      cases i with
      | zero =>
        obtain rfl : x = a := by simpa using h1
        obtain rfl : y = b := by simpa using h2
        simp [List.zip_cons_cons]
      | succ i =>
        simp only [List.get?] at h1 h2
        rw [List.zip_cons_cons]
        exact List.mem_cons_of_mem _ (ih t2 i a b h1 h2)

/-! ## Claim C1: serialize/deserialize round trip -/

/-- Positive scope of the serialize/deserialize round trip, supporting
the C1 analysis: for a message whose declared fields are plain scalars
(no `repeated`/`optional`/one-of/wrapper, distinct names and numbers)
holding in-range values with non-negative enums, deserializing the
serialized bytes succeeds and the result compares `==`-equal to the
original message — so the round-trip failure exhibited by
`c1_enum_negative_breaks_roundtrip` is isolated to the decoder's missing
`TYPE_ENUM` sign extension, not to the codec at large. -/
theorem c1_scalar_roundtrip (s : Schema) (raws : List PRaw) (fuel : Nat)
    (hlen : raws.length = s.fields.length)
    (hok : ∀ p ∈ s.fields.zip raws,
      scalarFieldOK p.1 = true ∧ slotOK p.1 p.2 = true)
    (hnums : (s.fields.map (fun d2 => d2.meta.number)).Nodup)
    (hnames : (s.fields.map FieldDecl.name).Nodup) :
    ∃ m2,
      deserialize_from_bytes s (serializeMsgGo (fuel + 1) (mkMessage s raws))
        = .ok m2 ∧
      msgEqGo (fuel + 1) m2 (mkMessage s raws) = true := by
  have hflatAll : ∀ d ∈ s.fields, scalarFieldOK d = true := by
    intro d hdm
    obtain ⟨j, hj⟩ := List.get?_of_mem hdm
    have hjlen : j < s.fields.length := by
      by_contra hcon
      rw [List.get?_eq_none.mpr (by omega)] at hj
      exact Option.noConfusion hj
    cases hrj : raws.get? j with
    | none =>
      rw [List.get?_eq_none] at hrj
      omega
    | some r =>
      exact (hok (d, r) (zip_get_mem s.fields raws j d r hj hrj)).1
  have hR0 : ∀ j, 0 ≤ j → j < s.fields.length →
      (s.fields.map (fun d2 => defaultRaw d2.meta)).get? j =
        some PRaw.unset := by
    intro j _ hjl
    rw [List.get?_map]
    cases hj : s.fields.get? j with
    | none =>
      rw [List.get?_eq_none] at hj
      omega
    | some d =>
      have hopt :=
        (scalarFieldOK_spec d (hflatAll d (List.get?_mem hj))).2.2.2.1
      simp [defaultRaw, hopt]
  have hR0mem : ∀ e ∈ s.fields.map (fun d2 => defaultRaw d2.meta),
      e = PRaw.unset := by
    intro e he
    obtain ⟨d, hdmem, rfl⟩ := List.mem_map.mp he
    have hopt := (scalarFieldOK_spec d (hflatAll d hdmem)).2.2.2.1
    simp [defaultRaw, hopt]
  have hdata : serializeMsgGo (fuel + 1) (mkMessage s raws) =
      ((s.fields.zip raws).filter (fun p => emittedB p.1 p.2)).flatMap
        (fun p => fieldChunk p.1 p.2) :=
    (serializeMsgGo_flat s raws fuel hok).trans
      (flatMap_filter_emitted (s.fields.zip raws) hok)
  have hshapes : ∀ p ∈ (s.fields.zip raws).filter
      (fun p => emittedB p.1 p.2),
      ChunkShape (fieldChunk p.1 p.2) (fieldRec p.1 p.2) := by
    intro p hpf
    have hmem := List.mem_of_mem_filter hpf
    have hem : emittedB p.1 p.2 = true := by
      have := List.of_mem_filter hpf
      simpa using this
    exact (fieldRoundtrip_of_scalar p.1 p.2 (hok p hmem).1 (hok p hmem).2
      hem).1
  have hparse := parse_of_chunks_list
    ((s.fields.zip raws).filter (fun p => emittedB p.1 p.2)) hshapes
  have hgcD : postInitGroupCurrent s.fields
      (s.fields.map (fun d2 => defaultRaw d2.meta)) [] = [] :=
    postInit_nogroup _ _ _ (fun p hp =>
      (scalarFieldOK_spec p.1
        (hflatAll p.1 (List.of_mem_zip hp).1)).2.2.2.2.1)
  have hinit : setSerializedOnWire (defaultMsg s) true =
      PMsg.mk s (s.fields.map (fun d2 => defaultRaw d2.meta)) true [] [] := by
    simp only [setSerializedOnWire, defaultMsg, mkMessage, PMsg.schema,
      PMsg.raws, PMsg.unknownFields, PMsg.groupCurrent, hgcD]
  have hfold := deserializeFold_scalar
    (deserializeGo ((((s.fields.zip raws).filter
      (fun p => emittedB p.1 p.2)).flatMap
        (fun p => fieldChunk p.1 p.2)).length))
    (pyEqGo (((((s.fields.zip raws).filter
      (fun p => emittedB p.1 p.2)).flatMap
        (fun p => fieldChunk p.1 p.2)).length) + 1))
    s hnums hnames s.fields raws 0
    (s.fields.map (fun d2 => defaultRaw d2.meta)) rfl hlen.symm hok hR0
  refine ⟨PMsg.mk s
    (updFrom (s.fields.map (fun d2 => defaultRaw d2.meta)) 0
      (s.fields.zip raws)) true [] [], ?_, ?_⟩
  · simp only [deserialize_from_bytes]
    rw [hdata, deserializeGo, hparse, hinit]
    exact hfold
  · simp only [msgEqGo, msgEqF, PMsg.schema, PMsg.raws, mkMessage]
    rw [schemaBeq_refl, Bool.true_and]
    exact fieldsEqF_updFrom fuel s.fields raws _ hok hlen.symm (by simp)
      hR0mem

def c1WSchema : Schema :=
  .mk [⟨"a", ⟨1, .tint32, none, none, none, false⟩, false, false, none⟩,
       ⟨"b", ⟨2, .tstring, none, none, none, false⟩, false, false, none⟩,
       ⟨"c", ⟨3, .tbool, none, none, none, false⟩, false, false, none⟩]

def c1WRaws : List PRaw :=
  [.val (.vint (-5)), .val (.vstr [104, 105]), .val (.vbool true)]

theorem c1_scalar_roundtrip_witness :
    ∃ m2,
      deserialize_from_bytes c1WSchema
          (serializeMsgGo (0 + 1) (mkMessage c1WSchema c1WRaws))
        = .ok m2 ∧
      msgEqGo (0 + 1) m2 (mkMessage c1WSchema c1WRaws) = true :=
  c1_scalar_roundtrip c1WSchema c1WRaws 0 (by decide) (by decide)
    (by decide) (by decide)

def c1XSchema : Schema :=
  .mk [⟨"e", ⟨1, .tenum, none, none, none, false⟩, false, false, none⟩]

/-- C1: `decode(encode(m)) == m` fails in the code on a message whose
declared `enum` field holds the valid value `-1`: encoding emits the
ten-byte two's-complement varint, but `_postprocess_single` sign-extends
only `TYPE_INT32`/`TYPE_INT64` and has no `TYPE_ENUM` case, so the
decoded message holds `2^64 - 1` and compares `==`-unequal to the
original — the missing sign extension is a decoder bug against the
protobuf wire contract (enums share int32 varint semantics on the
wire). -/
theorem c1_enum_negative_breaks_roundtrip :
    Except.map
        (fun m2 => msgEqGo 1 m2 (mkMessage c1XSchema [.val (.vint (-1))]))
        (deserialize_from_bytes c1XSchema
          (serializeMsgGo 1 (mkMessage c1XSchema [.val (.vint (-1))]))) =
      .ok false := by
  rfl

/-! ## The protoc plugin (src/cbiproto/plugin)

The descriptor dataclasses (`CodeGeneratorRequest`, `CodeGeneratorResponse`,
`FileDescriptorProto`, `DescriptorProto`, ...) come from
`cbiproto.lib.google.protobuf`, a generated package that is not part of
this repository's sources; they are modelled here from their documented
protobuf shapes, keeping exactly the fields `parser.py` and `utils.py`
read.  Python-side effects are made explicit parameters: the compiled file
content (`outputfile_compiler`), the filesystem probe (`Path.exists`), and
the enumeration order of a Python `set` (hash-dependent in CPython). -/

/-- `DescriptorProto`: its name, nested enum names and nested types. -/
inductive PDescriptor where
  | mk (name : String) (enumType : List String)
       (nestedType : List PDescriptor)

/-- `FileDescriptorProto`, restricted to the fields the plugin reads. -/
structure PFileDesc where
  name : String
  package : String
  enumType : List String
  messageType : List PDescriptor
  serviceNames : List String

structure CGRequestP where
  parameter : String
  protoFile : List PFileDesc

structure CGFileP where
  name : String
  content : String
deriving DecidableEq

structure CGResponseP where
  supportedFeatures : Nat
  file : List CGFileP

def FEATURE_PROTO3_OPTIONAL : Nat := 1

/-- The `output_packages` dict of `generate_code` (parser.py:63-80):
skip `google.protobuf` unless requested, skip files with no messages,
enums or services, and group the rest by package in first-seen order. -/
def alAppendPkg (al : List (String × List PFileDesc)) (pkg : String)
    (fd : PFileDesc) : List (String × List PFileDesc) :=
  if (al.map Prod.fst).contains pkg then
    al.map (fun p => if p.1 = pkg then (p.1, p.2 ++ [fd]) else p)
  else al ++ [(pkg, [fd])]

def collectPackages (includeGoogle : Bool) (protos : List PFileDesc) :
    List (String × List PFileDesc) :=
  protos.foldl (fun acc proto =>
    if proto.package == "google.protobuf" && !includeGoogle then acc
    else if proto.messageType.isEmpty && proto.enumType.isEmpty &&
        proto.serviceNames.isEmpty then acc
    else alAppendPkg acc proto.package proto) []

/-- `pathlib.Path(*pkg_name.split("."), "__init__.py")` as its component
list (`pathlib` drops empty components). -/
def pathOfPkg (pkg : String) : List String :=
  (pkg.splitOn ".").filter (fun c => c ≠ "") ++ ["__init__.py"]

/-- `Path.parents`: every proper ancestor directory, nearest first. -/
def parentsOf (p : List String) : List (List String) :=
  (List.range p.length).reverse.map (fun k => p.take k)

def dedupFirst (l : List (List String)) : List (List String) :=
  l.foldl (fun acc x => if x ∈ acc then acc else acc ++ [x]) []

/-- `generate_code` (parser.py:52-128) as far as the response object is
concerned: the per-package output files in package first-seen order, then
one empty `__init__.py` per not-yet-existing ancestor directory (a Python
`set`, iterated in the unspecified order `setOrder`), with
`supported_features` set at construction. -/
def generate_code (includeGoogle : Bool)
    (compile : String → List PFileDesc → String)
    (existsFS : List String → Bool)
    (setOrder : List (List String) → List (List String))
    (req : CGRequestP) : CGResponseP :=
  let pkgs := collectPackages includeGoogle req.protoFile
  let outputPaths := pkgs.map (fun p => pathOfPkg p.1)
  let mainFiles := pkgs.map (fun p =>
    CGFileP.mk (String.intercalate "/" (pathOfPkg p.1)) (compile p.1 p.2))
  let initCands := dedupFirst (outputPaths.flatMap (fun path =>
    ((parentsOf path).map (fun dir => dir ++ ["__init__.py"])).filter
      (fun q => !existsFS q)))
  let inits := initCands.filter (fun q => !outputPaths.contains q)
  CGResponseP.mk FEATURE_PROTO3_OPTIONAL
    (mainFiles ++ (setOrder inits).map (fun q =>
      CGFileP.mk (String.intercalate "/" q) ""))

/-- C7: a `CodeGeneratorRequest` with zero `proto_file` entries produces a
response whose file list is empty, and `supported_features =
FEATURE_PROTO3_OPTIONAL` is set on every response regardless of input. -/
theorem c7_empty_request (includeGoogle : Bool)
    (compile : String → List PFileDesc → String)
    (existsFS : List String → Bool)
    (setOrder : List (List String) → List (List String)) (param : String)
    (hperm : ∀ l, (setOrder l).Perm l) :
    (generate_code includeGoogle compile existsFS setOrder
      (CGRequestP.mk param [])).file = [] ∧
    ∀ req, (generate_code includeGoogle compile existsFS setOrder
      req).supportedFeatures = FEATURE_PROTO3_OPTIONAL := by
  constructor
  · show [] ++ (setOrder []).map (fun q =>
      CGFileP.mk (String.intercalate "/" q) "") = []
    rw [(hperm []).eq_nil]
    rfl
  · intro req
    rfl

theorem c7_empty_request_witness :
    (generate_code false (fun _ _ => "") (fun _ => false) (fun l => l)
      (CGRequestP.mk "" [])).file = [] ∧
    ∀ req, (generate_code false (fun _ _ => "") (fun _ => false)
      (fun l => l) req).supportedFeatures = FEATURE_PROTO3_OPTIONAL :=
  c7_empty_request false (fun _ _ => "") (fun _ => false) (fun l => l) ""
    (fun l => List.Perm.refl l)

/-! ## Claim C8: import iteration order (utils.py:42-45) -/

/-- Python `set.add`: membership only; `getAllImports` receives the set's
iteration order separately, because CPython does not specify it (string
hashing is randomized per process). -/
def setAdd (s : List String) (x : String) : List String :=
  if x ∈ s then s else s ++ [x]

/-- `TypeManager.module_import` (utils.py:53-55): record
`"import {module}"` in the `_imports` set and return the qualified name. -/
def moduleImport (imports : List String) (module nm : String) :
    List String × String :=
  (setAdd imports ("import " ++ module), module ++ "." ++ nm)

/-- `TypeManager.get_all_imports` (utils.py:42-45): `yield from
self._imports` in the set's iteration order `importsEnum`, then one
`from ... ` line per `_from_imports` entry. -/
def getAllImports (importsEnum : List String)
    (fromImports : List (String × List String)) : List String :=
  importsEnum ++ fromImports.map
    (fun p => "from " ++ p.1 ++ " import " ++ String.intercalate ", " p.2)

/-- C8: the import lines are emitted in the raw iteration order of the
`_imports` set.  Two enumeration orders of the same two-element set (both
orders arise in CPython, whose string hashes are randomized per process)
yield different outputs, so the iteration order is neither sorted nor
stable across runs. -/
theorem c8_import_iteration_order_leaks :
    (moduleImport
        (moduleImport ([] : List String) "zlib" "compress").1
        "abc" "ABC").1 = ["import zlib", "import abc"] ∧
    List.Perm (getAllImports ["import zlib", "import abc"] [])
      (getAllImports ["import abc", "import zlib"] []) ∧
    getAllImports ["import zlib", "import abc"] [] ≠
      getAllImports ["import abc", "import zlib"] [] :=
  ⟨rfl, by decide, by decide⟩

/-! ## Claim C9: per-file processing order (parser.py:30-49, 85-100) -/

/-- A yielded `(item, qualname)` of `traverse`: the flattened dotted name
together with whether the descriptor is an enum or a message. -/
inductive TItem where
  | enum (qualname : String)
  | msg (qualname : String)
deriving DecidableEq

def TItem.qualname : TItem → String
  | .enum q => q
  | .msg q => q

def TItem.isEnum : TItem → Bool
  | .enum _ => true
  | .msg _ => false

/-- `".".join(filter(None, [prefix, item.name]))`. -/
def joinQual (pre nm : String) : String :=
  if pre = "" then nm else if nm = "" then pre else pre ++ "." ++ nm

/-- `traverse._traverse` on one message: yield the message, then its
nested enums, then its nested messages recursively (parser.py:34-47). -/
def traverseMsgGo : Nat → String → PDescriptor → List TItem
  | 0, _, _ => []
  | fuel + 1, pre, .mk nm enums nested =>
    let q := joinQual pre nm
    TItem.msg q :: (enums.map (fun e => TItem.enum (joinQual q e)) ++
      nested.flatMap (fun d2 => traverseMsgGo fuel q d2))

/-- `traverse` (parser.py:30-49): the file's top-level enums, then its
top-level messages with their nested types. -/
def traverseFile (fuel : Nat) (fd : PFileDesc) : List TItem :=
  fd.enumType.map (fun e => TItem.enum (joinQual "" e)) ++
    fd.messageType.flatMap (fun d => traverseMsgGo fuel "" d)

/-- A Python dict built by insertion: first-insertion position, last value
(`items = {qualname: (item, path) for ...}`, parser.py:86). -/
def dictUpd (al : List (String × TItem)) (kv : String × TItem) :
    List (String × TItem) :=
  if (al.map Prod.fst).contains kv.1 then
    al.map (fun p => if p.1 = kv.1 then (p.1, kv.2) else p)
  else al ++ [kv]

def dictOfItems (l : List TItem) : List (String × TItem) :=
  l.foldl (fun al it => dictUpd al (TItem.qualname it, it)) []

/-- `x.count(".")`. -/
def dotCount (s : String) : Nat :=
  (s.toList.filter (fun c => c = '.')).length

/-- Python `sorted` with a `Nat` key: stable ascending insertion sort. -/
def insertStable {α : Type} (f : α → Nat) (a : α) : List α → List α
  | [] => [a]
  | b :: t => if f b < f a then b :: insertStable f a t else a :: b :: t

def stableSortBy {α : Type} (f : α → Nat) : List α → List α
  | [] => []
  | a :: t => insertStable f a (stableSortBy f t)

/-- `for key in sorted(items.keys(), key=lambda x: x.count(".")):
read_protobuf_type(item=items[key], ...)` (parser.py:87-99): the items of
one input file in processing order. -/
def processedItems (fuel : Nat) (fd : PFileDesc) : List TItem :=
  (stableSortBy (fun p => dotCount p.1)
    (dictOfItems (traverseFile fuel fd))).map Prod.snd

theorem mem_insertStable {α : Type} (f : α → Nat) (a x : α) :
    ∀ l, x ∈ insertStable f a l ↔ x = a ∨ x ∈ l := by
  intro l
  induction l with
  | nil => simp [insertStable]
  | cons b t ih =>
    rw [insertStable]
    split
    · rw [List.mem_cons, ih, List.mem_cons]
      tauto
    · exact List.mem_cons

theorem insertStable_sorted {α : Type} (f : α → Nat) (a : α) :
    ∀ l, l.Pairwise (fun x y => f x ≤ f y) →
      (insertStable f a l).Pairwise (fun x y => f x ≤ f y) := by
  intro l
  induction l with
  | nil => intro _; simp [insertStable]
  | cons b t ih =>
    intro hp
    rw [List.pairwise_cons] at hp
    obtain ⟨hb, ht⟩ := hp
    rw [insertStable]
    split
    · rw [List.pairwise_cons]
      refine ⟨?_, ih ht⟩
      intro y hy
      rcases (mem_insertStable f a y t).mp hy with rfl | hyt
      · omega
      · exact hb y hyt
    · rw [List.pairwise_cons]
      constructor
      · intro y hy
        rcases List.mem_cons.mp hy with rfl | hyt
        · omega
        · have := hb y hyt
          omega
      · rw [List.pairwise_cons]
        exact ⟨hb, ht⟩

theorem insertStable_filter {α : Type} (f : α → Nat) (a : α) :
    ∀ l (n : Nat),
      (insertStable f a l).filter (fun x => f x == n) =
        ((a :: l).filter (fun x => f x == n)) := by
  intro l
  induction l with
  | nil => intro n; rfl
  | cons b t ih =>
    intro n
    rw [insertStable]
    split
    case isTrue hba =>
      by_cases hbn : (f b == n) = true
      · have han : (f a == n) = false := by
          rw [beq_iff_eq] at hbn
          rw [beq_eq_false_iff_ne]
          omega
        simp [List.filter_cons, hbn, han, ih n]
      · simp [List.filter_cons, hbn, ih n]
    case isFalse hba => rfl

theorem stableSortBy_sorted {α : Type} (f : α → Nat) :
    ∀ l : List α,
      (stableSortBy f l).Pairwise (fun x y => f x ≤ f y) := by
  intro l
  induction l with
  | nil => simp [stableSortBy]
  | cons a t ih => exact insertStable_sorted f a _ ih

theorem stableSortBy_filter {α : Type} (f : α → Nat) :
    ∀ (l : List α) (n : Nat),
      (stableSortBy f l).filter (fun x => f x == n) =
        l.filter (fun x => f x == n) := by
  intro l
  induction l with
  | nil => intro n; rfl
  | cons a t ih =>
    intro n
    rw [stableSortBy, insertStable_filter f a _ n, List.filter_cons,
      List.filter_cons, ih n]

/-- C9: within one input file the types are processed in the stable
ascending sort of the flattened `traverse` order by dot count of the
qualified name: dot counts never decrease along the processing order, and
among names with the same dot count the `traverse`/dict order (top-level
enums, then each message followed by its nested enums and nested
messages) is preserved unchanged.  Outer types therefore precede their
nested types, but enums and messages interleave level by level — see the
counterexample. -/
theorem c9_processing_order (fuel : Nat) (fd : PFileDesc) :
    (stableSortBy (fun p => dotCount p.1)
        (dictOfItems (traverseFile fuel fd))).Pairwise
      (fun p q => dotCount p.1 ≤ dotCount q.1) ∧
    (∀ n, (stableSortBy (fun p => dotCount p.1)
        (dictOfItems (traverseFile fuel fd))).filter
          (fun p => dotCount p.1 == n) =
      (dictOfItems (traverseFile fuel fd)).filter
        (fun p => dotCount p.1 == n)) ∧
    processedItems fuel fd =
      (stableSortBy (fun p => dotCount p.1)
        (dictOfItems (traverseFile fuel fd))).map Prod.snd :=
  ⟨stableSortBy_sorted _ _, fun n => stableSortBy_filter _ _ n, rfl⟩

/-- C9 counterexample: a file with one message `M` holding one nested enum
`M.E` is processed as `[message M, enum M.E]` — an enum is processed after
a message, so the processing order is not "enums, then messages". -/
theorem c9_nested_enum_after_message :
    processedItems 2
        (PFileDesc.mk "f.proto" "pkg" [] [PDescriptor.mk "M" ["E"] []] []) =
      [TItem.msg "M", TItem.enum "M.E"] ∧
    ((processedItems 2
        (PFileDesc.mk "f.proto" "pkg" [] [PDescriptor.mk "M" ["E"] []]
          [])).dropWhile TItem.isEnum).any TItem.isEnum = true :=
  ⟨rfl, rfl⟩

end CbProto
